import Mathlib

/-!
Verification of the document-structuring core of the ETL pipeline
(`src/json_to_schema.py` and `src/schema_to_chunks.py`).

The Python source is shallowly embedded: strings are `String`/`List Char`
(the ASCII fragment of Python's `re` semantics, which is the fragment the
pipeline's inputs exercise), bytes are `List Nat`, dictionaries are
insertion-ordered association lists, and the mutable processing state is
threaded explicitly.  Recursive traversals that are not structurally
recursive are given an explicit fuel argument (always called with enough
fuel, as proved where needed) so that every definition is executable and
kernel-reducible.
-/

namespace ETL

/-! ## Character classes (ASCII fragment of Python's `str`/`re` semantics) -/

/-- Python whitespace (`str.split`, `str.strip`, regex `\s`): space, tab,
newline, carriage return, vertical tab, form feed. -/
def isPySpace (c : Char) : Bool :=
  c == ' ' || c == '\t' || c == '\n' || c == '\r' ||
  c == Char.ofNat 11 || c == Char.ofNat 12

/-- ASCII digit, the fragment of regex `\d` exercised by the pipeline. -/
def isAsciiDigit (c : Char) : Bool :=
  '0' ≤ c && c ≤ '9'

/-- ASCII letter, the fragment of `[A-Z]` + `re.IGNORECASE` exercised here. -/
def isAsciiLetter (c : Char) : Bool :=
  ('a' ≤ c && c ≤ 'z') || ('A' ≤ c && c ≤ 'Z')

/-- Regex word character (`\w` / the classes relevant to `\b`). -/
def isWordChar (c : Char) : Bool :=
  isAsciiLetter c || isAsciiDigit c || c == '_'

/-- Python `str.strip()` on a character list. -/
def pyStrip (l : List Char) : List Char :=
  ((l.dropWhile isPySpace).reverse.dropWhile isPySpace).reverse

/-! ## `strip_html` (json_to_schema.py lines 96-100)

`HTML_TAG_RE = re.compile(r'<[^>]+>')`; `strip_html` substitutes every
non-overlapping match by the empty string and then strips whitespace.
A match starts at a `<` and runs to the first later `>` with at least one
character in between. -/

/-- One left-to-right pass of `HTML_TAG_RE.sub('', ·)`.  Fuel is consumed
once per examined character and is always sufficient at `length + 1`. -/
def stripTagsGo : Nat → List Char → List Char
  | 0, l => l
  | _ + 1, [] => []
  | fuel + 1, c :: rest =>
    if c == '<' then
      match rest.findIdx? (fun d => d == '>') with
      | some k => if 1 ≤ k then stripTagsGo fuel (rest.drop (k + 1)) else c :: stripTagsGo fuel rest
      | none => c :: stripTagsGo fuel rest
    else c :: stripTagsGo fuel rest

/-- `strip_html` from json_to_schema.py: remove HTML tags, then strip
whitespace (`HTML_TAG_RE.sub('', html).strip()`; the `if not html` guard
is absorbed since both branches yield `""` on empty input). -/
def strip_html (s : String) : String :=
  (pyStrip (stripTagsGo (s.toList.length + 1) s.toList)).asString

/-! ## `detect_image_format` (json_to_schema.py lines 102-121) -/

/-- Python `bytes.startswith` on byte lists. -/
def pyStartsWith : List Nat → List Nat → Bool
  | [], _ => true
  | _ :: _, [] => false
  | a :: s, b :: t => a == b && pyStartsWith s t

/-- `b"\x89PNG"` -/
def pngSig : List Nat := [0x89, 0x50, 0x4E, 0x47]
/-- `b"\xff\xd8\xff"` -/
def jpgSig : List Nat := [0xFF, 0xD8, 0xFF]
/-- `b"GIF8"` -/
def gifSig : List Nat := [0x47, 0x49, 0x46, 0x38]
/-- `b"BM"` -/
def bmpSig : List Nat := [0x42, 0x4D]
/-- `b"RIFF"` -/
def riffSig : List Nat := [0x52, 0x49, 0x46, 0x46]
/-- `b"WEBP"` -/
def webpSig : List Nat := [0x57, 0x45, 0x42, 0x50]

/-- The `RIFF....WEBP` container check of `detect_image_format`:
`len(data) >= 12 and data[:4] == b"RIFF" and data[8:12] == b"WEBP"`. -/
def webpCheck (data : List Nat) : Bool :=
  decide (12 ≤ data.length) && data.take 4 == riffSig && (data.drop 8).take 4 == webpSig

/-- `detect_image_format` from json_to_schema.py: magic-byte sniffing with
a `.bin` default. -/
def detect_image_format (data : List Nat) : String :=
  if data = [] then ".bin"
  else if pyStartsWith pngSig data then ".png"
  else if pyStartsWith jpgSig data then ".jpg"
  else if pyStartsWith gifSig data then ".gif"
  else if pyStartsWith bmpSig data then ".bmp"
  else if webpCheck data then ".webp"
  else ".bin"

/-- A nonempty signature forces the first byte of any byte string it
prefixes. -/
theorem pyStartsWith_head {a : Nat} {s d : List Nat}
    (h : pyStartsWith (a :: s) d = true) : ∃ t, d = a :: t := by
  cases d with
  | nil => simp [pyStartsWith] at h
  | cons b t =>
    simp only [pyStartsWith, Bool.and_eq_true, beq_iff_eq] at h
    exact ⟨t, by rw [h.1]⟩

/-- `webpCheck` forces the first byte `0x52`. -/
theorem webpCheck_head {d : List Nat} (h : webpCheck d = true) :
    ∃ t, d = 0x52 :: t := by
  simp only [webpCheck, Bool.and_eq_true, beq_iff_eq, decide_eq_true_eq] at h
  obtain ⟨⟨hlen, htake⟩, -⟩ := h
  cases d with
  | nil => simp at hlen
  | cons b t =>
    refine ⟨t, ?_⟩
    have : b = 0x52 := by
      have := congrArg (fun l => l.head?) htake
      simpa [riffSig, List.take] using this
    rw [this]

/-- Claim C7: `detect_image_format` is pure and total (a Lean function into
`String`), and on every byte sequence it returns exactly one of the six
tags, namely `.png` exactly on a `\x89PNG` prefix, `.jpg` on `\xff\xd8\xff`,
`.gif` on `GIF8`, `.bmp` on `BM`, `.webp` exactly when the length is at
least 12 with bytes 0-3 `RIFF` and 8-11 `WEBP`, and `.bin` in every other
case (including the empty sequence). -/
theorem detect_image_format_spec (data : List Nat) :
    detect_image_format data ∈ [".png", ".jpg", ".gif", ".bmp", ".webp", ".bin"] ∧
    (detect_image_format data = ".png" ↔ pyStartsWith pngSig data = true) ∧
    (detect_image_format data = ".jpg" ↔ pyStartsWith jpgSig data = true) ∧
    (detect_image_format data = ".gif" ↔ pyStartsWith gifSig data = true) ∧
    (detect_image_format data = ".bmp" ↔ pyStartsWith bmpSig data = true) ∧
    (detect_image_format data = ".webp" ↔ webpCheck data = true) ∧
    (detect_image_format data = ".bin" ↔
      (pyStartsWith pngSig data = false ∧ pyStartsWith jpgSig data = false ∧
       pyStartsWith gifSig data = false ∧ pyStartsWith bmpSig data = false ∧
       webpCheck data = false)) := by
  have hdPng : pyStartsWith pngSig data = true → data.head? = some 0x89 := fun h => by
    obtain ⟨t, rfl⟩ := pyStartsWith_head (show pyStartsWith (0x89 :: [0x50, 0x4E, 0x47]) data = true from h); rfl
  have hdJpg : pyStartsWith jpgSig data = true → data.head? = some 0xFF := fun h => by
    obtain ⟨t, rfl⟩ := pyStartsWith_head (show pyStartsWith (0xFF :: [0xD8, 0xFF]) data = true from h); rfl
  have hdGif : pyStartsWith gifSig data = true → data.head? = some 0x47 := fun h => by
    obtain ⟨t, rfl⟩ := pyStartsWith_head (show pyStartsWith (0x47 :: [0x49, 0x46, 0x38]) data = true from h); rfl
  have hdBmp : pyStartsWith bmpSig data = true → data.head? = some 0x42 := fun h => by
    obtain ⟨t, rfl⟩ := pyStartsWith_head (show pyStartsWith (0x42 :: [0x4D]) data = true from h); rfl
  have hdWebp : webpCheck data = true → data.head? = some 0x52 := fun h => by
    obtain ⟨t, rfl⟩ := webpCheck_head h; rfl
  by_cases hempty : data = []
  · subst hempty
    refine ⟨by simp [detect_image_format], ?_⟩
    simp [detect_image_format, pyStartsWith, pngSig, jpgSig, gifSig, bmpSig, webpCheck]
  · by_cases hpng : pyStartsWith pngSig data = true
    · have hjpg : pyStartsWith jpgSig data = false := by
        cases h : pyStartsWith jpgSig data
        · rfl
        · exact absurd ((hdPng hpng).symm.trans (hdJpg h)) (by decide)
      have hgif : pyStartsWith gifSig data = false := by
        cases h : pyStartsWith gifSig data
        · rfl
        · exact absurd ((hdPng hpng).symm.trans (hdGif h)) (by decide)
      have hbmp : pyStartsWith bmpSig data = false := by
        cases h : pyStartsWith bmpSig data
        · rfl
        · exact absurd ((hdPng hpng).symm.trans (hdBmp h)) (by decide)
      have hwebp : webpCheck data = false := by
        cases h : webpCheck data
        · rfl
        · exact absurd ((hdPng hpng).symm.trans (hdWebp h)) (by decide)
      have h1 : detect_image_format data = ".png" := by
        simp [detect_image_format, hempty, hpng]
      rw [h1]
      refine ⟨by simp, by simp [hpng], by simp [hjpg], by simp [hgif],
        by simp [hbmp], by simp [hwebp], ?_⟩
      simp [hpng]
    · by_cases hjpg : pyStartsWith jpgSig data = true
      · have hgif : pyStartsWith gifSig data = false := by
          cases h : pyStartsWith gifSig data
          · rfl
          · exact absurd ((hdJpg hjpg).symm.trans (hdGif h)) (by decide)
        have hbmp : pyStartsWith bmpSig data = false := by
          cases h : pyStartsWith bmpSig data
          · rfl
          · exact absurd ((hdJpg hjpg).symm.trans (hdBmp h)) (by decide)
        have hwebp : webpCheck data = false := by
          cases h : webpCheck data
          · rfl
          · exact absurd ((hdJpg hjpg).symm.trans (hdWebp h)) (by decide)
        have h1 : detect_image_format data = ".jpg" := by
          simp [detect_image_format, hempty, hpng, hjpg]
        rw [h1]
        refine ⟨by simp, by simp [hpng], by simp [hjpg], by simp [hgif],
          by simp [hbmp], by simp [hwebp], ?_⟩
        simp [hjpg]
      · by_cases hgif : pyStartsWith gifSig data = true
        · have hbmp : pyStartsWith bmpSig data = false := by
            cases h : pyStartsWith bmpSig data
            · rfl
            · exact absurd ((hdGif hgif).symm.trans (hdBmp h)) (by decide)
          have hwebp : webpCheck data = false := by
            cases h : webpCheck data
            · rfl
            · exact absurd ((hdGif hgif).symm.trans (hdWebp h)) (by decide)
          have h1 : detect_image_format data = ".gif" := by
            simp [detect_image_format, hempty, hpng, hjpg, hgif]
          rw [h1]
          refine ⟨by simp, by simp [hpng], by simp [hjpg], by simp [hgif],
            by simp [hbmp], by simp [hwebp], ?_⟩
          simp [hgif]
        · by_cases hbmp : pyStartsWith bmpSig data = true
          · have hwebp : webpCheck data = false := by
              cases h : webpCheck data
              · rfl
              · exact absurd ((hdBmp hbmp).symm.trans (hdWebp h)) (by decide)
            have h1 : detect_image_format data = ".bmp" := by
              simp [detect_image_format, hempty, hpng, hjpg, hgif, hbmp]
            rw [h1]
            refine ⟨by simp, by simp [hpng], by simp [hjpg], by simp [hgif],
              by simp [hbmp], by simp [hwebp], ?_⟩
            simp [hbmp]
          · by_cases hwebp : webpCheck data = true
            · have h1 : detect_image_format data = ".webp" := by
                simp [detect_image_format, hempty, hpng, hjpg, hgif, hbmp, hwebp]
              rw [h1]
              refine ⟨by simp, by simp [hpng], by simp [hjpg], by simp [hgif],
                by simp [hbmp], by simp [hwebp], ?_⟩
              simp [hwebp]
            · have h1 : detect_image_format data = ".bin" := by
                simp [detect_image_format, hempty, hpng, hjpg, hgif, hbmp, hwebp]
              rw [h1]
              refine ⟨by simp, by simp [hpng], by simp [hjpg], by simp [hgif],
                by simp [hbmp], by simp [hwebp], ?_⟩
              simp only [true_iff]
              exact ⟨by simpa using hpng, by simpa using hjpg, by simpa using hgif,
                by simpa using hbmp, by simpa using hwebp⟩

/-! ## `REQ_RE` and `extract_requirements` (json_to_schema.py lines 18, 159-184)

`REQ_RE = re.compile(r'\b(shall not|shall|should|may)\b', re.IGNORECASE)`.
The scan below embeds the backtracking regex semantics: `finditer` tries
start positions left to right; at a position the alternatives are tried in
pattern order, each requiring a case-insensitive literal match plus a word
boundary on both sides; matches are non-overlapping. -/

/-- Case-insensitive literal prefix test (pattern chars are lowercase;
a text char matches when its `toLower` equals the pattern char, the ASCII
fragment of `re.IGNORECASE`). -/
def ciStartsWith : List Char → List Char → Bool
  | [], _ => true
  | _ :: _, [] => false
  | a :: ks, b :: ls => (b.toLower == a) && ciStartsWith ks ls

/-- `\b` just before position `i`, for a pattern whose first character is a
word character: position 0, or a non-word character before. -/
def boundaryBefore (t : List Char) (i : Nat) : Bool :=
  match i with
  | 0 => true
  | j + 1 => !isWordChar (t.getD j ' ')

/-- `\b` just after position `j` (exclusive end), for a pattern whose last
character is a word character: end of string, or a non-word character at `j`. -/
def boundaryAfter (t : List Char) (j : Nat) : Bool :=
  !isWordChar (t.getD j ' ')

/-- The alternatives of `REQ_RE`, in pattern order. -/
def reqAlts : List (List Char) :=
  ["shall not".toList, "shall".toList, "should".toList, "may".toList]

/-- Try the `REQ_RE` alternatives at position `i` in pattern order. -/
def matchKwAt (t : List Char) (i : Nat) : Option (List Char) :=
  if boundaryBefore t i then
    reqAlts.find? (fun k => ciStartsWith k (t.drop i) && boundaryAfter t (i + k.length))
  else none

/-- `REQ_RE.finditer`: scan start positions left to right, emitting
non-overlapping matches.  Fuel `t.length + 1` always suffices. -/
def finditerReqGo : Nat → List Char → Nat → List (Nat × List Char)
  | 0, _, _ => []
  | fuel + 1, t, i =>
    if i ≤ t.length then
      match matchKwAt t i with
      | some k => (i, k) :: finditerReqGo fuel t (i + k.length)
      | none => finditerReqGo fuel t (i + 1)
    else []

/-- All matches of `REQ_RE` in `t`, as (start position, matched alternative). -/
def finditerReq (t : List Char) : List (Nat × List Char) :=
  finditerReqGo (t.length + 1) t 0

/-- The `requirement_map` dictionary of `extract_requirements`. -/
def requirementTypeMap (k : String) : Option String :=
  if k = "shall not" then some "prohibition"
  else if k = "shall" then some "mandatory"
  else if k = "should" then some "recommendation"
  else if k = "may" then some "permission"
  else none

/-- `Requirement` dataclass. -/
structure Requirement where
  type : String
  keyword : String
  text : String
deriving DecidableEq, Repr

/-- `match.group(1).lower()`: the matched slice of `t`, lowercased. -/
def reqKwOf (t : List Char) (i : Nat) (k : List Char) : String :=
  (((t.drop i).take k.length).map Char.toLower).asString

/-- The `for match in REQ_RE.finditer(text)` loop body of
`extract_requirements`: lowercase the matched group, look it up in
`requirement_map`, and stop after the first hit (`break`). -/
def reqLoop (text : String) (t : List Char) : List (Nat × List Char) → List Requirement
  | [] => []
  | (i, k) :: rest =>
    match requirementTypeMap (reqKwOf t i k) with
    | some ty => [Requirement.mk ty (reqKwOf t i k) text]
    | none => reqLoop text t rest

/-- `extract_requirements` from json_to_schema.py. -/
def extract_requirements (text : String) : List Requirement :=
  if text.toList = [] then []
  else reqLoop text text.toList (finditerReq text.toList)

/-- A modal keyword of `REQ_RE` occurs at position `i` of `t`:
it is one of the four alternatives, matches case-insensitively, and has a
word boundary on both sides. -/
def kwOccursAt (t : List Char) (i : Nat) (k : List Char) : Prop :=
  k ∈ reqAlts ∧ ciStartsWith k (t.drop i) = true ∧
    boundaryBefore t i = true ∧ boundaryAfter t (i + k.length) = true

instance (t : List Char) (i : Nat) (k : List Char) : Decidable (kwOccursAt t i k) := by
  unfold kwOccursAt; infer_instance

/-- Position of an alternative in `REQ_RE`'s alternation order
(`shall not` before `shall` before `should` before `may`). -/
def altRank (k : List Char) : Nat :=
  if k = "shall not".toList then 0
  else if k = "shall".toList then 1
  else if k = "should".toList then 2
  else if k = "may".toList then 3
  else 4

/-- A case-insensitive match forces the lowercased text slice to equal the
pattern. -/
theorem ciStartsWith_take {k l : List Char} (h : ciStartsWith k l = true) :
    (l.take k.length).map Char.toLower = k := by
  induction k generalizing l with
  | nil => simp
  | cons a ks ih =>
    cases l with
    | nil => simp [ciStartsWith] at h
    | cons b ls =>
      simp only [ciStartsWith, Bool.and_eq_true, beq_iff_eq] at h
      simp [List.take, h.1, ih h.2]

/-- A keyword occurrence lies strictly inside the text. -/
theorem kwOccursAt_lt_length {t : List Char} {i : Nat} {k : List Char}
    (h : kwOccursAt t i k) : i < t.length := by
  obtain ⟨hmem, hci, -, -⟩ := h
  have hk : k ≠ [] := by
    simp only [reqAlts, List.mem_cons, List.not_mem_nil, or_false] at hmem
    rcases hmem with h | h | h | h <;> subst h <;> simp [String.toList]
  cases hkk : k with
  | nil => exact absurd hkk hk
  | cons a ks =>
    subst hkk
    cases hd : t.drop i with
    | nil => rw [hd] at hci; simp [ciStartsWith] at hci
    | cons b ls =>
      by_contra hlt
      push_neg at hlt
      rw [List.drop_eq_nil_of_le hlt] at hd
      exact List.noConfusion hd

/-- What a successful alternative lookup at position `i` means: the found
alternative occurs at `i`, and it is the alternation-first one among those
occurring at `i`. -/
theorem matchKwAt_some {t : List Char} {i : Nat} {k : List Char}
    (h : matchKwAt t i = some k) :
    kwOccursAt t i k ∧ ∀ k2, kwOccursAt t i k2 → altRank k ≤ altRank k2 := by
  unfold matchKwAt at h
  by_cases hbb : boundaryBefore t i = true
  · rw [if_pos hbb] at h
    set p : List Char → Bool :=
      fun k => ciStartsWith k (t.drop i) && boundaryAfter t (i + k.length) with hp
    have hocc : ∀ k2, kwOccursAt t i k2 → p k2 = true := by
      intro k2 hk2
      obtain ⟨-, hci, -, hba⟩ := hk2
      simp [hp, hci, hba]
    have hocc2 : ∀ k2, k2 ∈ reqAlts → p k2 = true → kwOccursAt t i k2 := by
      intro k2 hmem hpk
      simp only [hp, Bool.and_eq_true] at hpk
      exact ⟨hmem, hpk.1, hbb, hpk.2⟩
    have hfind : reqAlts.find? p = some k := h
    simp only [reqAlts, List.find?] at hfind
    by_cases h1 : p ("shall not".toList) = true
    · simp only [h1, cond_true] at hfind  -- hmm find? unfolds to match, fix below
      injection hfind with hk
      subst hk
      refine ⟨hocc2 _ (by simp [reqAlts]) h1, fun k2 _ => ?_⟩
      simp [altRank]
    · rw [Bool.not_eq_true] at h1
      simp only [h1, cond_false] at hfind
      by_cases h2 : p ("shall".toList) = true
      · simp only [h2, cond_true] at hfind
        injection hfind with hk
        subst hk
        refine ⟨hocc2 _ (by simp [reqAlts]) h2, fun k2 hk2 => ?_⟩
        have := hocc k2 hk2
        obtain ⟨hmem, -, -, -⟩ := hk2
        simp only [reqAlts, List.mem_cons, List.not_mem_nil, or_false] at hmem
        rcases hmem with hm | hm | hm | hm <;> subst hm <;>
          simp_all [altRank]
      · rw [Bool.not_eq_true] at h2
        simp only [h2, cond_false] at hfind
        by_cases h3 : p ("should".toList) = true
        · simp only [h3, cond_true] at hfind
          injection hfind with hk
          subst hk
          refine ⟨hocc2 _ (by simp [reqAlts]) h3, fun k2 hk2 => ?_⟩
          have := hocc k2 hk2
          obtain ⟨hmem, -, -, -⟩ := hk2
          simp only [reqAlts, List.mem_cons, List.not_mem_nil, or_false] at hmem
          rcases hmem with hm | hm | hm | hm <;> subst hm <;>
            simp_all [altRank]
        · rw [Bool.not_eq_true] at h3
          simp only [h3, cond_false] at hfind
          by_cases h4 : p ("may".toList) = true
          · simp only [h4, cond_true] at hfind
            injection hfind with hk
            subst hk
            refine ⟨hocc2 _ (by simp [reqAlts]) h4, fun k2 hk2 => ?_⟩
            have := hocc k2 hk2
            obtain ⟨hmem, -, -, -⟩ := hk2
            simp only [reqAlts, List.mem_cons, List.not_mem_nil, or_false] at hmem
            rcases hmem with hm | hm | hm | hm <;> subst hm <;>
              simp_all [altRank]
          · rw [Bool.not_eq_true] at h4
            simp only [h4, cond_false] at hfind
            exact Option.noConfusion hfind
  · rw [if_neg hbb] at h
    exact Option.noConfusion h

/-- A failed alternative lookup means no keyword occurs at that position. -/
theorem matchKwAt_none {t : List Char} {i : Nat}
    (h : matchKwAt t i = none) : ∀ k, ¬ kwOccursAt t i k := by
  intro k hk
  obtain ⟨hmem, hci, hbb, hba⟩ := hk
  unfold matchKwAt at h
  rw [if_pos hbb] at h
  have : (reqAlts.find? fun k =>
      ciStartsWith k (t.drop i) && boundaryAfter t (i + k.length)).isSome = true := by
    rw [List.find?_isSome]
    exact ⟨k, hmem, by simp [hci, hba]⟩
  rw [h] at this
  exact Bool.noConfusion this

/-- An occurring keyword makes the alternative lookup succeed. -/
theorem kwOccursAt_isSome {t : List Char} {i : Nat} {k : List Char}
    (h : kwOccursAt t i k) : (matchKwAt t i).isSome = true := by
  obtain ⟨hmem, hci, hbb, hba⟩ := h
  unfold matchKwAt
  rw [if_pos hbb, List.find?_isSome]
  exact ⟨k, hmem, by simp [hci, hba]⟩

/-- If no position at or past `i` matches, the scan from `i` is empty. -/
theorem finditerReqGo_nil {t : List Char} : ∀ {fuel i : Nat},
    t.length + 1 - i ≤ fuel → (∀ j, i ≤ j → matchKwAt t j = none) →
    finditerReqGo fuel t i = [] := by
  intro fuel
  induction fuel with
  | zero => intro i _ _; rfl
  | succ fuel ih =>
    intro i hfuel hnone
    unfold finditerReqGo
    by_cases hi : i ≤ t.length
    · rw [if_pos hi, hnone i (Nat.le_refl i)]
      exact ih (by omega) (fun j hj => hnone j (by omega))
    · rw [if_neg hi]

/-- The scan from `i` starts with the leftmost match at or past `i`. -/
theorem finditerReqGo_head {t : List Char} : ∀ {fuel i j0 : Nat} {k : List Char},
    t.length + 1 - i ≤ fuel → i ≤ j0 → matchKwAt t j0 = some k →
    (∀ j, i ≤ j → j < j0 → matchKwAt t j = none) →
    ∃ rest, finditerReqGo fuel t i = (j0, k) :: rest := by
  intro fuel
  induction fuel with
  | zero =>
    intro i j0 k hfuel hij hm _
    have := kwOccursAt_lt_length (matchKwAt_some hm).1
    omega
  | succ fuel ih =>
    intro i j0 k hfuel hij hm hmin
    have hj0len : j0 < t.length := kwOccursAt_lt_length (matchKwAt_some hm).1
    have hi : i ≤ t.length := by omega
    unfold finditerReqGo
    rw [if_pos hi]
    rcases Nat.eq_or_lt_of_le hij with heq | hlt
    · subst heq
      rw [hm]
      exact ⟨_, rfl⟩
    · rw [hmin i (Nat.le_refl i) hlt]
      exact ih (by omega) hlt hm (fun j hj hjlt => hmin j (by omega) hjlt)

/-- The lookup loop of `extract_requirements` yields at most one record. -/
theorem reqLoop_length (text : String) (t : List Char) :
    ∀ l, (reqLoop text t l).length ≤ 1 := by
  intro l
  induction l with
  | nil => simp [reqLoop]
  | cons p rest ih =>
    obtain ⟨i, k⟩ := p
    cases h : requirementTypeMap (reqKwOf t i k) with
    | none => simpa [reqLoop, h] using ih
    | some ty => simp [reqLoop, h]

/-- Claim C6: `extract_requirements` returns at most one `Requirement` (and,
being a Lean function, is deterministic in its input).  When the text
contains a modal keyword occurrence it returns exactly one record, whose
keyword is the occurrence at the first position (with the alternation order
`shall not`, `shall`, `should`, `may` deciding ties at a position, so
`shall not` takes precedence over bare `shall`), whose text is the whole
input, and whose type is the fixed mapping `shall not ↦ prohibition`,
`shall ↦ mandatory`, `should ↦ recommendation`, `may ↦ permission`;
with no occurrence the result is empty. -/
theorem extract_requirements_spec (text : String) :
    (extract_requirements text).length ≤ 1 ∧
    ((∃ i k, kwOccursAt text.toList i k) →
      ∃ i k, kwOccursAt text.toList i k ∧
        (∀ j k2, kwOccursAt text.toList j k2 → i ≤ j) ∧
        (∀ k2, kwOccursAt text.toList i k2 → altRank k ≤ altRank k2) ∧
        ∃ r, extract_requirements text = [r] ∧
          r.keyword = k.asString ∧ r.text = text ∧
          requirementTypeMap r.keyword = some r.type ∧
          (r.keyword = "shall not" → r.type = "prohibition") ∧
          (r.keyword = "shall" → r.type = "mandatory") ∧
          (r.keyword = "should" → r.type = "recommendation") ∧
          (r.keyword = "may" → r.type = "permission")) ∧
    ((¬ ∃ i k, kwOccursAt text.toList i k) → extract_requirements text = []) := by
  refine ⟨?_, ?_, ?_⟩
  · unfold extract_requirements
    by_cases h : text.toList = []
    · rw [if_pos h]; simp
    · rw [if_neg h]
      exact reqLoop_length _ _ _
  · rintro ⟨i0, k0, hocc⟩
    have hP : ∃ j, (matchKwAt text.toList j).isSome = true :=
      ⟨i0, kwOccursAt_isSome hocc⟩
    obtain ⟨k, hm⟩ := Option.isSome_iff_exists.mp (Nat.find_spec hP)
    have hmin : ∀ j, j < Nat.find hP → matchKwAt text.toList j = none := by
      intro j hj
      have := Nat.find_min hP hj
      simpa [Option.not_isSome_iff_eq_none] using this
    obtain ⟨hko, hrank⟩ := matchKwAt_some hm
    have htne : text.toList ≠ [] := by
      intro hnil
      have hi0 : i0 < text.toList.length := kwOccursAt_lt_length hocc
      rw [hnil] at hi0
      simp at hi0
    obtain ⟨rest, hgo⟩ := @finditerReqGo_head text.toList (text.toList.length + 1) 0
      (Nat.find hP) k (by omega) (Nat.zero_le (Nat.find hP)) hm
      (fun j _ hjlt => hmin j hjlt)
    have hkwv : reqKwOf text.toList (Nat.find hP) k = k.asString := by
      unfold reqKwOf
      rw [ciStartsWith_take hko.2.1]
    have hext : extract_requirements text =
        reqLoop text text.toList ((Nat.find hP, k) :: rest) := by
      unfold extract_requirements
      rw [if_neg htne]
      unfold finditerReq
      rw [hgo]
    refine ⟨Nat.find hP, k, hko, ?_, hrank, ?_⟩
    · intro j k2 hk2
      exact Nat.find_min' hP (kwOccursAt_isSome hk2)
    · have hmem := hko.1
      have hloop : ∀ ty : String, requirementTypeMap k.asString = some ty →
          extract_requirements text = [Requirement.mk ty k.asString text] := by
        intro ty hty
        rw [hext]
        unfold reqLoop
        rw [hkwv, hty]
      simp only [reqAlts, List.mem_cons, List.not_mem_nil, or_false] at hmem
      rcases hmem with hk | hk | hk | hk <;> subst hk
      · refine ⟨Requirement.mk "prohibition" "shall not" text, hloop _ (by decide), ?_⟩
        refine ⟨by dsimp only; decide, rfl, by dsimp only; decide, ?_, ?_, ?_, ?_⟩ <;>
          (intro h; dsimp only at h ⊢) <;> first | rfl | exact absurd h (by decide)
      · refine ⟨Requirement.mk "mandatory" "shall" text, hloop _ (by decide), ?_⟩
        refine ⟨by dsimp only; decide, rfl, by dsimp only; decide, ?_, ?_, ?_, ?_⟩ <;>
          (intro h; dsimp only at h ⊢) <;> first | rfl | exact absurd h (by decide)
      · refine ⟨Requirement.mk "recommendation" "should" text, hloop _ (by decide), ?_⟩
        refine ⟨by dsimp only; decide, rfl, by dsimp only; decide, ?_, ?_, ?_, ?_⟩ <;>
          (intro h; dsimp only at h ⊢) <;> first | rfl | exact absurd h (by decide)
      · refine ⟨Requirement.mk "permission" "may" text, hloop _ (by decide), ?_⟩
        refine ⟨by dsimp only; decide, rfl, by dsimp only; decide, ?_, ?_, ?_, ?_⟩ <;>
          (intro h; dsimp only at h ⊢) <;> first | rfl | exact absurd h (by decide)
  · intro hno
    have hnone : ∀ j, matchKwAt text.toList j = none := by
      intro j
      cases hm : matchKwAt text.toList j with
      | none => rfl
      | some k => exact absurd ⟨j, k, (matchKwAt_some hm).1⟩ hno
    unfold extract_requirements
    by_cases h : text.toList = []
    · rw [if_pos h]
    · rw [if_neg h]
      have hfin : finditerReq text.toList = [] :=
        finditerReqGo_nil (by omega) (fun j _ => hnone j)
      rw [hfin]
      rfl

/-- Sanity check: the spec's scenario text yields one mandatory `shall`. -/
example : extract_requirements "This clause shall specify test conditions." =
    [Requirement.mk "mandatory" "shall" "This clause shall specify test conditions."] := by
  decide

/-- Sanity check: `shall not` wins over `shall`, and `shallow` is no match. -/
example : extract_requirements "A shallow probe shall not exceed and may retry." =
    [Requirement.mk "prohibition" "shall not" "A shallow probe shall not exceed and may retry."] := by
  decide

theorem extract_requirements_spec_witness :
    (extract_requirements "This clause shall specify test conditions.").length ≤ 1 :=
  (extract_requirements_spec "This clause shall specify test conditions.").1

/-! ## Reference patterns (json_to_schema.py lines 19-20, 145-157, 186-211)

`TABLE_REF_RE`, `FIGURE_REF_RE` and the three local patterns of
`extract_references` all have the shape
`\b(kw1|kw2|…)\s+([A-Z]?\d+(?:\.\d+)*)` (case-insensitive), so a single
engine serves them.  After the keyword, `\s+` must take its maximal run
(anything shorter leaves a whitespace character where `[A-Z]?\d` must
match) and the capture group is greedy with nothing after it, so maximal
munch is exact. -/

/-- Maximal munch of `(?:\.\d+)*`: length consumed.  Fuel `length + 1`
always suffices. -/
def dotsDigitsLenGo : Nat → List Char → Nat
  | 0, _ => 0
  | fuel + 1, l =>
    match l with
    | c :: r =>
      if c == '.' then
        let d := (r.takeWhile isAsciiDigit).length
        if d = 0 then 0 else 1 + d + dotsDigitsLenGo fuel (r.drop d)
      else 0
    | [] => 0

/-- Length consumed by `(?:\.\d+)*` (greedy, nothing follows the group). -/
def dotsDigitsLen (l : List Char) : Nat :=
  dotsDigitsLenGo (l.length + 1) l

/-- Parse `\s+([A-Z]?\d+(?:\.\d+)*)` at the start of `l`; returns
(consumed length, captured group).  `[A-Z]?` keeps its letter only when a
digit follows (otherwise the regex backtracks to the empty option, which
then fails on the letter). -/
def idGroupAt (l : List Char) : Option (Nat × List Char) :=
  let w := (l.takeWhile isPySpace).length
  if w = 0 then none
  else
    match l.drop w with
    | [] => none
    | c :: r2 =>
      if isAsciiLetter c then
        let d := (r2.takeWhile isAsciiDigit).length
        if d = 0 then none
        else
          let n := 1 + d + dotsDigitsLen (r2.drop d)
          some (w + n, (c :: r2).take n)
      else
        let d := ((c :: r2).takeWhile isAsciiDigit).length
        if d = 0 then none
        else
          let n := d + dotsDigitsLen ((c :: r2).drop d)
          some (w + n, (c :: r2).take n)

/-- Try a keyword-plus-identifier reference at position `i`: `\b`, then the
keyword alternatives in pattern order (failed branches backtrack into later
alternatives), then the id group.  Returns (end position, group). -/
def refMatchAt (alts : List (List Char)) (t : List Char) (i : Nat) :
    Option (Nat × List Char) :=
  if boundaryBefore t i then
    alts.findSome? (fun a =>
      if ciStartsWith a (t.drop i) then
        (idGroupAt (t.drop (i + a.length))).map (fun p => (i + a.length + p.1, p.2))
      else none)
  else none

/-- `finditer` for a keyword-plus-identifier pattern: left-to-right,
non-overlapping; emits the captured groups in order. -/
def finditerRefGo (alts : List (List Char)) : Nat → List Char → Nat → List (List Char)
  | 0, _, _ => []
  | fuel + 1, t, i =>
    if i ≤ t.length then
      match refMatchAt alts t i with
      | some (e, g) => g :: finditerRefGo alts fuel t e
      | none => finditerRefGo alts fuel t (i + 1)
    else []

/-- All captured groups of the pattern in `t`, in match order. -/
def finditerRef (alts : List (List Char)) (t : List Char) : List (List Char) :=
  finditerRefGo alts (t.length + 1) t 0

/-- Keywords of the clause pattern in `extract_references`
(`\b(?:clause|section|paragraph)\s+…`). -/
def clauseKwAlts : List (List Char) := ["clause".toList, "section".toList, "paragraph".toList]

/-- Keyword of `TABLE_REF_RE` (`\btable\s+…`). -/
def tableKwAlts : List (List Char) := ["table".toList]

/-- Keywords of `FIGURE_REF_RE` (`\b(?:figure|fig\.?)\s+…`): the optional
dot expands the alternation to `figure`, `fig.`, `fig`, in that order. -/
def figureKwAlts : List (List Char) := ["figure".toList, "fig.".toList, "fig".toList]

/-- `extract_table_number`: `TABLE_REF_RE.search(caption)`, group 1 of the
first match (with the `if not caption` guard). -/
def extract_table_number (caption : String) : Option String :=
  if caption.toList = [] then none
  else (finditerRef tableKwAlts caption.toList).head?.map List.asString

/-- `extract_figure_number`: `FIGURE_REF_RE.search(caption)`, group 1 of
the first match (with the `if not caption` guard). -/
def extract_figure_number (caption : String) : Option String :=
  if caption.toList = [] then none
  else (finditerRef figureKwAlts caption.toList).head?.map List.asString

/-- `extract_references` from json_to_schema.py: tag the groups of the
three pattern families and deduplicate (`list(set(references))`; Python's
set iteration order is unspecified, so the embedding keeps first-occurrence
order and theorems about it are membership-level only). -/
def extract_references (text : String) : List String :=
  if text.toList = [] then []
  else
    ((finditerRef clauseKwAlts text.toList).map (fun g => "clause:" ++ g.asString) ++
     (finditerRef tableKwAlts text.toList).map (fun g => "table:" ++ g.asString) ++
     (finditerRef figureKwAlts text.toList).map (fun g => "figure:" ++ g.asString)).eraseDups

/-- Sanity check: clause, table and figure mentions are all captured. -/
example : extract_references "see Clause 6.1, Table 3 and Fig. A2" =
    ["clause:6.1", "table:3", "figure:A2"] := by decide

/-- Sanity check: a table caption yields its number. -/
example : extract_table_number "Table 3.1 - Limits of disturbance" = some "3.1" := by decide

/-- Sanity check: no keyword, no captures. -/
example : extract_references "the subtable 3 of figures" = [] := by decide

/-! ## Clause-heading patterns (json_to_schema.py lines 15-16, 123-143)

`CLAUSE_WITH_TITLE_RE = ^([A-Z]|\d+)(?:\.(\d+))*\s+(.+)$` and
`CLAUSE_NUM_ONLY_RE = ^([A-Z]|\d+)(?:\.(\d+))*\s*$`, both `re.IGNORECASE`.
The matchers below embed the backtracking semantics: group 1 is a single
letter or any nonempty prefix of the leading digit run, each `\.(\d+)` star
iteration may take any nonempty prefix of its digit run, `\s+`/`\s*` may
take any (resp. nonempty) prefix of the whitespace run, `.` excludes
newline, and `$` matches at the end or before a final newline (hence
`\s*$` holds exactly on an all-whitespace remainder). -/

/-- `.+$` on the remainder: a nonempty newline-free body followed by
nothing or a single final newline. -/
def dotPlusDollar (r : List Char) : Bool :=
  let b := r.takeWhile (fun c => !(c == '\n'))
  !b.isEmpty && ((r.drop b.length).isEmpty || r.drop b.length == ['\n'])

/-- `\s+(.+)$` on the remainder, trying every nonempty whitespace prefix. -/
def wsPlusBody (l : List Char) : Bool :=
  (List.range (l.takeWhile isPySpace).length).any (fun j => dotPlusDollar (l.drop (j + 1)))

/-- `(?:\.(\d+))*\s*$`: stop the star (all-whitespace remainder) or take a
`.`-plus-digits step, trying every nonempty digit prefix.  Fuel
`length + 1` always suffices (every step consumes at least two
characters). -/
def numOnlyTailGo : Nat → List Char → Bool
  | 0, _ => false
  | fuel + 1, l =>
    l.all isPySpace ||
    (match l with
     | c :: rest =>
       c == '.' &&
       (List.range (rest.takeWhile isAsciiDigit).length).any
         (fun k => numOnlyTailGo fuel (rest.drop (k + 1)))
     | [] => false)

def numOnlyTail (l : List Char) : Bool := numOnlyTailGo (l.length + 1) l

/-- `(?:\.(\d+))*\s+(.+)$`: stop the star into `\s+(.+)$`, or take a
`.`-plus-digits step. -/
def withTitleTailGo : Nat → List Char → Bool
  | 0, _ => false
  | fuel + 1, l =>
    wsPlusBody l ||
    (match l with
     | c :: rest =>
       c == '.' &&
       (List.range (rest.takeWhile isAsciiDigit).length).any
         (fun k => withTitleTailGo fuel (rest.drop (k + 1)))
     | [] => false)

def withTitleTail (l : List Char) : Bool := withTitleTailGo (l.length + 1) l

/-- Anchored match of `CLAUSE_WITH_TITLE_RE`: group 1 is one letter
(`[A-Z]` + IGNORECASE) or a nonempty prefix of the digit run. -/
def matchClauseWithTitle (t : List Char) : Bool :=
  match t with
  | [] => false
  | c :: rest =>
    (if isAsciiLetter c then withTitleTail rest else false) ||
    (List.range ((c :: rest).takeWhile isAsciiDigit).length).any
      (fun k => withTitleTail ((c :: rest).drop (k + 1)))

/-- Anchored match of `CLAUSE_NUM_ONLY_RE`. -/
def matchClauseNumOnly (t : List Char) : Bool :=
  match t with
  | [] => false
  | c :: rest =>
    (if isAsciiLetter c then numOnlyTail rest else false) ||
    (List.range ((c :: rest).takeWhile isAsciiDigit).length).any
      (fun k => numOnlyTail ((c :: rest).drop (k + 1)))

/-- `extract_clause_info` from json_to_schema.py: on a
`CLAUSE_WITH_TITLE_RE` match the id is `text.split(maxsplit=1)[0]` and the
title is `text[len(clause_id):].strip()` (empty title becomes `None`); on
a `CLAUSE_NUM_ONLY_RE` match the id is `match.group(0).strip()`, which for
this anchored pattern equals `text.strip()`. -/
def extract_clause_info (text : String) : Option (String × Option String) :=
  if text.toList = [] then none
  else if matchClauseWithTitle text.toList then
    let cid := ((text.toList.dropWhile isPySpace).takeWhile (fun c => !isPySpace c)).asString
    let title := (pyStrip (text.toList.drop cid.length)).asString
    some (cid, if title = "" then none else some title)
  else if matchClauseNumOnly text.toList then
    some ((pyStrip text.toList).asString, none)
  else none

/-- Sanity check: the spec's scenario header. -/
example : extract_clause_info "6.1 Test Methods" = some ("6.1", some "Test Methods") := by decide

/-- Sanity check: a bare annex identifier has no title. -/
example : extract_clause_info "A.2" = some ("A.2", none) := by decide

/-- Sanity check: a plain-word header is not a clause heading. -/
example : extract_clause_info "Environmental Tests" = none := by decide

/-- Sanity check: only the first token is the id, the rest is the title. -/
example : extract_clause_info "12 34 Items" = some ("12", some "34 Items") := by decide

/-- Sanity check: a malformed dotted path is rejected. -/
example : extract_clause_info "1.2x y" = none := by decide

/-! ### Structure of extracted clause identifiers

Every identifier produced by `extract_clause_info` is a nonempty token of
letters, digits and dots.  These lemmas feed the pipeline invariants. -/

/-- Characters an extracted identifier may contain. -/
def isIdChar (c : Char) : Prop :=
  isAsciiLetter c = true ∨ isAsciiDigit c = true ∨ c = '.'

theorem isIdChar_not_space {c : Char} (h : isIdChar c) : isPySpace c = false := by
  cases hsp : isPySpace c
  · rfl
  · exfalso
    simp only [isPySpace, Bool.or_eq_true, beq_iff_eq, or_assoc] at hsp
    rcases hsp with rfl | rfl | rfl | rfl | rfl | rfl <;>
      rcases h with h | h | h <;> exact absurd h (by decide)

theorem isIdChar_not_underscore {c : Char} (h : isIdChar c) : c ≠ '_' := by
  intro hc
  subst hc
  rcases h with h | h | h <;> exact absurd h (by decide)

theorem takeWhile_append_of_all {p : Char → Bool} {l1 l2 : List Char}
    (h : ∀ c ∈ l1, p c = true) :
    (l1 ++ l2).takeWhile p = l1 ++ l2.takeWhile p := by
  induction l1 with
  | nil => simp
  | cons x xs ih =>
    have hx : p x = true := h x (by simp)
    simp only [List.cons_append, List.takeWhile_cons, hx, if_true]
    rw [ih (fun c hc => h c (by simp [hc]))]

theorem dropWhile_append_of_all {p : Char → Bool} {l1 l2 : List Char}
    (h : ∀ c ∈ l1, p c = true) :
    (l1 ++ l2).dropWhile p = l2.dropWhile p := by
  induction l1 with
  | nil => simp
  | cons x xs ih =>
    have hx : p x = true := h x (by simp)
    simp only [List.cons_append, List.dropWhile_cons, hx, if_true]
    exact ih (fun c hc => h c (by simp [hc]))

theorem dropWhile_eq_self_of_all_false {p : Char → Bool} {l : List Char}
    (h : ∀ c ∈ l, p c = false) : l.dropWhile p = l := by
  cases l with
  | nil => rfl
  | cons x xs =>
    have hx : p x = false := h x (by simp)
    simp [List.dropWhile_cons, hx]

/-- Elements within the `takeWhile` run satisfy the predicate. -/
theorem all_take_of_le_takeWhile {p : Char → Bool} :
    ∀ (l : List Char) (n : Nat), n ≤ (l.takeWhile p).length →
      ∀ c ∈ l.take n, p c = true := by
  intro l
  induction l with
  | nil => intro n _ c hc; simp at hc
  | cons x xs ih =>
    intro n hn c hc
    cases hx : p x with
    | false =>
      rw [List.takeWhile_cons, hx] at hn
      simp at hn
      subst hn
      simp at hc
    | true =>
      rw [List.takeWhile_cons, hx] at hn
      cases n with
      | zero => simp at hc
      | succ m =>
        simp only [List.take_succ_cons, List.mem_cons] at hc
        rcases hc with rfl | hc
        · exact hx
        · exact ih m (by simpa using hn) c hc

/-- `str.strip()` of a non-space token followed by trailing whitespace. -/
theorem pyStrip_token_ws {a w : List Char} (ha : a ≠ [])
    (han : ∀ c ∈ a, isPySpace c = false) (hw : ∀ c ∈ w, isPySpace c = true) :
    pyStrip (a ++ w) = a := by
  unfold pyStrip
  have h1 : (a ++ w).dropWhile isPySpace = a ++ w := by
    cases a with
    | nil => exact absurd rfl ha
    | cons x xs =>
      have hx : isPySpace x = false := han x (by simp)
      simp [List.dropWhile_cons, hx]
  rw [h1, List.reverse_append]
  rw [dropWhile_append_of_all (by intro c hc; exact hw c (by simpa using hc))]
  rw [dropWhile_eq_self_of_all_false (by intro c hc; exact han c (by simpa using hc))]
  exact List.reverse_reverse a

/-- Soundness of the `(?:\.(\d+))*\s*$` matcher: the input splits into a
digits-and-dots part and a whitespace tail. -/
theorem numOnlyTailGo_sound : ∀ {fuel : Nat} {l : List Char},
    numOnlyTailGo fuel l = true →
    ∃ a w, l = a ++ w ∧ (∀ c ∈ a, isAsciiDigit c = true ∨ c = '.') ∧
      (∀ c ∈ w, isPySpace c = true) := by
  intro fuel
  induction fuel with
  | zero => intro l h; exact absurd h (by simp [numOnlyTailGo])
  | succ fuel ih =>
    intro l h
    unfold numOnlyTailGo at h
    rw [Bool.or_eq_true] at h
    rcases h with h | h
    · exact ⟨[], l, by simp, by simp, by simpa [List.all_eq_true] using h⟩
    · cases l with
      | nil => simp at h
      | cons c rest =>
        simp only [Bool.and_eq_true, beq_iff_eq, List.any_eq_true, List.mem_range] at h
        obtain ⟨rfl, k, hk, hrec⟩ := h
        obtain ⟨a2, w2, hsplit, ha2, hw2⟩ := ih hrec
        refine ⟨'.' :: (rest.take (k + 1) ++ a2), w2, ?_, ?_, hw2⟩
        · have : rest = rest.take (k + 1) ++ rest.drop (k + 1) := (List.take_append_drop _ _).symm
          calc '.' :: rest = '.' :: (rest.take (k + 1) ++ rest.drop (k + 1)) := by rw [← this]
            _ = '.' :: (rest.take (k + 1) ++ (a2 ++ w2)) := by rw [hsplit]
            _ = ('.' :: (rest.take (k + 1) ++ a2)) ++ w2 := by simp
        · intro c hc
          simp only [List.mem_cons, List.mem_append] at hc
          rcases hc with rfl | hc | hc
          · exact Or.inr rfl
          · exact Or.inl (all_take_of_le_takeWhile rest (k + 1) (by omega) c hc)
          · exact ha2 c hc

/-- Soundness of the `\s+(.+)$` matcher: a nonempty whitespace run starts
the remainder. -/
theorem wsPlusBody_sound {l : List Char} (h : wsPlusBody l = true) :
    ∃ w r, l = w ++ r ∧ w ≠ [] ∧ (∀ c ∈ w, isPySpace c = true) := by
  unfold wsPlusBody at h
  simp only [List.any_eq_true, List.mem_range] at h
  obtain ⟨j, hj, -⟩ := h
  refine ⟨l.take (j + 1), l.drop (j + 1), (List.take_append_drop _ _).symm, ?_, ?_⟩
  · intro hnil
    have h1 : (l.take (j + 1)).length = 0 := by rw [hnil]; rfl
    rw [List.length_take] at h1
    have hlen : (l.takeWhile isPySpace).length ≤ l.length :=
      (List.takeWhile_sublist _).length_le
    omega
  · exact all_take_of_le_takeWhile l (j + 1) (by omega)

/-- Soundness of the `(?:\.(\d+))*\s+(.+)$` matcher. -/
theorem withTitleTailGo_sound : ∀ {fuel : Nat} {l : List Char},
    withTitleTailGo fuel l = true →
    ∃ a w r, l = a ++ w ++ r ∧ (∀ c ∈ a, isAsciiDigit c = true ∨ c = '.') ∧
      w ≠ [] ∧ (∀ c ∈ w, isPySpace c = true) := by
  intro fuel
  induction fuel with
  | zero => intro l h; exact absurd h (by simp [withTitleTailGo])
  | succ fuel ih =>
    intro l h
    unfold withTitleTailGo at h
    rw [Bool.or_eq_true] at h
    rcases h with h | h
    · obtain ⟨w, r, hsplit, hw, hws⟩ := wsPlusBody_sound h
      exact ⟨[], w, r, by simpa using hsplit, by simp, hw, hws⟩
    · cases l with
      | nil => simp at h
      | cons c rest =>
        simp only [Bool.and_eq_true, beq_iff_eq, List.any_eq_true, List.mem_range] at h
        obtain ⟨rfl, k, hk, hrec⟩ := h
        obtain ⟨a2, w2, r2, hsplit, ha2, hw2, hws2⟩ := ih hrec
        refine ⟨'.' :: (rest.take (k + 1) ++ a2), w2, r2, ?_, ?_, hw2, hws2⟩
        · have hd : rest = rest.take (k + 1) ++ rest.drop (k + 1) := (List.take_append_drop _ _).symm
          calc ('.' :: rest : List Char)
              = '.' :: (rest.take (k + 1) ++ rest.drop (k + 1)) := by rw [← hd]
            _ = '.' :: (rest.take (k + 1) ++ (a2 ++ w2 ++ r2)) := by rw [hsplit]
            _ = ('.' :: (rest.take (k + 1) ++ a2)) ++ w2 ++ r2 := by simp
        · intro c hc
          simp only [List.mem_cons, List.mem_append] at hc
          rcases hc with rfl | hc | hc
          · exact Or.inr rfl
          · exact Or.inl (all_take_of_le_takeWhile rest (k + 1) (by omega) c hc)
          · exact ha2 c hc

/-- A `CLAUSE_WITH_TITLE_RE` match decomposes the text into a nonempty
identifier token, a nonempty whitespace run, and a title remainder. -/
theorem matchClauseWithTitle_sound {t : List Char}
    (h : matchClauseWithTitle t = true) :
    ∃ a w r, t = a ++ w ++ r ∧ a ≠ [] ∧ (∀ c ∈ a, isIdChar c) ∧
      w ≠ [] ∧ (∀ c ∈ w, isPySpace c = true) := by
  cases t with
  | nil => simp [matchClauseWithTitle] at h
  | cons c rest =>
    unfold matchClauseWithTitle at h
    rw [Bool.or_eq_true] at h
    rcases h with h | h
    · by_cases hc : isAsciiLetter c = true
      · rw [if_pos hc] at h
        obtain ⟨a2, w2, r2, hsplit, ha2, hw2, hws2⟩ := withTitleTailGo_sound h
        refine ⟨c :: a2, w2, r2, by simp [hsplit], by simp, ?_, hw2, hws2⟩
        intro x hx
        rcases List.mem_cons.mp hx with rfl | hx
        · exact Or.inl hc
        · rcases ha2 x hx with h | h
          · exact Or.inr (Or.inl h)
          · exact Or.inr (Or.inr h)
      · rw [if_neg hc] at h
        exact absurd h (by simp)
    · simp only [List.any_eq_true, List.mem_range] at h
      obtain ⟨k, hk, hrec⟩ := h
      obtain ⟨a2, w2, r2, hsplit, ha2, hw2, hws2⟩ := withTitleTailGo_sound hrec
      refine ⟨(c :: rest).take (k + 1) ++ a2, w2, r2, ?_, ?_, ?_, hw2, hws2⟩
      · have hd : (c :: rest : List Char) =
            (c :: rest).take (k + 1) ++ (c :: rest).drop (k + 1) :=
          (List.take_append_drop _ _).symm
        calc (c :: rest : List Char)
            = (c :: rest).take (k + 1) ++ (c :: rest).drop (k + 1) := hd
          _ = (c :: rest).take (k + 1) ++ (a2 ++ w2 ++ r2) := by rw [hsplit]
          _ = ((c :: rest).take (k + 1) ++ a2) ++ w2 ++ r2 := by simp
      · simp
      · intro x hx
        rcases List.mem_append.mp hx with hx | hx
        · exact Or.inr (Or.inl (all_take_of_le_takeWhile (c :: rest) (k + 1) (by omega) x hx))
        · rcases ha2 x hx with h | h
          · exact Or.inr (Or.inl h)
          · exact Or.inr (Or.inr h)

/-- A `CLAUSE_NUM_ONLY_RE` match decomposes the text into a nonempty
identifier token and a whitespace tail. -/
theorem matchClauseNumOnly_sound {t : List Char}
    (h : matchClauseNumOnly t = true) :
    ∃ a w, t = a ++ w ∧ a ≠ [] ∧ (∀ c ∈ a, isIdChar c) ∧
      (∀ c ∈ w, isPySpace c = true) := by
  cases t with
  | nil => simp [matchClauseNumOnly] at h
  | cons c rest =>
    unfold matchClauseNumOnly at h
    rw [Bool.or_eq_true] at h
    rcases h with h | h
    · by_cases hc : isAsciiLetter c = true
      · rw [if_pos hc] at h
        obtain ⟨a2, w2, hsplit, ha2, hws2⟩ := numOnlyTailGo_sound h
        refine ⟨c :: a2, w2, by simp [hsplit], by simp, ?_, hws2⟩
        intro x hx
        rcases List.mem_cons.mp hx with rfl | hx
        · exact Or.inl hc
        · rcases ha2 x hx with h | h
          · exact Or.inr (Or.inl h)
          · exact Or.inr (Or.inr h)
      · rw [if_neg hc] at h
        exact absurd h (by simp)
    · simp only [List.any_eq_true, List.mem_range] at h
      obtain ⟨k, hk, hrec⟩ := h
      obtain ⟨a2, w2, hsplit, ha2, hws2⟩ := numOnlyTailGo_sound hrec
      refine ⟨(c :: rest).take (k + 1) ++ a2, w2, ?_, by simp, ?_, hws2⟩
      · have hd : (c :: rest : List Char) =
            (c :: rest).take (k + 1) ++ (c :: rest).drop (k + 1) :=
          (List.take_append_drop _ _).symm
        calc (c :: rest : List Char)
            = (c :: rest).take (k + 1) ++ (c :: rest).drop (k + 1) := hd
          _ = (c :: rest).take (k + 1) ++ (a2 ++ w2) := by rw [hsplit]
          _ = ((c :: rest).take (k + 1) ++ a2) ++ w2 := by simp
      · intro x hx
        rcases List.mem_append.mp hx with hx | hx
        · exact Or.inr (Or.inl (all_take_of_le_takeWhile (c :: rest) (k + 1) (by omega) x hx))
        · rcases ha2 x hx with h | h
          · exact Or.inr (Or.inl h)
          · exact Or.inr (Or.inr h)

/-- Identifiers produced by `extract_clause_info` are nonempty tokens of
letters, digits and dots. -/
theorem extract_clause_info_goodId {text cid : String} {topt : Option String}
    (h : extract_clause_info text = some (cid, topt)) :
    cid.toList ≠ [] ∧ ∀ c ∈ cid.toList, isIdChar c := by
  unfold extract_clause_info at h
  by_cases hemp : text.toList = []
  · rw [if_pos hemp] at h; exact Option.noConfusion h
  · rw [if_neg hemp] at h
    by_cases hwt : matchClauseWithTitle text.toList = true
    · rw [if_pos hwt] at h
      obtain ⟨a, w, r, hsplit, ha, hida, hw, hws⟩ := matchClauseWithTitle_sound hwt
      have hid : ((text.toList.dropWhile isPySpace).takeWhile (fun c => !isPySpace c)) = a := by
        rw [hsplit]
        have hdw : ((a ++ w ++ r).dropWhile isPySpace) = a ++ w ++ r := by
          cases a with
          | nil => exact absurd rfl ha
          | cons x xs =>
            have hx : isPySpace x = false := isIdChar_not_space (hida x (by simp))
            simp [List.dropWhile_cons, hx]
        rw [hdw, List.append_assoc,
          takeWhile_append_of_all (p := fun c => !isPySpace c)
            (by intro c hc; simp [isIdChar_not_space (hida c hc)])]
        cases w with
        | nil => exact absurd rfl hw
        | cons y ys =>
          have hy : isPySpace y = true := hws y (by simp)
          simp [List.takeWhile_cons, hy]
      rw [hid] at h
      have hc : cid = a.asString := by
        have := (Option.some.injEq _ _).mp h
        exact (congrArg Prod.fst this).symm
      subst hc
      constructor
      · simpa using ha
      · intro c hc; exact hida c (by simpa using hc)
    · rw [if_neg hwt] at h
      by_cases hno : matchClauseNumOnly text.toList = true
      · rw [if_pos hno] at h
        obtain ⟨a, w, hsplit, ha, hida, hws⟩ := matchClauseNumOnly_sound hno
        have hid : pyStrip text.toList = a := by
          rw [hsplit]
          exact pyStrip_token_ws ha (fun c hc => isIdChar_not_space (hida c hc)) hws
        rw [hid] at h
        have hc : cid = a.asString := by
          have := (Option.some.injEq _ _).mp h
          exact (congrArg Prod.fst this).symm
        subst hc
        constructor
        · simpa using ha
        · intro c hc; exact hida c (by simpa using hc)
      · rw [if_neg hno] at h
        exact Option.noConfusion h

/-! ## Data model (json_to_schema.py lines 22-94, 217-252)

Dataclasses become structures.  The references dict of a `Clause` becomes
the two lists `refs_internal`/`refs_external`; children are kept as
identifiers (the source keeps object references into the clause
dictionary, whose keys are exactly those ids). -/

/-- `ContentItem` dataclass. -/
structure ContentItem where
  type : String
  text : String
deriving DecidableEq, Repr

/-- `TableEntry` dataclass (`rows` carries the block's raw rows payload). -/
structure TableEntry where
  html : String
  number : Option String := none
  caption : Option String := none
  rows : Option (List String) := none
deriving DecidableEq, Repr

/-- A figure number: caption-derived string, or the per-clause counter
fallback (`figure_number or self.counters.figure_counters[cid]`). -/
inductive FigNumber where
  | str (s : String)
  | idx (n : Nat)
deriving DecidableEq, Repr

/-- `FigureEntry` dataclass (the `caption` argument at the call site is
always a string, possibly empty). -/
structure FigureEntry where
  number : FigNumber
  path : String
  format : String
  original_key : String
  size_bytes : Nat
  caption : String
deriving DecidableEq, Repr

/-- `Clause` dataclass. -/
structure Clause where
  id : String
  title : String
  parent_id : Option String := none
  childIds : List String := []
  content : List ContentItem := []
  tables : List TableEntry := []
  figures : List FigureEntry := []
  requirements : List Requirement := []
  refs_internal : List String := []
  refs_external : List String := []
deriving DecidableEq, Repr

/-- One record of `counters.misc_image_metadata`. -/
structure MiscImage where
  path : String
  caption : String
  format : String
  original_key : String
  size_bytes : Nat
deriving DecidableEq, Repr

/-- `ProcessingContext` dataclass. -/
structure ProcessingContext where
  current_clause_id : Option String := none
  pending_number : Option String := none
  pending_caption : Option String := none
deriving DecidableEq, Repr

/-- `ProcessingCounters` dataclass. -/
structure ProcessingCounters where
  total_images : Nat := 0
  clause_images : Nat := 0
  misc_images : Nat := 0
  misc_image_counter : Nat := 0
  total_tables : Nat := 0
  figure_counters : List (String × Nat) := []
  misc_image_metadata : List MiscImage := []
deriving DecidableEq, Repr

/-- The clause dictionary (`OrderedDict`, insertion-ordered, unique keys). -/
abbrev CDict := List (String × Clause)

/-- Dictionary lookup (`clauses[k]` / `k in clauses`). -/
def dictGet : CDict → String → Option Clause
  | [], _ => none
  | (a, c) :: rest, k => if a == k then some c else dictGet rest k

def dictContains (m : CDict) (k : String) : Bool :=
  (dictGet m k).isSome

/-- Update the value at a key in place (no-op when the key is absent). -/
def dictUpdate : CDict → String → (Clause → Clause) → CDict
  | [], _, _ => []
  | (a, c) :: rest, k, f =>
    (if a == k then (a, f c) else (a, c)) :: dictUpdate rest k f

/-- One entry of a Picture block's image mapping, with the outcomes of the
effectful steps abstracted as event fields: `b64Empty` is the
`if not b64_data` test, `decoded` is the result of `base64.b64decode`
(`none` models a decode exception), and `saveOk` records whether the
filesystem steps of `_save_clause_image`/`_save_misc_image` (directory
creation and `write_bytes`) succeed; `false` models an exception there,
caught by `_process_single_image`'s `except` clause. -/
structure ImgItem where
  key : String
  b64Empty : Bool
  decoded : Option (List Nat)
  saveOk : Bool
deriving DecidableEq, Repr

/-- A Marker JSON block: kind tag, html text, caption field, rows payload,
image mapping and children.  Non-dict tree nodes, skipped by
`process_block`'s `isinstance` guard, are not represented. -/
inductive Block where
  | mk (block_type : String) (html : String) (caption : String)
       (rows : Option (List String)) (images : List ImgItem) (children : List Block)

def Block.block_type : Block → String | .mk bt _ _ _ _ _ => bt
def Block.html : Block → String | .mk _ h _ _ _ _ => h
def Block.caption : Block → String | .mk _ _ c _ _ _ => c
def Block.rows : Block → Option (List String) | .mk _ _ _ r _ _ => r
def Block.images : Block → List ImgItem | .mk _ _ _ _ i _ => i
def Block.children : Block → List Block | .mk _ _ _ _ _ ch => ch

/-- The mutable state of one document conversion (the `BlockProcessor`'s
clause dictionary, `ProcessingContext` and `ProcessingCounters`). -/
structure PState where
  clauses : CDict := []
  context : ProcessingContext := {}
  counters : ProcessingCounters := {}
deriving DecidableEq, Repr

/-! ## Block handlers (json_to_schema.py lines 243-436) -/

/-- `_has_current_clause`: `self.context.current_clause_id and
self.context.current_clause_id in self.clauses` (Python truthiness: an
empty-string id is falsy). -/
def hasCurrentClause (s : PState) : Bool :=
  match s.context.current_clause_id with
  | none => false
  | some cid => (cid != "") && dictContains s.clauses cid

/-- `_add_to_current_clause_content`. -/
def addToCurrentClauseContent (s : PState) (item : ContentItem) : PState :=
  if hasCurrentClause s then
    match s.context.current_clause_id with
    | some cid =>
      { s with clauses := (dictUpdate s.clauses cid
          (fun c => { c with content := c.content ++ [item] })) }
    | none => s
  else s

/-- `_create_clause`: insert a fresh clause when the id is new, make it
current, clear the pending number and (via `reset_pending`) the pending
caption. -/
def createClause (s : PState) (clause_id title : String) : PState :=
  let clauses :=
    if dictContains s.clauses clause_id then s.clauses
    else s.clauses ++ [(clause_id, { id := clause_id, title := title : Clause })]
  { s with
    clauses := clauses
    context := { s.context with
      current_clause_id := some clause_id
      pending_number := none
      pending_caption := none } }

/-- `process_section_header`. -/
def process_section_header (s : PState) (b : Block) : PState :=
  let text := strip_html b.html
  if text = "" then s
  else
    match extract_clause_info text with
    | some (clause_id, some title) => createClause s clause_id title
    | some (clause_id, none) =>
      { s with context := { s.context with pending_number := some clause_id } }
    | none =>
      match s.context.pending_number with
      | some p => if p = "" then s else createClause s p text
      | none => s

/-- `process_caption`. -/
def process_caption (s : PState) (b : Block) : PState :=
  let text := strip_html b.html
  if text = "" then s
  else if (extract_table_number text).isSome || (extract_figure_number text).isSome then
    { s with context := { s.context with pending_caption := some text } }
  else
    addToCurrentClauseContent s (ContentItem.mk "caption" text)

/-- Python `x or y` for an optional/possibly-empty string (`None` and `""`
are falsy). -/
def pyOrStr (x : Option String) (y : String) : String :=
  match x with
  | some v => if v = "" then y else v
  | none => y

/-- `process_table`. -/
def process_table (s : PState) (b : Block) : PState :=
  if b.html = "" then s
  else
    let s1 := { s with counters :=
      { s.counters with total_tables := s.counters.total_tables + 1 } }
    let caption := pyOrStr s1.context.pending_caption (strip_html b.caption)
    let table_number := if caption ≠ "" then extract_table_number caption else none
    let table : TableEntry :=
      { html := b.html
        number := table_number
        caption := if caption = "" then none else some caption
        rows := b.rows }
    let s2 :=
      if hasCurrentClause s1 then
        match s1.context.current_clause_id with
        | some cid =>
          { s1 with clauses := (dictUpdate s1.clauses cid
              (fun c => { c with tables := c.tables ++ [table] })) }
        | none => s1
      else s1
    { s2 with context := { s2.context with pending_caption := none } }

/-- `img_key.replace("/", "_").strip("_").lower()`. -/
def imgRefOf (key : String) : String :=
  let l := key.toList.map (fun c => if c == '/' then '_' else c)
  let l := ((l.dropWhile (fun c => c == '_')).reverse.dropWhile (fun c => c == '_')).reverse
  (l.map Char.toLower).asString

/-- `ext.lstrip(".")`. -/
def lstripDots (ext : String) : String :=
  (ext.toList.dropWhile (fun c => c == '.')).asString

def figCountGet (fc : List (String × Nat)) (k : String) : Option Nat :=
  (fc.find? (fun p => p.1 == k)).map (fun p => p.2)

/-- `if cid not in figure_counters: figure_counters[cid] = 0;
figure_counters[cid] += 1`. -/
def figCountBump (fc : List (String × Nat)) (k : String) : List (String × Nat) :=
  match figCountGet fc k with
  | some _ => fc.map (fun p => if p.1 == k then (p.1, p.2 + 1) else p)
  | none => fc ++ [(k, 1)]

/-- `_save_clause_image`: bump the per-clause figure counter, then (if the
filesystem steps succeed) append the `FigureEntry` and bump
`clause_images`.  On a filesystem failure only the figure counter (already
incremented) sticks.  Paths are the `relative_to(OUTPUT_DIR)` forms with
POSIX separators. -/
def saveClauseImage (docId : String) (s : PState) (it : ImgItem) (data : List Nat)
    (ext : String) (img_ref : String) (caption : String)
    (figure_number : Option String) : PState :=
  match s.context.current_clause_id with
  | none => s
  | some cid =>
    let fc := figCountBump s.counters.figure_counters cid
    let n := (figCountGet fc cid).getD 0
    let s1 := { s with counters := { s.counters with figure_counters := fc } }
    if it.saveOk = false then s1
    else
      let fname := "figure_" ++ toString n ++ "_" ++ img_ref ++ ext
      let fpath := "output_images/" ++ docId ++ "/" ++ cid.replace "." "_" ++ "/" ++ fname
      let figure : FigureEntry :=
        { number :=
            match figure_number with
            | some fs => if fs = "" then FigNumber.idx n else FigNumber.str fs
            | none => FigNumber.idx n
          path := fpath
          format := lstripDots ext
          original_key := it.key
          size_bytes := data.length
          caption := caption }
      { s1 with
        clauses := (dictUpdate s1.clauses cid
          (fun c => { c with figures := c.figures ++ [figure] }))
        counters := { s1.counters with clause_images := s1.counters.clause_images + 1 } }

/-- `_save_misc_image`: bump the misc counter, then (if the filesystem
steps succeed) bump `misc_images` and record the metadata. -/
def saveMiscImage (docId : String) (s : PState) (it : ImgItem) (data : List Nat)
    (ext : String) (img_ref : String) (caption : String) : PState :=
  let cnt := s.counters.misc_image_counter + 1
  let s1 := { s with counters := { s.counters with misc_image_counter := cnt } }
  if it.saveOk = false then s1
  else
    let fname := "misc_" ++ toString cnt ++ "_" ++ img_ref ++ ext
    let meta : MiscImage :=
      { path := "output_images/" ++ docId ++ "/misc/" ++ fname
        caption := caption
        format := lstripDots ext
        original_key := it.key
        size_bytes := data.length }
    { s1 with counters := { s1.counters with
        misc_images := s1.counters.misc_images + 1
        misc_image_metadata := s1.counters.misc_image_metadata ++ [meta] } }

/-- `_process_single_image`: skip empty payloads; a decode failure is
caught with no state change; otherwise classify, count, and route to the
clause or misc saver. -/
def processSingleImage (docId : String) (b : Block) (s : PState) (it : ImgItem) : PState :=
  if it.b64Empty then s
  else
    match it.decoded with
    | none => s
    | some data =>
      let ext := detect_image_format data
      let s1 := { s with counters :=
        { s.counters with total_images := s.counters.total_images + 1 } }
      let caption := pyOrStr s1.context.pending_caption (strip_html b.caption)
      let figure_number := if caption ≠ "" then extract_figure_number caption else none
      let img_ref := imgRefOf it.key
      if hasCurrentClause s1 then
        saveClauseImage docId s1 it data ext img_ref caption figure_number
      else
        saveMiscImage docId s1 it data ext img_ref caption

/-- `process_picture`: nothing on an empty mapping; otherwise process every
image and clear the pending caption. -/
def process_picture (docId : String) (s : PState) (b : Block) : PState :=
  if b.images = [] then s
  else
    let s1 := b.images.foldl (processSingleImage docId b) s
    { s1 with context := { s1.context with pending_caption := none } }

/-- The `for ref in refs` loop body of `process_text`: clause references
are appended with the `clause:` prefix removed via `str.replace`,
table/figure references verbatim, anything else ignored. -/
def refFoldStep (c2 : Clause) (ref : String) : Clause :=
  if ref.startsWith "clause:" then
    { c2 with refs_internal := c2.refs_internal ++ [ref.replace "clause:" ""] }
  else if ref.startsWith "table:" || ref.startsWith "figure:" then
    { c2 with refs_internal := c2.refs_internal ++ [ref] }
  else c2

/-- `process_text`: paragraph content, requirement extraction, and
reference extraction into the internal reference list. -/
def process_text (s : PState) (b : Block) : PState :=
  let text := strip_html b.html
  if (text != "") && hasCurrentClause s then
    match s.context.current_clause_id with
    | some cid =>
      { s with clauses := (dictUpdate s.clauses cid (fun c =>
          (extract_references text).foldl refFoldStep
            { c with
              content := c.content ++ [ContentItem.mk "paragraph" text]
              requirements := c.requirements ++ extract_requirements text })) }
    | none => s
  else s

/-- `process_footnote`. -/
def process_footnote (s : PState) (b : Block) : PState :=
  let text := strip_html b.html
  if text = "" then s
  else addToCurrentClauseContent s (ContentItem.mk "footnote" text)

/-- `process_list_item`: list-item content and requirement extraction
(no reference extraction in the source). -/
def process_list_item (s : PState) (b : Block) : PState :=
  let text := strip_html b.html
  if (text != "") && hasCurrentClause s then
    match s.context.current_clause_id with
    | some cid =>
      { s with clauses := (dictUpdate s.clauses cid (fun c =>
          { c with
            content := c.content ++ [ContentItem.mk "list_item" text]
            requirements := c.requirements ++ extract_requirements text })) }
    | none => s
  else s

/-! ## The dispatcher `process_block` (json_to_schema.py lines 506-536) -/

/-- The `handlers` dispatch table; an unrecognized kind is a no-op
(a `handlers.get(btype)` miss). -/
def applyHandler (docId : String) (b : Block) (s : PState) : PState :=
  if b.block_type = "SectionHeader" then process_section_header s b
  else if b.block_type = "Caption" then process_caption s b
  else if b.block_type = "Table" then process_table s b
  else if b.block_type = "Picture" then process_picture docId s b
  else if b.block_type = "Text" then process_text s b
  else if b.block_type = "Footnote" then process_footnote s b
  else if b.block_type = "ListItem" then process_list_item s b
  else s

mutual
/-- `process_block` from json_to_schema.py: return immediately on
`PageHeader`/`PageFooter`, otherwise dispatch, then process the children
in order (`processBlocks` is the `for child in children` loop). -/
def process_block (docId : String) : Block → PState → PState
  | Block.mk bt h cap rows imgs children, s =>
    if bt = "PageHeader" ∨ bt = "PageFooter" then s
    else
      processBlocks docId children
        (applyHandler docId (Block.mk bt h cap rows imgs children) s)

def processBlocks (docId : String) : List Block → PState → PState
  | [], s => s
  | b :: rest, s => processBlocks docId rest (process_block docId b s)
end

mutual
/-- The blocks whose handler runs, in dispatch order: pre-order traversal
pruning `PageHeader`/`PageFooter` subtrees whole. -/
def visitOrder : Block → List Block
  | Block.mk bt h cap rows imgs children =>
    if bt = "PageHeader" ∨ bt = "PageFooter" then []
    else Block.mk bt h cap rows imgs children :: visitOrderList children

def visitOrderList : List Block → List Block
  | [] => []
  | b :: rest => visitOrder b ++ visitOrderList rest
end

mutual
/-- Processing a block applies the handlers along its pruned pre-order
visit list. -/
theorem process_block_eq_foldl (docId : String) : ∀ (b : Block) (s : PState),
    process_block docId b s =
      (visitOrder b).foldl (fun st x => applyHandler docId x st) s
  | Block.mk bt h cap rows imgs children, s => by
    by_cases hhd : bt = "PageHeader" ∨ bt = "PageFooter"
    · rw [process_block, visitOrder]
      rw [if_pos hhd, if_pos hhd]
      rfl
    · rw [process_block, visitOrder]
      rw [if_neg hhd, if_neg hhd, List.foldl_cons]
      exact processBlocks_eq_foldl docId children _

theorem processBlocks_eq_foldl (docId : String) : ∀ (l : List Block) (s : PState),
    processBlocks docId l s =
      (visitOrderList l).foldl (fun st x => applyHandler docId x st) s
  | [], s => by rw [processBlocks, visitOrderList]; rfl
  | b :: rest, s => by
    rw [processBlocks, visitOrderList, List.foldl_append,
      ← process_block_eq_foldl docId b s]
    exact processBlocks_eq_foldl docId rest _
end

/-! ## Dictionary lemmas -/

theorem dictGet_dictUpdate_self {m : CDict} {k : String} {f : Clause → Clause}
    {c : Clause} (h : dictGet m k = some c) :
    dictGet (dictUpdate m k f) k = some (f c) := by
  induction m with
  | nil => simp [dictGet] at h
  | cons p rest ih =>
    obtain ⟨a, c0⟩ := p
    by_cases ha : (a == k) = true
    · rw [dictGet, if_pos ha] at h
      rw [dictUpdate, if_pos ha, dictGet, if_pos ha]
      rw [Option.some_inj.mp h]
    · rw [dictGet, if_neg ha] at h
      rw [dictUpdate, if_neg ha, dictGet, if_neg ha]
      exact ih h

theorem dictGet_dictUpdate_ne {m : CDict} {k k2 : String} {f : Clause → Clause}
    (h : k2 ≠ k) : dictGet (dictUpdate m k f) k2 = dictGet m k2 := by
  induction m with
  | nil => rfl
  | cons p rest ih =>
    obtain ⟨a, c0⟩ := p
    by_cases ha : (a == k) = true
    · have hak : a = k := by simpa using ha
      subst hak
      have hne : (a == k2) = false :=
        beq_eq_false_iff_ne.mpr (fun hh => h hh.symm)
      rw [dictUpdate, if_pos ha, dictGet, if_neg (by simp [hne]), dictGet,
        if_neg (by simp [hne])]
      exact ih
    · rw [dictUpdate, if_neg ha]
      by_cases ha2 : (a == k2) = true
      · rw [dictGet, if_pos ha2, dictGet, if_pos ha2]
      · rw [dictGet, if_neg ha2, dictGet, if_neg ha2]
        exact ih

theorem dictContains_of_get {m : CDict} {k : String} {c : Clause}
    (h : dictGet m k = some c) : dictContains m k = true := by
  simp [dictContains, h]

/-! ## Claim C1 -/

/-- A minimal clause, for concrete counterexamples and witnesses. -/
def baseClause : Clause := { id := "1", title := "General" }

/-- A processing state with one open clause `1`, for concrete
counterexamples and witnesses. -/
def openState : PState :=
  { clauses := [("1", baseClause)]
    context := { current_clause_id := some "1" }
    counters := {} }

/-- Claim C1 (amended): `process_block` applies the block handlers along
the pruned pre-order visit list: every child of a non-header/footer block
is recursed into unconditionally — including children of blocks whose kind
has no handler — but a `PageHeader`/`PageFooter` block is skipped whole,
children included, so its descendants are never visited. -/
theorem process_block_traversal_spec (docId : String) (b : Block) (s : PState) :
    process_block docId b s =
      (visitOrder b).foldl (fun st x => applyHandler docId x st) s ∧
    ((b.block_type = "PageHeader" ∨ b.block_type = "PageFooter") → visitOrder b = []) ∧
    (¬(b.block_type = "PageHeader" ∨ b.block_type = "PageFooter") →
      visitOrder b = b :: visitOrderList b.children) := by
  refine ⟨process_block_eq_foldl docId b s, ?_, ?_⟩ <;>
    cases b with
    | mk bt hh cap rows imgs children =>
      intro h
      simp only [Block.block_type] at h
      first
        | rw [visitOrder, if_pos h]
        | (rw [visitOrder, if_neg h]; rfl)

theorem process_block_traversal_spec_witness :
    ¬(((Block.mk "Quote" "" "" none [] []).block_type = "PageHeader") ∨
      ((Block.mk "Quote" "" "" none [] []).block_type = "PageFooter")) ∧
    visitOrder (Block.mk "Quote" "" "" none [] []) =
      Block.mk "Quote" "" "" none [] [] ::
        visitOrderList (Block.mk "Quote" "" "" none [] []).children :=
  ⟨by decide,
   (process_block_traversal_spec "doc" (Block.mk "Quote" "" "" none [] []) openState).2.2
     (by decide)⟩

/-- Claim C1, counterexample to the claim as stated: a `Text` descendant of
a `PageHeader` block is not visited — processing the header leaves the
state unchanged, while processing the same `Text` child directly would
change it. -/
theorem pageheader_child_skipped_counterexample :
    process_block "doc"
      (Block.mk "PageHeader" "" "" none []
        [Block.mk "Text" "It shall hold." "" none [] []]) openState = openState ∧
    process_block "doc" (Block.mk "Text" "It shall hold." "" none [] [])
      openState ≠ openState := by
  constructor
  · decide
  · decide

/-! ## Claim C2 -/

/-- The reference transformation of one `process_text` loop step, as a
partial map: the kept internal-reference string, if any. -/
def refKeep (ref : String) : Option String :=
  if ref.startsWith "clause:" then some (ref.replace "clause:" "")
  else if ref.startsWith "table:" || ref.startsWith "figure:" then some ref
  else none

/-- The internal references `process_text` appends for a reference list. -/
def mappedRefs (refs : List String) : List String :=
  refs.filterMap refKeep

theorem refFoldStep_via_refKeep (c2 : Clause) (ref : String) :
    refFoldStep c2 ref =
      { c2 with refs_internal := c2.refs_internal ++ (refKeep ref).toList } := by
  unfold refFoldStep refKeep
  by_cases h1 : ref.startsWith "clause:" = true
  · rw [if_pos h1, if_pos h1]; rfl
  · rw [if_neg h1, if_neg h1]
    by_cases h2 : (ref.startsWith "table:" || ref.startsWith "figure:") = true
    · rw [if_pos h2, if_pos h2]; rfl
    · rw [if_neg h2, if_neg h2]; simp

theorem refsFold_spec (refs : List String) (c1 : Clause) :
    refs.foldl refFoldStep c1 =
      { c1 with refs_internal := c1.refs_internal ++ mappedRefs refs } := by
  induction refs generalizing c1 with
  | nil => simp [mappedRefs]
  | cons ref rest ih =>
    rw [List.foldl_cons, refFoldStep_via_refKeep, ih]
    have hm : mappedRefs (ref :: rest) = (refKeep ref).toList ++ mappedRefs rest := by
      cases hk : refKeep ref with
      | none => simp [mappedRefs, List.filterMap_cons, hk]
      | some v => simp [mappedRefs, List.filterMap_cons, hk]
    rw [hm]
    simp

/-- Claim C2 (amended): for a `Text` block with nonempty cleaned text
processed while a clause is open, the handler appends a `paragraph`
`ContentItem` and runs both Requirement extraction and Reference
extraction, appending the results to the clause's requirement list and
internal-reference list (clause references with the `clause:` prefix
stripped, table/figure references verbatim); for a `ListItem` block only
the `list_item` `ContentItem` and Requirement extraction are applied — the
internal-reference list is unchanged.  With no clause open both handlers
leave all clauses unchanged. -/
theorem text_list_item_spec (b : Block) (s : PState) :
    (∀ cid c, s.context.current_clause_id = some cid → cid ≠ "" →
        dictGet s.clauses cid = some c → strip_html b.html ≠ "" →
      (∃ c2, dictGet (process_text s b).clauses cid = some c2 ∧
        c2.content = c.content ++ [ContentItem.mk "paragraph" (strip_html b.html)] ∧
        c2.requirements = c.requirements ++ extract_requirements (strip_html b.html) ∧
        c2.refs_internal =
          c.refs_internal ++ mappedRefs (extract_references (strip_html b.html)) ∧
        ∀ k, k ≠ cid → dictGet (process_text s b).clauses k = dictGet s.clauses k) ∧
      (∃ c3, dictGet (process_list_item s b).clauses cid = some c3 ∧
        c3.content = c.content ++ [ContentItem.mk "list_item" (strip_html b.html)] ∧
        c3.requirements = c.requirements ++ extract_requirements (strip_html b.html) ∧
        c3.refs_internal = c.refs_internal ∧
        ∀ k, k ≠ cid → dictGet (process_list_item s b).clauses k = dictGet s.clauses k)) ∧
    (hasCurrentClause s = false →
      (process_text s b).clauses = s.clauses ∧
      (process_list_item s b).clauses = s.clauses) := by
  constructor
  · intro cid c hcid hcne hget hne
    have hcur : hasCurrentClause s = true := by
      unfold hasCurrentClause
      rw [hcid]
      simp [hcne, dictContains_of_get hget]
    have hcond : ((strip_html b.html != "") && hasCurrentClause s) = true := by
      simp [hcur, hne]
    constructor
    · have hpt : process_text s b =
          { s with clauses := (dictUpdate s.clauses cid (fun c =>
              (extract_references (strip_html b.html)).foldl refFoldStep
                { c with
                  content := c.content ++
                    [ContentItem.mk "paragraph" (strip_html b.html)]
                  requirements := c.requirements ++
                    extract_requirements (strip_html b.html) })) } := by
        unfold process_text
        rw [if_pos hcond, hcid]
      refine ⟨_, by rw [hpt]; exact dictGet_dictUpdate_self hget, ?_, ?_, ?_, ?_⟩
      · rw [refsFold_spec]
      · rw [refsFold_spec]
      · rw [refsFold_spec]
      · intro k hk
        rw [hpt]
        exact dictGet_dictUpdate_ne hk
    · have hpl : process_list_item s b =
          { s with clauses := (dictUpdate s.clauses cid (fun c =>
              { c with
                content := c.content ++
                  [ContentItem.mk "list_item" (strip_html b.html)]
                requirements := c.requirements ++
                  extract_requirements (strip_html b.html) })) } := by
        unfold process_list_item
        rw [if_pos hcond, hcid]
      refine ⟨{ c with
          content := c.content ++ [ContentItem.mk "list_item" (strip_html b.html)]
          requirements := c.requirements ++ extract_requirements (strip_html b.html) },
        ?_, rfl, rfl, rfl, ?_⟩
      · rw [hpl]
        exact dictGet_dictUpdate_self hget
      · intro k hk
        rw [hpl]
        exact dictGet_dictUpdate_ne hk
  · intro hfalse
    constructor
    · unfold process_text
      rw [if_neg (by simp [hfalse])]
    · unfold process_list_item
      rw [if_neg (by simp [hfalse])]

theorem text_list_item_spec_witness :
    ∃ c2, dictGet (process_text openState
        (Block.mk "Text" "Units shall comply; see table 3.1." "" none [] [])).clauses
        "1" = some c2 ∧
      c2.content = baseClause.content ++ [ContentItem.mk "paragraph"
        (strip_html (Block.mk "Text" "Units shall comply; see table 3.1." "" none [] []).html)] ∧
      c2.requirements = baseClause.requirements ++ extract_requirements
        (strip_html (Block.mk "Text" "Units shall comply; see table 3.1." "" none [] []).html) ∧
      c2.refs_internal = baseClause.refs_internal ++ mappedRefs (extract_references
        (strip_html (Block.mk "Text" "Units shall comply; see table 3.1." "" none [] []).html)) ∧
      ∀ k, k ≠ "1" → dictGet (process_text openState
        (Block.mk "Text" "Units shall comply; see table 3.1." "" none [] [])).clauses k =
          dictGet openState.clauses k :=
  ((text_list_item_spec
      (Block.mk "Text" "Units shall comply; see table 3.1." "" none [] [])
      openState).1 "1" baseClause rfl (by decide) (by decide) (by decide)).1

/-- Claim C2, counterexample to the claim as stated: a `ListItem` whose
text mentions `table 3.1`, processed while clause `1` is open, leaves the
clause's internal-reference list empty even though Reference extraction
finds the mention. -/
theorem list_item_reference_counterexample :
    extract_references "see table 3.1" = ["table:3.1"] ∧
    dictGet (process_list_item openState
        (Block.mk "ListItem" "see table 3.1" "" none [] [])).clauses "1" =
      some (Clause.mk "1" "General" none [] [ContentItem.mk "list_item" "see table 3.1"]
        [] [] [] [] []) := by
  constructor
  · decide
  · decide

/-! ## Claim C8 -/

/-- Claim C8: a `SectionHeader` whose cleaned text is a bare clause
identifier with no title, followed by a `SectionHeader` whose cleaned text
has no leading identifier, creates exactly one clause — id the bare
identifier, title the second header's full cleaned text — and makes it the
current clause (the two-header merge via the pending bare number). -/
theorem two_header_merge_spec (s : PState) (b1 b2 : Block) (cid : String)
    (hb1 : extract_clause_info (strip_html b1.html) = some (cid, none))
    (hb2 : extract_clause_info (strip_html b2.html) = none)
    (hb2ne : strip_html b2.html ≠ "")
    (hnew : dictContains s.clauses cid = false) :
    (process_section_header (process_section_header s b1) b2).clauses =
      s.clauses ++ [(cid, { id := cid, title := strip_html b2.html })] ∧
    (process_section_header (process_section_header s b1) b2).context.current_clause_id =
      some cid ∧
    (process_section_header (process_section_header s b1) b2).context.pending_number =
      none := by
  have hcne : cid ≠ "" := by
    intro hc
    subst hc
    exact (extract_clause_info_goodId hb1).1 rfl
  have hb1ne : strip_html b1.html ≠ "" := by
    intro hc
    rw [hc] at hb1
    exact Option.noConfusion hb1
  have hs1 : process_section_header s b1 =
      { s with context := { s.context with pending_number := some cid } } := by
    unfold process_section_header
    rw [if_neg hb1ne, hb1]
  rw [hs1]
  unfold process_section_header
  rw [if_neg hb2ne, hb2]
  simp only
  rw [if_neg hcne]
  unfold createClause
  rw [hnew]
  simp

theorem two_header_merge_spec_witness :
    (process_section_header (process_section_header ({} : PState)
        (Block.mk "SectionHeader" "A.2" "" none [] []))
        (Block.mk "SectionHeader" "Environmental Tests" "" none [] [])).clauses =
      PState.clauses {} ++ [("A.2",
        { id := "A.2",
          title := strip_html (Block.mk "SectionHeader" "Environmental Tests" "" none [] []).html })] ∧
    (process_section_header (process_section_header ({} : PState)
        (Block.mk "SectionHeader" "A.2" "" none [] []))
        (Block.mk "SectionHeader" "Environmental Tests" "" none [] [])).context.current_clause_id =
      some "A.2" ∧
    (process_section_header (process_section_header ({} : PState)
        (Block.mk "SectionHeader" "A.2" "" none [] []))
        (Block.mk "SectionHeader" "Environmental Tests" "" none [] [])).context.pending_number =
      none :=
  two_header_merge_spec {} (Block.mk "SectionHeader" "A.2" "" none [] [])
    (Block.mk "SectionHeader" "Environmental Tests" "" none [] []) "A.2"
    (by decide) (by decide) (by decide) (by decide)

/-! ## Claim C10: image counters -/

/-- Effect of `_process_single_image` on the three image counters, by
outcome: skipped (empty payload or decode failure) — unchanged; decoded
but persistence fails — only `total_images` is incremented (it is bumped
before persistence); decoded and persisted — `total_images` and exactly
one of the two bucket counters are incremented. -/
theorem processSingleImage_counters (docId : String) (b : Block) (s : PState)
    (it : ImgItem) :
    ((it.b64Empty = true ∨ it.decoded = none) →
      (processSingleImage docId b s it).counters.total_images = s.counters.total_images ∧
      (processSingleImage docId b s it).counters.clause_images = s.counters.clause_images ∧
      (processSingleImage docId b s it).counters.misc_images = s.counters.misc_images) ∧
    (∀ data, it.b64Empty = false → it.decoded = some data → it.saveOk = false →
      (processSingleImage docId b s it).counters.total_images = s.counters.total_images + 1 ∧
      (processSingleImage docId b s it).counters.clause_images = s.counters.clause_images ∧
      (processSingleImage docId b s it).counters.misc_images = s.counters.misc_images) ∧
    (∀ data, it.b64Empty = false → it.decoded = some data → it.saveOk = true →
      (processSingleImage docId b s it).counters.total_images = s.counters.total_images + 1 ∧
      (((processSingleImage docId b s it).counters.clause_images = s.counters.clause_images + 1 ∧
        (processSingleImage docId b s it).counters.misc_images = s.counters.misc_images) ∨
       ((processSingleImage docId b s it).counters.clause_images = s.counters.clause_images ∧
        (processSingleImage docId b s it).counters.misc_images = s.counters.misc_images + 1))) := by
  refine ⟨?_, ?_, ?_⟩
  · intro h
    unfold processSingleImage
    rcases h with h | h
    · rw [if_pos h]
      exact ⟨rfl, rfl, rfl⟩
    · cases hb : it.b64Empty
      · rw [h]
        exact ⟨rfl, rfl, rfl⟩
      · exact ⟨rfl, rfl, rfl⟩
  · intro data hb hd hsv
    unfold processSingleImage
    rw [if_neg (by simp [hb]), hd]
    simp only
    by_cases hcur : hasCurrentClause { s with counters :=
        { s.counters with total_images := s.counters.total_images + 1 } } = true
    · rw [if_pos hcur]
      unfold saveClauseImage
      cases hc : s.context.current_clause_id with
      | none => exact ⟨rfl, rfl, rfl⟩
      | some cid =>
        simp only
        rw [if_pos (by rw [hsv])]
        exact ⟨rfl, rfl, rfl⟩
    · rw [if_neg hcur]
      unfold saveMiscImage
      rw [if_pos (by rw [hsv])]
      exact ⟨rfl, rfl, rfl⟩
  · intro data hb hd hsv
    unfold processSingleImage
    rw [if_neg (by simp [hb]), hd]
    simp only
    by_cases hcur : hasCurrentClause { s with counters :=
        { s.counters with total_images := s.counters.total_images + 1 } } = true
    · rw [if_pos hcur]
      unfold saveClauseImage
      cases hc : s.context.current_clause_id with
      | none =>
        exfalso
        unfold hasCurrentClause at hcur
        simp only at hcur
        rw [hc] at hcur
        exact Bool.noConfusion hcur
      | some cid =>
        simp only
        rw [if_neg (by rw [hsv]; simp)]
        refine ⟨rfl, Or.inl ⟨rfl, rfl⟩⟩
    · rw [if_neg hcur]
      unfold saveMiscImage
      rw [if_neg (by rw [hsv]; simp)]
      refine ⟨rfl, Or.inr ⟨rfl, rfl⟩⟩

/-- The bucket-sum bound is preserved by one image. -/
theorem processSingleImage_mono (docId : String) (b : Block) (s : PState)
    (it : ImgItem)
    (h : s.counters.clause_images + s.counters.misc_images ≤ s.counters.total_images) :
    (processSingleImage docId b s it).counters.clause_images +
      (processSingleImage docId b s it).counters.misc_images ≤
      (processSingleImage docId b s it).counters.total_images := by
  obtain ⟨h1, h2, h3⟩ := processSingleImage_counters docId b s it
  cases hb : it.b64Empty
  · cases hd : it.decoded with
    | none =>
      obtain ⟨e1, e2, e3⟩ := h1 (Or.inr hd)
      omega
    | some data =>
      cases hsv : it.saveOk
      · obtain ⟨e1, e2, e3⟩ := h2 data hb hd hsv
        omega
      · obtain ⟨e1, e4⟩ := h3 data hb hd hsv
        rcases e4 with ⟨e2, e3⟩ | ⟨e2, e3⟩ <;> omega
  · obtain ⟨e1, e2, e3⟩ := h1 (Or.inl hb)
    omega

theorem foldl_images_mono (docId : String) (b : Block) :
    ∀ (l : List ImgItem) (s : PState),
      s.counters.clause_images + s.counters.misc_images ≤ s.counters.total_images →
      (l.foldl (processSingleImage docId b) s).counters.clause_images +
        (l.foldl (processSingleImage docId b) s).counters.misc_images ≤
        (l.foldl (processSingleImage docId b) s).counters.total_images := by
  intro l
  induction l with
  | nil => intro s h; exact h
  | cons it rest ih =>
    intro s h
    rw [List.foldl_cons]
    exact ih _ (processSingleImage_mono docId b s it h)

theorem process_section_header_counters (s : PState) (b : Block) :
    (process_section_header s b).counters = s.counters := by
  unfold process_section_header createClause
  (try dsimp only)
  repeat' split
  all_goals rfl

theorem addToCurrentClauseContent_counters (s : PState) (item : ContentItem) :
    (addToCurrentClauseContent s item).counters = s.counters := by
  unfold addToCurrentClauseContent
  repeat' split
  all_goals rfl

theorem process_caption_counters (s : PState) (b : Block) :
    (process_caption s b).counters = s.counters := by
  unfold process_caption
  (try dsimp only)
  repeat' split
  all_goals first | rfl | exact addToCurrentClauseContent_counters s _

theorem process_table_counters (s : PState) (b : Block) :
    (process_table s b).counters.total_images = s.counters.total_images ∧
    (process_table s b).counters.clause_images = s.counters.clause_images ∧
    (process_table s b).counters.misc_images = s.counters.misc_images := by
  unfold process_table
  (try dsimp only)
  repeat' split
  all_goals exact ⟨rfl, rfl, rfl⟩

theorem process_text_counters (s : PState) (b : Block) :
    (process_text s b).counters = s.counters := by
  unfold process_text
  (try dsimp only)
  repeat' split
  all_goals rfl

theorem process_footnote_counters (s : PState) (b : Block) :
    (process_footnote s b).counters = s.counters := by
  unfold process_footnote
  (try dsimp only)
  repeat' split
  all_goals first | rfl | exact addToCurrentClauseContent_counters s _

theorem process_list_item_counters (s : PState) (b : Block) :
    (process_list_item s b).counters = s.counters := by
  unfold process_list_item
  (try dsimp only)
  repeat' split
  all_goals rfl

theorem process_picture_mono (docId : String) (s : PState) (b : Block)
    (h : s.counters.clause_images + s.counters.misc_images ≤ s.counters.total_images) :
    (process_picture docId s b).counters.clause_images +
      (process_picture docId s b).counters.misc_images ≤
      (process_picture docId s b).counters.total_images := by
  unfold process_picture
  split
  · exact h
  · exact foldl_images_mono docId b b.images s h

theorem applyHandler_mono (docId : String) (b : Block) (s : PState)
    (h : s.counters.clause_images + s.counters.misc_images ≤ s.counters.total_images) :
    (applyHandler docId b s).counters.clause_images +
      (applyHandler docId b s).counters.misc_images ≤
      (applyHandler docId b s).counters.total_images := by
  unfold applyHandler
  split
  · rw [process_section_header_counters]; exact h
  · split
    · rw [process_caption_counters]; exact h
    · split
      · obtain ⟨e1, e2, e3⟩ := process_table_counters s b
        omega
      · split
        · exact process_picture_mono docId s b h
        · split
          · rw [process_text_counters]; exact h
          · split
            · rw [process_footnote_counters]; exact h
            · split
              · rw [process_list_item_counters]; exact h
              · exact h

mutual
theorem process_block_mono (docId : String) : ∀ (b : Block) (s : PState),
    s.counters.clause_images + s.counters.misc_images ≤ s.counters.total_images →
    (process_block docId b s).counters.clause_images +
      (process_block docId b s).counters.misc_images ≤
      (process_block docId b s).counters.total_images
  | Block.mk bt h2 cap rows imgs children, s => by
    intro h
    rw [process_block]
    split
    · exact h
    · exact processBlocks_mono docId children _ (applyHandler_mono docId _ s h)

theorem processBlocks_mono (docId : String) : ∀ (l : List Block) (s : PState),
    s.counters.clause_images + s.counters.misc_images ≤ s.counters.total_images →
    (processBlocks docId l s).counters.clause_images +
      (processBlocks docId l s).counters.misc_images ≤
      (processBlocks docId l s).counters.total_images
  | [], s => by intro h; rw [processBlocks]; exact h
  | b :: rest, s => by
    intro h
    rw [processBlocks]
    exact processBlocks_mono docId rest _ (process_block_mono docId b s h)
end

/-- Claim C10: throughout processing, `total_images` dominates
`images_in_clauses + images_in_misc`; an image that decodes and persists
is counted in `total_images` and in exactly one bucket; one that decodes
but fails to persist is counted in `total_images` only (the source of any
strict gap, since `total_images` is incremented before persistence and the
bucket counter only after a successful save); a skipped image counts
nowhere. -/
theorem image_counters_invariant_spec (docId : String) (b : Block) (s : PState)
    (it : ImgItem) :
    (s.counters.clause_images + s.counters.misc_images ≤ s.counters.total_images →
      (process_block docId b s).counters.clause_images +
        (process_block docId b s).counters.misc_images ≤
        (process_block docId b s).counters.total_images) ∧
    (∀ data, it.b64Empty = false → it.decoded = some data → it.saveOk = true →
      (processSingleImage docId b s it).counters.total_images = s.counters.total_images + 1 ∧
      (((processSingleImage docId b s it).counters.clause_images = s.counters.clause_images + 1 ∧
        (processSingleImage docId b s it).counters.misc_images = s.counters.misc_images) ∨
       ((processSingleImage docId b s it).counters.clause_images = s.counters.clause_images ∧
        (processSingleImage docId b s it).counters.misc_images = s.counters.misc_images + 1))) ∧
    (∀ data, it.b64Empty = false → it.decoded = some data → it.saveOk = false →
      (processSingleImage docId b s it).counters.total_images = s.counters.total_images + 1 ∧
      (processSingleImage docId b s it).counters.clause_images = s.counters.clause_images ∧
      (processSingleImage docId b s it).counters.misc_images = s.counters.misc_images) ∧
    ((it.b64Empty = true ∨ it.decoded = none) →
      (processSingleImage docId b s it).counters.total_images = s.counters.total_images ∧
      (processSingleImage docId b s it).counters.clause_images = s.counters.clause_images ∧
      (processSingleImage docId b s it).counters.misc_images = s.counters.misc_images) :=
  ⟨process_block_mono docId b s,
   (processSingleImage_counters docId b s it).2.2,
   (processSingleImage_counters docId b s it).2.1,
   (processSingleImage_counters docId b s it).1⟩

theorem image_counters_invariant_spec_witness :
    (processSingleImage "doc" (Block.mk "Picture" "" "" none [] []) openState
        (ImgItem.mk "k" false (some [0x42, 0x4D, 0x00]) true)).counters.total_images =
      openState.counters.total_images + 1 ∧
    (((processSingleImage "doc" (Block.mk "Picture" "" "" none [] []) openState
        (ImgItem.mk "k" false (some [0x42, 0x4D, 0x00]) true)).counters.clause_images =
          openState.counters.clause_images + 1 ∧
      (processSingleImage "doc" (Block.mk "Picture" "" "" none [] []) openState
        (ImgItem.mk "k" false (some [0x42, 0x4D, 0x00]) true)).counters.misc_images =
          openState.counters.misc_images) ∨
     ((processSingleImage "doc" (Block.mk "Picture" "" "" none [] []) openState
        (ImgItem.mk "k" false (some [0x42, 0x4D, 0x00]) true)).counters.clause_images =
          openState.counters.clause_images ∧
      (processSingleImage "doc" (Block.mk "Picture" "" "" none [] []) openState
        (ImgItem.mk "k" false (some [0x42, 0x4D, 0x00]) true)).counters.misc_images =
          openState.counters.misc_images + 1)) :=
  (image_counters_invariant_spec "doc" (Block.mk "Picture" "" "" none [] []) openState
      (ImgItem.mk "k" false (some [0x42, 0x4D, 0x00]) true)).2.1
    [0x42, 0x4D, 0x00] rfl rfl rfl

/-! ## Reference resolution (schema_to_chunks.py lines 103-160)

`resolve_internal_references` iterates a set of raw reference strings,
takes `ref.split()[-1]` (Python `str.split()` with no argument: whitespace
runs, no empty tokens; `[-1]` raises `IndexError` when there is no token),
keeps the token only on an exact membership test against the known chunk
ids, emits `f"{document_id}::{ref_id}"` into a set, and returns it
sorted.  Python sets are modelled as lists of representatives; set
deduplication is `eraseDups` and theorems are membership-level. -/

/-- Set deduplication keeping first occurrences. -/
def pyDedupAux : List String → List String → List String
  | [], _ => []
  | x :: xs, seen =>
    if seen.contains x then pyDedupAux xs seen
    else x :: pyDedupAux xs (x :: seen)

def pyDedup (l : List String) : List String := pyDedupAux l []

theorem mem_pyDedupAux {x : String} : ∀ {l seen : List String},
    x ∈ pyDedupAux l seen ↔ x ∈ l ∧ x ∉ seen := by
  intro l
  induction l with
  | nil => intro seen; simp [pyDedupAux]
  | cons y ys ih =>
    intro seen
    unfold pyDedupAux
    by_cases h : seen.contains y = true
    · rw [if_pos h, ih]
      have hy : y ∈ seen := by simpa using h
      constructor
      · rintro ⟨h1, h2⟩
        exact ⟨List.mem_cons_of_mem _ h1, h2⟩
      · rintro ⟨h1, h2⟩
        rcases List.mem_cons.mp h1 with rfl | h1
        · exact absurd hy h2
        · exact ⟨h1, h2⟩
    · rw [if_neg h]
      have hy : y ∉ seen := by simpa using h
      simp only [List.mem_cons, ih]
      constructor
      · rintro (rfl | ⟨h1, h2⟩)
        · exact ⟨Or.inl rfl, hy⟩
        · exact ⟨Or.inr h1, fun hc => h2 (Or.inr hc)⟩
      · rintro ⟨rfl | h1, h2⟩
        · exact Or.inl rfl
        · by_cases hxy : x = y
          · exact Or.inl hxy
          · refine Or.inr ⟨h1, fun hc => ?_⟩
            rcases hc with hc | hc
            · exact hxy hc
            · exact h2 hc

theorem mem_pyDedup {x : String} {l : List String} : x ∈ pyDedup l ↔ x ∈ l := by
  unfold pyDedup
  rw [mem_pyDedupAux]
  simp

/-- Python `str.split()` (no separator): whitespace-run splitting. -/
def pySplitWsAux : List Char → List Char → List (List Char)
  | [], acc => if acc = [] then [] else [acc.reverse]
  | c :: rest, acc =>
    if isPySpace c then
      if acc = [] then pySplitWsAux rest [] else acc.reverse :: pySplitWsAux rest []
    else pySplitWsAux rest (c :: acc)

def pySplitWs (r : String) : List String :=
  (pySplitWsAux r.toList []).map List.asString

/-- Stable insertion into a `sorted()`-ascending list (code-point order). -/
def insertSortedStr (x : String) : List String → List String
  | [] => [x]
  | y :: ys => if y < x then y :: insertSortedStr x ys else x :: y :: ys

/-- Python `sorted()` on strings. -/
def pySorted (l : List String) : List String := l.foldr insertSortedStr []

/-- `resolve_internal_references` from schema_to_chunks.py.  The error case
models the `IndexError` from `ref.split()[-1]` on a token-free reference. -/
def resolve_internal_references (raw_refs known_chunk_ids : List String)
    (document_id : String) : Except Unit (List String) :=
  if raw_refs.any (fun ref => (pySplitWs ref).getLast?.isNone) then Except.error ()
  else Except.ok (pySorted (pyDedup (raw_refs.filterMap (fun ref =>
    match (pySplitWs ref).getLast? with
    | some ref_id =>
      if known_chunk_ids.contains ref_id then some (document_id ++ "::" ++ ref_id)
      else none
    | none => none))))

/-- The `references` object written by `write_chunk`:
`{internal_raw: sorted(internal_raw), internal_resolved: …, standards:
sorted(standards)}`. -/
structure ChunkRefs where
  internal_raw : List String
  internal_resolved : List String
  standards : List String
deriving DecidableEq, Repr

/-- The references assembly of `write_chunk` (schema_to_chunks.py lines
129-152), given the extracted raw internal references and standards. -/
def write_chunk_references (internal_raw standards known_chunk_ids : List String)
    (doc_id : String) : Except Unit ChunkRefs :=
  match resolve_internal_references internal_raw known_chunk_ids doc_id with
  | Except.error e => Except.error e
  | Except.ok resolved =>
    Except.ok ⟨pySorted (pyDedup internal_raw), resolved, pySorted (pyDedup standards)⟩

theorem mem_insertSortedStr {x y : String} {l : List String} :
    x ∈ insertSortedStr y l ↔ x = y ∨ x ∈ l := by
  induction l with
  | nil => simp [insertSortedStr]
  | cons z zs ih =>
    unfold insertSortedStr
    by_cases h : z < y
    · rw [if_pos h]
      rw [List.mem_cons, ih, List.mem_cons]
      tauto
    · rw [if_neg h]
      exact List.mem_cons

theorem mem_pySorted {x : String} {l : List String} : x ∈ pySorted l ↔ x ∈ l := by
  induction l with
  | nil => simp [pySorted]
  | cons y ys ih =>
    unfold pySorted at ih ⊢
    rw [List.foldr_cons, mem_insertSortedStr, ih]
    simp

/-- Claim C5: a resolved reference `documentId::X` is emitted exactly when
some raw reference's trailing whitespace-separated token `X` is a member of
the known chunk-id set — exact membership, no fuzzy or prefix matching —
so every resolved reference points to an id of that document; and every
raw reference is retained in the chunk's `internal_raw` list regardless of
resolution. -/
theorem resolve_references_spec (raw_refs standards known_chunk_ids : List String)
    (doc_id : String) :
    (∀ resolved, resolve_internal_references raw_refs known_chunk_ids doc_id =
        Except.ok resolved →
      (∀ r ∈ resolved, ∃ ref ∈ raw_refs, ∃ X, (pySplitWs ref).getLast? = some X ∧
        X ∈ known_chunk_ids ∧ r = doc_id ++ "::" ++ X) ∧
      (∀ ref ∈ raw_refs, ∀ X, (pySplitWs ref).getLast? = some X →
        X ∈ known_chunk_ids → (doc_id ++ "::" ++ X) ∈ resolved)) ∧
    (∀ refsRec, write_chunk_references raw_refs standards known_chunk_ids doc_id =
        Except.ok refsRec →
      (∀ ref ∈ raw_refs, ref ∈ refsRec.internal_raw) ∧
      refsRec.internal_resolved = (resolve_internal_references raw_refs
        known_chunk_ids doc_id).toOption.getD []) := by
  constructor
  · intro resolved hres
    unfold resolve_internal_references at hres
    by_cases hbad : raw_refs.any (fun ref => (pySplitWs ref).getLast?.isNone) = true
    · rw [if_pos hbad] at hres
      exact Except.noConfusion hres
    · rw [if_neg hbad] at hres
      have hres2 := (Except.ok.injEq _ _).mp hres
      subst hres2
      constructor
      · intro r hr
        rw [mem_pySorted, mem_pyDedup] at hr
        obtain ⟨ref, href, hkeep⟩ := List.mem_filterMap.mp hr
        refine ⟨ref, href, ?_⟩
        cases hlast : (pySplitWs ref).getLast? with
        | none => rw [hlast] at hkeep; exact Option.noConfusion hkeep
        | some X =>
          rw [hlast] at hkeep
          dsimp only at hkeep
          by_cases hmem : known_chunk_ids.contains X = true
          · rw [if_pos hmem] at hkeep
            exact ⟨X, rfl, by simpa using hmem, (Option.some_inj.mp hkeep).symm⟩
          · rw [if_neg hmem] at hkeep
            exact Option.noConfusion hkeep
      · intro ref href X hX hmem
        rw [mem_pySorted, mem_pyDedup]
        refine List.mem_filterMap.mpr ⟨ref, href, ?_⟩
        have hc : known_chunk_ids.contains X = true := by simpa using hmem
        rw [hX]
        dsimp only
        rw [if_pos hc]
  · intro refsRec hrec
    unfold write_chunk_references at hrec
    cases hres : resolve_internal_references raw_refs known_chunk_ids doc_id with
    | error e => rw [hres] at hrec; exact Except.noConfusion hrec
    | ok resolved =>
      rw [hres] at hrec
      have hrec2 := (Except.ok.injEq _ _).mp hrec
      subst hrec2
      constructor
      · intro ref href
        rw [mem_pySorted, mem_pyDedup]
        exact href
      · rfl

/-- Sanity check: the spec's scenario — `Clause 6.1` resolves, `Table 3`
does not (no clause `3`), and nothing is dropped from the raw set. -/
example :
    resolve_internal_references ["Clause 6.1", "Table 3"] ["6.1", "6", "A"] "documentId" =
      Except.ok ["documentId::6.1"] := by rfl

theorem resolve_references_spec_witness :
    ("Clause 6.1" ∈ (["Clause 6.1", "Table 3"] : List String)) ∧
    ("documentId::6.1" ∈ (["documentId::6.1"] : List String)) :=
  ⟨by decide,
   (resolve_references_spec ["Clause 6.1", "Table 3"] [] ["6.1", "6", "A"]
       "documentId").1 ["documentId::6.1"] (by rfl) |>.2 "Clause 6.1" (by decide)
     "6.1" (by decide) (by decide)⟩

/-! ## Hierarchy building (json_to_schema.py lines 442-483)

`build_clause_hierarchy` iterates the clause dictionary in insertion
order; for each id it computes a structural parent from the id string
(`cid.split(".")`), and when that parent is a key it links parent and
child exactly once.  Roots are the clauses never appearing as children,
sorted numeric-first.  Children are modelled as ids (the source appends
object references whose ids are exactly these keys). -/

/-- Python `str.split(sep)` for a one-character separator. -/
def splitChar (sep : Char) : List Char → List (List Char)
  | [] => [[]]
  | c :: r =>
    if c == sep then [] :: splitChar sep r
    else
      match splitChar sep r with
      | g :: gs => (c :: g) :: gs
      | [] => [[c]]

/-- `cid.split(".")`. -/
def splitDots (l : List Char) : List (List Char) := splitChar '.' l

/-- `".".join(parts)`. -/
def joinDots : List (List Char) → List Char
  | [] => []
  | [g] => g
  | g :: gs => g ++ '.' :: joinDots gs

/-- The structural parent identifier computed by the linking loop: for an
id with a digit first character, the id with its final dot-segment removed
(when it has more than one segment); for any other id containing a dot,
its leading segment.  (The source indexes `cid[0]` and would raise on an
empty id, which the pipeline never produces; modelled as no parent.) -/
def structParent (cid : String) : Option String :=
  match cid.toList with
  | [] => none
  | c :: _ =>
    if isAsciiDigit c then
      if (splitDots cid.toList).length > 1 then
        some (joinDots (splitDots cid.toList).dropLast).asString
      else none
    else if cid.toList.contains '.' then
      some ((splitDots cid.toList).headD []).asString
    else none

/-- One iteration of the linking loop for key `cid`: when the structural
parent exists in the dictionary and the link is not already present,
append the child id to the parent's children and set the child's
parent id. -/
def linkOne (m : CDict) (cid : String) : CDict :=
  match structParent cid with
  | none => m
  | some pid =>
    match dictGet m pid with
    | some parent =>
      if cid ∈ parent.childIds then m
      else
        dictUpdate (dictUpdate m pid
            (fun p => { p with childIds := p.childIds ++ [cid] }))
          cid (fun c => { c with parent_id := some pid })
    | none => m

/-- Python `int()` on a string: optional surrounding whitespace, optional
sign, digits with single interior underscores. -/
def pyInt (s : String) : Option Int :=
  let l := pyStrip s.toList
  let signed : Int × List Char :=
    match l with
    | '+' :: r => (1, r)
    | '-' :: r => (-1, r)
    | r => (1, r)
  let groups := splitChar '_' signed.2
  if groups.any (fun g => g.isEmpty || g.any (fun c => !isAsciiDigit c)) then none
  else
    some (signed.1 * Int.ofNat ((signed.2.filter (fun c => !(c == '_'))).foldl
      (fun acc c => acc * 10 + (c.toNat - '0'.toNat)) 0))

/-- The sort key of `build_clause_hierarchy.sort_key`: `(0, [int segments])`
for ids with a digit first character (`(0, [0])` on a `ValueError`), else
`(1, cid)`; numeric keys order before alphabetic ones. -/
inductive SKey where
  | num (l : List Int)
  | alpha (s : String)
deriving DecidableEq, Repr

def sort_key (c : Clause) : SKey :=
  match c.id.toList with
  | [] => SKey.alpha c.id
  | ch :: _ =>
    if isAsciiDigit ch then
      match (splitDots c.id.toList).mapM (fun g => pyInt g.asString) with
      | some ints => SKey.num ints
      | none => SKey.num [0]
    else SKey.alpha c.id

/-- Python list comparison on `List Int` (lexicographic, shorter prefix
first). -/
def intListLT : List Int → List Int → Bool
  | [], [] => false
  | [], _ :: _ => true
  | _ :: _, [] => false
  | a :: as2, b :: bs => if a < b then true else if a == b then intListLT as2 bs else false

/-- Python tuple comparison on sort keys. -/
def skLT : SKey → SKey → Bool
  | SKey.num a, SKey.num b => intListLT a b
  | SKey.num _, SKey.alpha _ => true
  | SKey.alpha _, SKey.num _ => false
  | SKey.alpha a, SKey.alpha b => decide (a < b)

/-- Stable insertion for the (stable) Python sort on root clauses. -/
def insertRoot (x : Clause) : List Clause → List Clause
  | [] => [x]
  | y :: ys => if skLT (sort_key y) (sort_key x) then y :: insertRoot x ys else x :: y :: ys

def sortRoots (l : List Clause) : List Clause := l.foldr insertRoot []

/-- `build_clause_hierarchy`: link all clauses, collect the ids appearing
as children, take the non-child clauses in dictionary order as roots, and
sort them numeric-first.  Returns the linked dictionary (the mutated
`clauses`) together with the root list. -/
def build_clause_hierarchy (m : CDict) : CDict × List Clause :=
  let m2 := (m.map (fun p => p.1)).foldl linkOne m
  let childIdSet := (m2.map (fun p => p.2.childIds)).flatten
  let roots := m2.filterMap (fun p => if childIdSet.contains p.1 then none else some p.2)
  (m2, sortRoots roots)

/-- Sanity check: numeric and annex links, root order. -/
example :
    ((build_clause_hierarchy
      [("1", { id := "1", title := "Scope" }),
       ("1.1", { id := "1.1", title := "General" }),
       ("A", { id := "A", title := "Annex A" }),
       ("A.2", { id := "A.2", title := "Tests" })]).2.map (fun c => c.id)) =
      ["1", "A"] := by decide

example :
    dictGet (build_clause_hierarchy
      [("1", { id := "1", title := "Scope" }),
       ("1.1", { id := "1.1", title := "General" }),
       ("A", { id := "A", title := "Annex A" }),
       ("A.2", { id := "A.2", title := "Tests" })]).1 "1.1" =
      some { id := "1.1", title := "General", parent_id := some "1" } := by decide

example :
    dictGet (build_clause_hierarchy
      [("1", { id := "1", title := "Scope" }),
       ("1.1", { id := "1.1", title := "General" }),
       ("A", { id := "A", title := "Annex A" }),
       ("A.2", { id := "A.2", title := "Tests" })]).1 "A" =
      some { id := "A", title := "Annex A", childIds := ["A.2"] } := by decide

/-! ### Structure of `structParent` -/

theorem splitChar_ne_nil (sep : Char) : ∀ l : List Char, splitChar sep l ≠ []
  | [] => by simp [splitChar]
  | c :: r => by
    unfold splitChar
    by_cases h : (c == sep) = true
    · rw [if_pos h]; simp
    · rw [if_neg h]
      cases hs : splitChar sep r with
      | nil => exact absurd hs (splitChar_ne_nil sep r)
      | cons g gs => simp

theorem joinDots_cons_of_ne {g : List Char} {gs : List (List Char)} (h : gs ≠ []) :
    joinDots (g :: gs) = g ++ '.' :: joinDots gs := by
  cases gs with
  | nil => exact absurd rfl h
  | cons g2 t => rfl

theorem joinDots_splitDots : ∀ l : List Char, joinDots (splitDots l) = l := by
  intro l
  induction l with
  | nil => rfl
  | cons c r ih =>
    unfold splitDots splitChar
    by_cases h : (c == '.') = true
    · rw [if_pos h]
      rw [joinDots_cons_of_ne (splitChar_ne_nil '.' r)]
      have hc : c = '.' := by simpa using h
      rw [show splitChar '.' r = splitDots r from rfl, ih, hc]
      rfl
    · rw [if_neg h]
      cases hs : splitChar '.' r with
      | nil => exact absurd hs (splitChar_ne_nil '.' r)
      | cons g gs =>
        rw [show splitChar '.' r = splitDots r from rfl] at hs
        rw [hs] at ih
        cases gs with
        | nil =>
          show joinDots [c :: g] = c :: r
          show c :: g = c :: r
          rw [show joinDots [g] = g from rfl] at ih
          rw [ih]
        | cons g2 t =>
          rw [joinDots_cons_of_ne (by simp)]
          rw [joinDots_cons_of_ne (by simp)] at ih
          show c :: (g ++ '.' :: joinDots (g2 :: t)) = c :: r
          rw [ih]

theorem splitDots_length_two_of_dot : ∀ {l : List Char}, '.' ∈ l →
    2 ≤ (splitDots l).length := by
  intro l
  induction l with
  | nil => intro h; simp at h
  | cons c r ih =>
    intro h
    unfold splitDots splitChar
    by_cases hc : (c == '.') = true
    · rw [if_pos hc]
      have := splitChar_ne_nil '.' r
      have hlen : 1 ≤ (splitChar '.' r).length := by
        cases hs : splitChar '.' r with
        | nil => exact absurd hs this
        | cons g gs => simp
      simp only [List.length_cons]
      omega
    · rw [if_neg hc]
      have hr : '.' ∈ r := by
        rcases List.mem_cons.mp h with heq | hr
        · exact absurd (heq ▸ beq_self_eq_true '.') hc
        · exact hr
      have := ih hr
      rw [show splitChar '.' r = splitDots r from rfl]
      cases hs : splitDots r with
      | nil => exact absurd hs (splitChar_ne_nil '.' r)
      | cons g gs =>
        rw [hs] at this
        simp only [List.length_cons] at this ⊢
        omega

theorem joinDots_append_getLast : ∀ {ps : List (List Char)} {g : List Char}, ps ≠ [] →
    joinDots (ps ++ [g]) = joinDots ps ++ '.' :: g := by
  intro ps
  induction ps with
  | nil => intro g h; exact absurd rfl h
  | cons p t ih =>
    intro g _
    cases t with
    | nil => rfl
    | cons p2 t2 =>
      rw [show (p :: p2 :: t2) ++ [g] = p :: ((p2 :: t2) ++ [g]) from rfl]
      rw [joinDots_cons_of_ne (by simp), joinDots_cons_of_ne (by simp), ih (by simp)]
      simp

/-- A computed structural parent is a strict dotted prefix of the id. -/
theorem structParent_prefix {cid pid : String}
    (h : structParent cid = some pid) :
    ∃ rest, cid.toList = pid.toList ++ '.' :: rest := by
  unfold structParent at h
  cases hl : cid.toList with
  | nil => rw [hl] at h; exact Option.noConfusion h
  | cons c r =>
    rw [hl] at h
    dsimp only at h
    by_cases hd : isAsciiDigit c = true
    · rw [if_pos hd] at h
      by_cases hlen : (splitDots (c :: r)).length > 1
      · rw [if_pos hlen] at h
        have hpid := (Option.some_inj.mp h).symm
        have hne : splitDots (c :: r) ≠ [] := splitChar_ne_nil '.' _
        have hdl : (splitDots (c :: r)).dropLast ≠ [] := by
          intro hc
          have := congrArg List.length hc
          rw [List.length_dropLast] at this
          simp at this
          omega
        have hjoin : joinDots (splitDots (c :: r)) = c :: r := joinDots_splitDots _
        rw [← List.dropLast_append_getLast hne] at hjoin
        rw [joinDots_append_getLast hdl] at hjoin
        refine ⟨(splitDots (c :: r)).getLast hne, ?_⟩
        rw [hpid]
        exact hjoin.symm
      · rw [if_neg hlen] at h
        exact Option.noConfusion h
    · rw [if_neg hd] at h
      by_cases hdot : (c :: r).contains '.' = true
      · rw [if_pos hdot] at h
        have hpid := (Option.some_inj.mp h).symm
        have hmem : '.' ∈ c :: r := by simpa using hdot
        have h2 := splitDots_length_two_of_dot hmem
        cases hs : splitDots (c :: r) with
        | nil => exact absurd hs (splitChar_ne_nil '.' _)
        | cons g gs =>
          cases gs with
          | nil => rw [hs] at h2; simp at h2
          | cons g2 t =>
            have hjoin : joinDots (splitDots (c :: r)) = c :: r := joinDots_splitDots _
            rw [hs, joinDots_cons_of_ne (by simp)] at hjoin
            refine ⟨joinDots (g2 :: t), ?_⟩
            rw [hpid, hs]
            exact hjoin.symm
      · rw [if_neg hdot] at h
        exact Option.noConfusion h

theorem structParent_shorter {cid pid : String}
    (h : structParent cid = some pid) :
    pid.toList.length < cid.toList.length := by
  obtain ⟨rest, hr⟩ := structParent_prefix h
  rw [hr]
  simp

theorem structParent_ne {cid pid : String}
    (h : structParent cid = some pid) : pid ≠ cid := by
  intro hc
  subst hc
  exact absurd (structParent_shorter h) (by omega)

/-! ### Dictionary lemmas for the linking fold -/

theorem contains_iff_mem {l : List String} {a : String} :
    l.contains a = true ↔ a ∈ l := by
  induction l with
  | nil => simp
  | cons b t ih =>
    simp only [List.contains_cons, Bool.or_eq_true, beq_iff_eq, ih, List.mem_cons]

theorem dictGet_isSome_iff {m : CDict} {k : String} :
    (dictGet m k).isSome = true ↔ k ∈ m.map (fun p => p.1) := by
  induction m with
  | nil => simp [dictGet]
  | cons p rest ih =>
    obtain ⟨a, c⟩ := p
    by_cases h : (a == k) = true
    · have ha : a = k := by simpa using h
      subst ha
      rw [dictGet, if_pos h]
      simp
    · rw [dictGet, if_neg h]
      simp only [List.map_cons, List.mem_cons]
      rw [ih]
      constructor
      · exact Or.inr
      · rintro (rfl | hk)
        · simp at h
        · exact hk

theorem dictGet_mem {m : CDict} {k : String} {c : Clause}
    (h : dictGet m k = some c) : (k, c) ∈ m := by
  induction m with
  | nil => simp [dictGet] at h
  | cons p rest ih =>
    obtain ⟨a, c0⟩ := p
    by_cases ha : (a == k) = true
    · rw [dictGet, if_pos ha] at h
      have h2 := Option.some_inj.mp h
      have ha2 : a = k := by simpa using ha
      subst ha2 h2
      exact List.mem_cons_self _ _
    · rw [dictGet, if_neg ha] at h
      exact List.mem_cons_of_mem _ (ih h)

theorem dictGet_of_mem_nodup {m : CDict} {k : String} {c : Clause}
    (hnd : (m.map (fun p => p.1)).Nodup) (h : (k, c) ∈ m) :
    dictGet m k = some c := by
  induction m with
  | nil => simp at h
  | cons p rest ih =>
    obtain ⟨a, c0⟩ := p
    rcases List.mem_cons.mp h with heq | hmem
    · cases heq
      rw [dictGet, if_pos (by simp)]
    · have hne : a ≠ k := by
        intro hak
        subst hak
        have : a ∈ rest.map (fun p => p.1) :=
          List.mem_map.mpr ⟨(a, c), hmem, rfl⟩
        exact (List.nodup_cons.mp (by simpa using hnd)).1 this
      rw [dictGet, if_neg (by simpa using hne)]
      exact ih (List.nodup_cons.mp (by simpa using hnd)).2 hmem

/-- Apply a key-indexed function to every value of a dictionary, keys and
order unchanged. -/
def mapEntries (f : String → Clause → Clause) (m : CDict) : CDict :=
  m.map (fun p => (p.1, f p.1 p.2))

theorem mapEntries_keys {f : String → Clause → Clause} : ∀ {m : CDict},
    (mapEntries f m).map (fun p => p.1) = m.map (fun p => p.1) := by
  intro m
  induction m with
  | nil => rfl
  | cons p rest ih =>
    obtain ⟨a, c⟩ := p
    show a :: (mapEntries f rest).map (fun p => p.1) = a :: rest.map (fun p => p.1)
    rw [ih]

theorem mapEntries_id : ∀ {m : CDict}, mapEntries (fun _ c => c) m = m := by
  intro m
  induction m with
  | nil => rfl
  | cons p rest ih =>
    obtain ⟨a, c⟩ := p
    show (a, c) :: mapEntries (fun _ c => c) rest = (a, c) :: rest
    rw [ih]

theorem mapEntries_congr {f g : String → Clause → Clause} : ∀ {m : CDict},
    (∀ p ∈ m, f p.1 p.2 = g p.1 p.2) → mapEntries f m = mapEntries g m := by
  intro m
  induction m with
  | nil => intro _; rfl
  | cons p rest ih =>
    intro h
    obtain ⟨a, c⟩ := p
    show (a, f a c) :: mapEntries f rest = (a, g a c) :: mapEntries g rest
    rw [h (a, c) (List.mem_cons_self _ _),
      ih (fun q hq => h q (List.mem_cons_of_mem _ hq))]

theorem dictGet_mapEntries {f : String → Clause → Clause} : ∀ {m : CDict} {k : String},
    dictGet (mapEntries f m) k = (dictGet m k).map (f k) := by
  intro m
  induction m with
  | nil => intro k; rfl
  | cons p rest ih =>
    intro k
    obtain ⟨a, c⟩ := p
    show dictGet ((a, f a c) :: mapEntries f rest) k = _
    by_cases h : (a == k) = true
    · rw [dictGet, if_pos h, dictGet, if_pos h]
      have ha : a = k := by simpa using h
      subst ha
      rfl
    · rw [dictGet, if_neg h, dictGet, if_neg h]
      exact ih

theorem dictUpdate_mapEntries {f : String → Clause → Clause} {g : Clause → Clause}
    {k : String} : ∀ {m : CDict},
    dictUpdate (mapEntries f m) k g =
      mapEntries (fun a c => if a = k then g (f a c) else f a c) m := by
  intro m
  induction m with
  | nil => rfl
  | cons p rest ih =>
    obtain ⟨a, c⟩ := p
    show dictUpdate ((a, f a c) :: mapEntries f rest) k g = _
    rw [dictUpdate]
    by_cases h : (a == k) = true
    · have ha : a = k := by simpa using h
      rw [if_pos h]
      show (a, g (f a c)) :: dictUpdate (mapEntries f rest) k g =
        (a, if a = k then g (f a c) else f a c) ::
          mapEntries (fun a c => if a = k then g (f a c) else f a c) rest
      rw [if_pos ha, ih]
    · have ha : ¬ a = k := by simpa using h
      rw [if_neg h]
      show (a, f a c) :: dictUpdate (mapEntries f rest) k g =
        (a, if a = k then g (f a c) else f a c) ::
          mapEntries (fun a c => if a = k then g (f a c) else f a c) rest
      rw [if_neg ha, ih]

/-- The structural parent filtered by key membership: the parent id that
the linking loop actually links (`if parent_id in clauses`). -/
def parentIn (keys : List String) (cid : String) : Option String :=
  match structParent cid with
  | some p => if keys.contains p then some p else none
  | none => none

theorem parentIn_some {keys : List String} {cid p : String}
    (h : parentIn keys cid = some p) :
    structParent cid = some p ∧ p ∈ keys := by
  unfold parentIn at h
  cases hs : structParent cid with
  | none => rw [hs] at h; exact Option.noConfusion h
  | some q =>
    rw [hs] at h
    dsimp only at h
    by_cases hc : keys.contains q = true
    · rw [if_pos hc] at h
      obtain rfl := Option.some_inj.mp h
      exact ⟨rfl, contains_iff_mem.mp hc⟩
    · rw [if_neg hc] at h
      exact Option.noConfusion h

theorem parentIn_of_mem {keys : List String} {cid p : String}
    (hs : structParent cid = some p) (hm : p ∈ keys) :
    parentIn keys cid = some p := by
  unfold parentIn
  rw [hs]
  dsimp only
  rw [if_pos (contains_iff_mem.mpr hm)]

theorem parentIn_none {keys : List String} {cid : String}
    (h : parentIn keys cid = none) {p : String}
    (hs : structParent cid = some p) : p ∉ keys := by
  intro hm
  rw [parentIn_of_mem hs hm] at h
  exact Option.noConfusion h

theorem parentIn_shorter {keys : List String} {cid p : String}
    (h : parentIn keys cid = some p) : p.toList.length < cid.toList.length :=
  structParent_shorter (parentIn_some h).1

theorem parentIn_ne {keys : List String} {cid p : String}
    (h : parentIn keys cid = some p) : p ≠ cid :=
  structParent_ne (parentIn_some h).1

/-- Value stored at key `k` once the linking loop has processed the key
prefix `P` of a fresh dictionary whose full key list is `keys`. -/
def linkFn (keys P : List String) (k : String) (c : Clause) : Clause :=
  { c with
    parent_id := if k ∈ P then parentIn keys k else none
    childIds := P.filter (fun j => parentIn keys j == some k) }

theorem clause_update_eta {c : Clause} (h1 : c.parent_id = none)
    (h2 : c.childIds = []) :
    ({ c with parent_id := none, childIds := [] } : Clause) = c := by
  cases c
  simp_all

/-! ### The linking fold computes `linkFn` -/

theorem linkFn_parent {keys P : List String} {k : String} {c : Clause} :
    (linkFn keys P k c).parent_id =
      if k ∈ P then parentIn keys k else none := rfl

theorem linkFn_childIds {keys P : List String} {k : String} {c : Clause} :
    (linkFn keys P k c).childIds =
      P.filter (fun j => parentIn keys j == some k) := rfl

theorem clause_ext {c : Clause} {x1 x2 : Option String} {y1 y2 : List String}
    (hx : x1 = x2) (hy : y1 = y2) :
    ({ c with parent_id := x1, childIds := y1 } : Clause) =
      { c with parent_id := x2, childIds := y2 } := by
  rw [hx, hy]

/-- Characterization of the linking loop: after processing the key prefix
`P` of a fresh dictionary, every entry holds the `linkFn` value. -/
theorem linkFold_char {m0 : CDict}
    (hnd : (m0.map (fun p => p.1)).Nodup)
    (hfresh : ∀ p ∈ m0, p.2.parent_id = none ∧ p.2.childIds = []) :
    ∀ P Q, m0.map (fun p => p.1) = P ++ Q →
      P.foldl linkOne m0 = mapEntries (linkFn (m0.map (fun p => p.1)) P) m0 := by
  intro P
  induction P using List.reverseRecOn with
  | nil =>
    intro Q hPQ
    show m0 = _
    have h1 : mapEntries (linkFn (m0.map (fun p => p.1)) []) m0 =
        mapEntries (fun _ c => c) m0 := by
      refine mapEntries_congr fun p hp => ?_
      have he : linkFn (m0.map (fun p => p.1)) [] p.1 p.2 =
          { p.2 with parent_id := none, childIds := [] } := rfl
      rw [he, clause_update_eta (hfresh p hp).1 (hfresh p hp).2]
    rw [h1, mapEntries_id]
  | append_singleton P cid ih =>
    intro Q hPQ
    have hQ2 : m0.map (fun p => p.1) = P ++ (cid :: Q) := by
      rw [hPQ, List.append_assoc]
      rfl
    have hfold := ih (cid :: Q) hQ2
    rw [List.foldl_append]
    show linkOne (P.foldl linkOne m0) cid = _
    rw [hfold]
    have hcidP : cid ∉ P := by
      have hnd2 : ((P ++ [cid]) ++ Q).Nodup := hPQ ▸ hnd
      have hnd3 : (P ++ [cid]).Nodup := (List.nodup_append.mp hnd2).1
      intro hmem
      exact (List.nodup_append.mp hnd3).2.2 hmem (List.mem_singleton.mpr rfl)
    cases hpc : parentIn (m0.map (fun p => p.1)) cid with
    | none =>
      have hM : linkOne (mapEntries (linkFn (m0.map (fun p => p.1)) P) m0) cid =
          mapEntries (linkFn (m0.map (fun p => p.1)) P) m0 := by
        unfold linkOne
        cases hs : structParent cid with
        | none => rfl
        | some p =>
          have hpk : p ∉ m0.map (fun q => q.1) := parentIn_none hpc hs
          dsimp only
          cases hg : dictGet (mapEntries (linkFn (m0.map (fun p => p.1)) P) m0) p with
          | none => rfl
          | some c =>
            exfalso
            apply hpk
            have hsome : (dictGet (mapEntries (linkFn (m0.map (fun p => p.1)) P) m0)
                p).isSome = true := by rw [hg]; rfl
            have h2 := dictGet_isSome_iff.mp hsome
            rwa [mapEntries_keys] at h2
      rw [hM]
      refine mapEntries_congr fun p hp => ?_
      have hp0 : (parentIn (m0.map (fun p => p.1)) cid == some p.1) = false := by
        rw [hpc]
        rfl
      have hf : List.filter
          (fun j => parentIn (m0.map (fun p => p.1)) j == some p.1) [cid] = [] := by
        simp [List.filter_cons, hp0]
      by_cases hac : p.1 = cid
      · refine clause_ext ?_ ?_
        · rw [hac, hpc]
          by_cases h1 : cid ∈ P
          · rw [if_pos h1, if_pos (by simp)]
          · rw [if_neg h1, if_pos (by simp)]
        · rw [List.filter_append, hf, List.append_nil]
      · refine clause_ext ?_ ?_
        · by_cases h1 : p.1 ∈ P
          · rw [if_pos h1, if_pos (by simp [h1])]
          · rw [if_neg h1, if_neg (by simp [h1, hac])]
        · rw [List.filter_append, hf, List.append_nil]
    | some pid =>
      have hps := parentIn_some hpc
      have hpidne : pid ≠ cid := parentIn_ne hpc
      obtain ⟨c0, hc0⟩ : ∃ c, dictGet m0 pid = some c :=
        Option.isSome_iff_exists.mp (dictGet_isSome_iff.mpr hps.2)
      have hgM : dictGet (mapEntries (linkFn (m0.map (fun p => p.1)) P) m0) pid =
          some (linkFn (m0.map (fun p => p.1)) P pid c0) := by
        rw [dictGet_mapEntries, hc0]
        rfl
      unfold linkOne
      rw [hps.1]
      dsimp only
      rw [hgM]
      dsimp only
      have hguard : cid ∉ (linkFn (m0.map (fun p => p.1)) P pid c0).childIds := by
        rw [linkFn_childIds]
        intro hmem
        exact hcidP (List.mem_filter.mp hmem).1
      rw [if_neg hguard, dictUpdate_mapEntries, dictUpdate_mapEntries]
      refine mapEntries_congr fun p hp => ?_
      dsimp only
      by_cases hac : p.1 = cid
      · rw [if_pos hac, if_neg (by rw [hac]; exact fun h => hpidne h.symm)]
        refine clause_ext ?_ ?_
        · rw [hac, if_pos (by simp), hpc]
        · rw [linkFn_childIds, hac, List.filter_append]
          have hp0 : (parentIn (m0.map (fun p => p.1)) cid == some cid) = false := by
            rw [hpc]
            exact beq_eq_false_iff_ne.mpr (fun h => hpidne (Option.some_inj.mp h))
          have hf : List.filter
              (fun j => parentIn (m0.map (fun p => p.1)) j == some cid) [cid] = [] := by
            simp [List.filter_cons, hp0]
          rw [hf, List.append_nil]
      · rw [if_neg hac]
        by_cases hap : p.1 = pid
        · rw [if_pos hap]
          refine clause_ext ?_ ?_
          · rw [linkFn_parent]
            by_cases h1 : p.1 ∈ P
            · rw [if_pos h1, if_pos (by simp [h1])]
            · rw [if_neg h1, if_neg (by simp [h1, hac])]
          · rw [linkFn_childIds, List.filter_append]
            have hp1 : (parentIn (m0.map (fun p => p.1)) cid == some p.1) = true := by
              rw [hpc, hap]
              simp
            have hf : List.filter
                (fun j => parentIn (m0.map (fun p => p.1)) j == some p.1) [cid] =
                [cid] := by
              simp [List.filter_cons, hp1]
            rw [hf]
        · rw [if_neg hap]
          refine clause_ext ?_ ?_
          · by_cases h1 : p.1 ∈ P
            · rw [if_pos h1, if_pos (by simp [h1])]
            · rw [if_neg h1, if_neg (by simp [h1, hac])]
          · rw [List.filter_append]
            have hp0 : (parentIn (m0.map (fun p => p.1)) cid == some p.1) = false := by
              rw [hpc]
              exact beq_eq_false_iff_ne.mpr
                (fun h => hap (Option.some_inj.mp h).symm)
            have hf : List.filter
                (fun j => parentIn (m0.map (fun p => p.1)) j == some p.1) [cid] = [] := by
              simp [List.filter_cons, hp0]
            rw [hf, List.append_nil]

/-- The linked dictionary returned by `build_clause_hierarchy`. -/
theorem build_fst_char {m0 : CDict}
    (hnd : (m0.map (fun p => p.1)).Nodup)
    (hfresh : ∀ p ∈ m0, p.2.parent_id = none ∧ p.2.childIds = []) :
    (build_clause_hierarchy m0).1 =
      mapEntries (linkFn (m0.map (fun p => p.1)) (m0.map (fun p => p.1))) m0 := by
  show (m0.map (fun p => p.1)).foldl linkOne m0 = _
  exact linkFold_char hnd hfresh (m0.map (fun p => p.1)) []
    (List.append_nil _).symm

theorem build_keys {m0 : CDict}
    (hnd : (m0.map (fun p => p.1)).Nodup)
    (hfresh : ∀ p ∈ m0, p.2.parent_id = none ∧ p.2.childIds = []) :
    ((build_clause_hierarchy m0).1).map (fun p => p.1) = m0.map (fun p => p.1) := by
  rw [build_fst_char hnd hfresh, mapEntries_keys]

theorem build_get_char {m0 : CDict}
    (hnd : (m0.map (fun p => p.1)).Nodup)
    (hfresh : ∀ p ∈ m0, p.2.parent_id = none ∧ p.2.childIds = []) (k : String) :
    dictGet (build_clause_hierarchy m0).1 k =
      (dictGet m0 k).map
        (linkFn (m0.map (fun p => p.1)) (m0.map (fun p => p.1)) k) := by
  rw [build_fst_char hnd hfresh, dictGet_mapEntries]

/-- A sample clause dictionary as produced by block processing: unique
keys, key = clause id, no links yet. -/
def sampleHier : CDict :=
  [("1", { id := "1", title := "Scope" }),
   ("1.1", { id := "1.1", title := "General" }),
   ("1.1.2", { id := "1.1.2", title := "Details" }),
   ("A", { id := "A", title := "Annex A" }),
   ("A.2", { id := "A.2", title := "Tests" })]

/-- Claim C3: after `build_clause_hierarchy` runs on a clause map with
unique keys, key-matching ids and no pre-existing links, every clause
whose `parent_id` is set has it equal to the structural-prefix parent of
its id (the id is the parent id followed by a dot and a non-empty rest),
the parent id is strictly shorter, and the parent id is a key of the
resulting map; consequently the parent relation is acyclic — no
identifier is its own strict ancestor. -/
theorem hierarchy_parent_spec (m0 : CDict)
    (hnd : (m0.map (fun p => p.1)).Nodup)
    (hids : ∀ p ∈ m0, p.2.id = p.1)
    (hfresh : ∀ p ∈ m0, p.2.parent_id = none ∧ p.2.childIds = []) :
    (∀ k c pid, dictGet (build_clause_hierarchy m0).1 k = some c →
      c.parent_id = some pid →
      structParent c.id = some pid ∧
      (∃ rest, c.id.toList = pid.toList ++ '.' :: rest) ∧
      pid.toList.length < c.id.toList.length ∧
      dictContains (build_clause_hierarchy m0).1 pid = true) ∧
    (∀ a, ¬ Relation.TransGen
      (fun x y => ∃ c, dictGet (build_clause_hierarchy m0).1 x = some c ∧
        c.parent_id = some y) a a) := by
  have hextract : ∀ k c pid, dictGet (build_clause_hierarchy m0).1 k = some c →
      c.parent_id = some pid →
      c.id = k ∧ parentIn (m0.map (fun p => p.1)) k = some pid := by
    intro k c pid hget hpar
    rw [build_get_char hnd hfresh] at hget
    obtain ⟨c0, hc0, rfl⟩ := Option.map_eq_some'.mp hget
    have hk : k ∈ m0.map (fun p => p.1) :=
      dictGet_isSome_iff.mp (by rw [hc0]; rfl)
    have hcid : (linkFn (m0.map (fun p => p.1)) (m0.map (fun p => p.1)) k c0).id
        = k := by
      have h1 : (linkFn (m0.map (fun p => p.1)) (m0.map (fun p => p.1)) k c0).id
          = c0.id := rfl
      rw [h1, hids (k, c0) (dictGet_mem hc0)]
    refine ⟨hcid, ?_⟩
    rw [linkFn_parent, if_pos hk] at hpar
    exact hpar
  constructor
  · intro k c pid hget hpar
    obtain ⟨hcid, hpin⟩ := hextract k c pid hget hpar
    obtain ⟨hsp, hpk⟩ := parentIn_some hpin
    rw [hcid]
    refine ⟨hsp, structParent_prefix hsp, structParent_shorter hsp, ?_⟩
    unfold dictContains
    rw [dictGet_isSome_iff, build_keys hnd hfresh]
    exact hpk
  · have hstep : ∀ x y,
        (∃ c, dictGet (build_clause_hierarchy m0).1 x = some c ∧
          c.parent_id = some y) → y.toList.length < x.toList.length := by
      rintro x y ⟨c, hget, hpar⟩
      obtain ⟨hcid, hpin⟩ := hextract x c y hget hpar
      exact parentIn_shorter hpin
    have hlt : ∀ a b, Relation.TransGen
        (fun x y => ∃ c, dictGet (build_clause_hierarchy m0).1 x = some c ∧
          c.parent_id = some y) a b → b.toList.length < a.toList.length := by
      intro a b h
      induction h with
      | single h1 => exact hstep _ _ h1
      | tail h1 h2 ih => exact Nat.lt_trans (hstep _ _ h2) ih
    intro a h
    exact absurd (hlt a a h) (Nat.lt_irrefl _)

/-- Witness for C3 at a concrete five-clause dictionary. -/
theorem hierarchy_parent_spec_witness :
    ((sampleHier.map (fun p => p.1)).Nodup ∧
      (∀ p ∈ sampleHier, p.2.id = p.1) ∧
      (∀ p ∈ sampleHier, p.2.parent_id = none ∧ p.2.childIds = [])) ∧
    ((∀ k c pid, dictGet (build_clause_hierarchy sampleHier).1 k = some c →
      c.parent_id = some pid →
      structParent c.id = some pid ∧
      (∃ rest, c.id.toList = pid.toList ++ '.' :: rest) ∧
      pid.toList.length < c.id.toList.length ∧
      dictContains (build_clause_hierarchy sampleHier).1 pid = true) ∧
    (∀ a, ¬ Relation.TransGen
      (fun x y => ∃ c, dictGet (build_clause_hierarchy sampleHier).1 x = some c ∧
        c.parent_id = some y) a a)) :=
  ⟨⟨by decide, by decide, by decide⟩,
    hierarchy_parent_spec sampleHier (by decide) (by decide) (by decide)⟩

/-! ### Ancestor chains of a length-decreasing parent function -/

/-- The `d`-th ancestor of `j` under the parent function `pa`. -/
def ancAt (pa : String → Option String) : Nat → String → Option String
  | 0, j => some j
  | d+1, j =>
    match pa j with
    | some p => ancAt pa d p
    | none => none

/-- `k` is an ancestor of `j` (or `j` itself) within `f` parent steps. -/
def ancWithin (pa : String → Option String) : Nat → String → String → Bool
  | 0, j, k => j == k
  | f+1, j, k =>
    j == k ||
      (match pa j with
       | some p => ancWithin pa f p k
       | none => false)

theorem ancAt_add (pa : String → Option String) :
    ∀ (d e : Nat) (j : String),
      ancAt pa (d + e) j = (ancAt pa d j).bind (fun a => ancAt pa e a) := by
  intro d
  induction d with
  | zero =>
    intro e j
    rw [Nat.zero_add]
    rfl
  | succ d ih =>
    intro e j
    rw [show d + 1 + e = (d + e) + 1 from by omega]
    show (match pa j with
      | some p => ancAt pa (d + e) p
      | none => none) = ((match pa j with
      | some p => ancAt pa d p
      | none => none).bind fun a => ancAt pa e a)
    cases hp : pa j with
    | none => rfl
    | some p => exact ih e p

theorem ancAt_one (pa : String → Option String) (j : String) :
    ancAt pa 1 j = pa j := by
  show (match pa j with
    | some p => ancAt pa 0 p
    | none => none) = pa j
  cases hp : pa j <;> rfl

/-- Linking one more parent step at the far end of the chain. -/
theorem ancAt_succ_tail (pa : String → Option String) (d : Nat) (j k : String) :
    ancAt pa (d + 1) j = some k ↔
      ∃ a, ancAt pa d j = some a ∧ pa a = some k := by
  rw [ancAt_add pa d 1 j]
  cases ha : ancAt pa d j with
  | none => simp
  | some a => simp [ancAt_one]

theorem ancAt_shorter {pa : String → Option String}
    (hshort : ∀ j p, pa j = some p → p.toList.length < j.toList.length) :
    ∀ (e : Nat) (a b : String), ancAt pa (e + 1) a = some b →
      b.toList.length < a.toList.length := by
  intro e
  induction e with
  | zero =>
    intro a b h
    rw [ancAt_one] at h
    exact hshort a b h
  | succ e ih =>
    intro a b h
    have h2 : (match pa a with
        | some p => ancAt pa (e + 1) p
        | none => none) = some b := h
    cases hp : pa a with
    | none => rw [hp] at h2; exact Option.noConfusion h2
    | some p =>
      rw [hp] at h2
      exact Nat.lt_trans (ih p b h2) (hshort a p hp)

/-- Uniqueness of the child of `k` lying on the ancestor chain of `j`. -/
theorem anc_child_unique {pa : String → Option String}
    (hshort : ∀ j p, pa j = some p → p.toList.length < j.toList.length)
    {j k k1 k2 : String} {d1 d2 : Nat}
    (h1 : ancAt pa d1 j = some k1) (hp1 : pa k1 = some k)
    (h2 : ancAt pa d2 j = some k2) (hp2 : pa k2 = some k) :
    k1 = k2 := by
  rcases Nat.lt_trichotomy d1 d2 with hlt | heq | hgt
  · exfalso
    obtain ⟨e, rfl⟩ : ∃ e, d2 = d1 + (e + 1) :=
      ⟨d2 - d1 - 1, by omega⟩
    rw [ancAt_add, h1] at h2
    have h3 : ancAt pa (e + 1) k1 = some k2 := h2
    have h4 : (match pa k1 with
        | some p => ancAt pa e p
        | none => none) = some k2 := h3
    rw [hp1] at h4
    cases e with
    | zero =>
      obtain rfl : k = k2 := Option.some_inj.mp h4
      exact absurd (hshort _ _ hp2) (by omega)
    | succ e2 =>
      have h5 : k2.toList.length < k.toList.length :=
        ancAt_shorter hshort e2 k k2 h4
      have h6 : k.toList.length < k2.toList.length := hshort k2 k hp2
      omega
  · rw [heq, h2] at h1
    exact (Option.some_inj.mp h1).symm
  · exfalso
    obtain ⟨e, rfl⟩ : ∃ e, d1 = d2 + (e + 1) :=
      ⟨d1 - d2 - 1, by omega⟩
    rw [ancAt_add, h2] at h1
    have h3 : ancAt pa (e + 1) k2 = some k1 := h1
    have h4 : (match pa k2 with
        | some p => ancAt pa e p
        | none => none) = some k1 := h3
    rw [hp2] at h4
    cases e with
    | zero =>
      obtain rfl : k = k1 := Option.some_inj.mp h4
      exact absurd (hshort _ _ hp1) (by omega)
    | succ e2 =>
      have h5 : k1.toList.length < k.toList.length :=
        ancAt_shorter hshort e2 k k1 h4
      have h6 : k.toList.length < k1.toList.length := hshort k1 k hp1
      omega

theorem ancWithin_iff (pa : String → Option String) :
    ∀ (f : Nat) (j k : String),
      ancWithin pa f j k = true ↔ ∃ d ≤ f, ancAt pa d j = some k := by
  intro f
  induction f with
  | zero =>
    intro j k
    show (j == k) = true ↔ _
    constructor
    · intro h
      have hjk : j = k := by simpa using h
      subst hjk
      exact ⟨0, Nat.le_refl 0, rfl⟩
    · rintro ⟨d, hd, hanc⟩
      obtain rfl : d = 0 := Nat.le_zero.mp hd
      have hjk : j = k := Option.some_inj.mp hanc
      simpa using hjk
  | succ f ih =>
    intro j k
    show (j == k ||
      (match pa j with
       | some p => ancWithin pa f p k
       | none => false)) = true ↔ _
    rw [Bool.or_eq_true, beq_iff_eq]
    constructor
    · rintro (rfl | hm)
      · exact ⟨0, Nat.zero_le _, rfl⟩
      · cases hp : pa j with
        | none => rw [hp] at hm; exact absurd hm (by simp)
        | some p =>
          rw [hp] at hm
          obtain ⟨d, hd, hanc⟩ := (ih p k).mp hm
          refine ⟨d + 1, by omega, ?_⟩
          show (match pa j with
            | some q => ancAt pa d q
            | none => none) = some k
          rw [hp]
          exact hanc
    · rintro ⟨d, hd, hanc⟩
      cases d with
      | zero => exact Or.inl (Option.some_inj.mp hanc)
      | succ d =>
        right
        have h2 : (match pa j with
            | some q => ancAt pa d q
            | none => none) = some k := hanc
        cases hp : pa j with
        | none => rw [hp] at h2; exact Option.noConfusion h2
        | some p =>
          rw [hp] at h2
          exact (ih p k).mpr ⟨d, by omega, h2⟩

theorem ancAt_len {pa : String → Option String}
    (hshort : ∀ j p, pa j = some p → p.toList.length < j.toList.length) :
    ∀ (d : Nat) (j r : String), ancAt pa d j = some r →
      r.toList.length + d ≤ j.toList.length := by
  intro d
  induction d with
  | zero =>
    intro j r h
    obtain rfl : j = r := Option.some_inj.mp h
    omega
  | succ d ih =>
    intro j r h
    have h2 : (match pa j with
        | some p => ancAt pa d p
        | none => none) = some r := h
    cases hp : pa j with
    | none => rw [hp] at h2; exact Option.noConfusion h2
    | some p =>
      rw [hp] at h2
      have h3 := ih p r h2
      have h4 := hshort j p hp
      omega

/-- Every chain reaches an element with no parent. -/
theorem anc_terminates {pa : String → Option String}
    (hshort : ∀ j p, pa j = some p → p.toList.length < j.toList.length)
    (j : String) : ∃ d r, ancAt pa d j = some r ∧ pa r = none := by
  have H : ∀ (n : Nat) (j : String), j.toList.length ≤ n →
      ∃ d r, ancAt pa d j = some r ∧ pa r = none := by
    intro n
    induction n with
    | zero =>
      intro j hj
      cases hp : pa j with
      | none => exact ⟨0, j, rfl, hp⟩
      | some p =>
        exact absurd (hshort j p hp) (by omega)
    | succ n ih =>
      intro j hj
      cases hp : pa j with
      | none => exact ⟨0, j, rfl, hp⟩
      | some p =>
        obtain ⟨d, r, hd, hr⟩ := ih p (by have := hshort j p hp; omega)
        refine ⟨d + 1, r, ?_, hr⟩
        show (match pa j with
          | some q => ancAt pa d q
          | none => none) = some r
        rw [hp]
        exact hd
  exact H j.toList.length j (Nat.le_refl _)

/-! ### Chunk serialization and `flatten_clauses` -/

/-- `Clause._table_to_dict`: number and caption, plus `html` when truthy. -/
structure TableDict where
  number : Option String
  caption : Option String
  html : Option String
deriving DecidableEq, Repr

def table_to_dict (t : TableEntry) : TableDict :=
  { number := t.number, caption := t.caption,
    html := if t.html = "" then none else some t.html }

/-- `Clause._figure_to_dict`: all figure fields except `original_key`. -/
structure FigDict where
  number : FigNumber
  path : String
  format : String
  caption : String
  size_bytes : Nat
deriving DecidableEq, Repr

def figure_to_dict (f : FigureEntry) : FigDict :=
  { number := f.number, path := f.path, format := f.format,
    caption := f.caption, size_bytes := f.size_bytes }

/-- One entry of a chunk's `figures` list: a serialized clause figure, or
a misc-image metadata record (the two dict shapes differ in the source
too). -/
inductive FigLike where
  | fig (f : FigDict)
  | misc (mi : MiscImage)
deriving DecidableEq, Repr

/-- The chunk dictionary produced by `Clause.to_dict` (and, for the misc
node, by `convert_file`). -/
structure ChunkRec where
  id : String
  document_id : String
  title : String
  parent_id : Option String
  content : List ContentItem
  tables : List TableDict
  figures : List FigLike
  requirements : List Requirement
  refs_internal : List String
  refs_external : List String
  children_ids : List String
deriving DecidableEq, Repr

/-- `Clause.to_dict`. -/
def to_dict (doc_id : String) (c : Clause) : ChunkRec :=
  { id := c.id, document_id := doc_id, title := c.title,
    parent_id := c.parent_id, content := c.content,
    tables := c.tables.map table_to_dict,
    figures := c.figures.map (fun f => FigLike.fig (figure_to_dict f)),
    requirements := c.requirements,
    refs_internal := c.refs_internal, refs_external := c.refs_external,
    children_ids := c.childIds }

/-- `flatten_clauses.process_clause`: emit the chunk, then recurse into
the children (stored as ids, looked up in the linked dictionary).  The
fuel bounds the recursion depth; it is chosen larger than any ancestor
chain can be, so it never runs out on the linked dictionaries the
pipeline builds. -/
def flattenOne (m2 : CDict) (doc_id : String) : Nat → Clause → List ChunkRec
  | 0, c => [to_dict doc_id c]
  | fuel+1, c =>
    to_dict doc_id c ::
      c.childIds.flatMap (fun k =>
        match dictGet m2 k with
        | some ch => flattenOne m2 doc_id fuel ch
        | none => [])

def flattenFuel (m2 : CDict) : Nat :=
  (m2.map (fun p => p.1.toList.length)).sum + 1

/-- `flatten_clauses`. -/
def flatten_clauses (roots : List Clause) (doc_id : String) (m2 : CDict) :
    List ChunkRec :=
  roots.flatMap (flattenOne m2 doc_id (flattenFuel m2))

/-- The ids of the chunks `process_clause` emits. -/
def flattenIdsOne (m2 : CDict) : Nat → Clause → List String
  | 0, c => [c.id]
  | fuel+1, c =>
    c.id :: c.childIds.flatMap (fun k =>
      match dictGet m2 k with
      | some ch => flattenIdsOne m2 fuel ch
      | none => [])

/-- The set of ids appearing as some clause's child
(`build_clause_hierarchy`'s `child_ids`). -/
def childIdsOf (m : CDict) : List String :=
  (m.map (fun p => p.2.childIds)).flatten

/-- The root list before sorting (`roots`). -/
def rootsOf (m : CDict) : List Clause :=
  m.filterMap (fun p => if (childIdsOf m).contains p.1 then none else some p.2)

theorem map_flatMap {α β γ : Type} (g : β → γ) (f : α → List β) :
    ∀ l : List α, (l.flatMap f).map g = l.flatMap (fun x => (f x).map g) := by
  intro l
  induction l with
  | nil => rfl
  | cons a t ih => simp only [List.flatMap_cons, List.map_append, ih]

theorem flatMap_congr {α β : Type} {f g : α → List β} :
    ∀ {l : List α}, (∀ x ∈ l, f x = g x) → l.flatMap f = l.flatMap g := by
  intro l
  induction l with
  | nil => intro _; rfl
  | cons a t ih =>
    intro h
    simp only [List.flatMap_cons]
    rw [h a (List.mem_cons_self _ _), ih (fun x hx => h x (List.mem_cons_of_mem _ hx))]

theorem count_flatMap {α : Type} (j : String) (f : α → List String) :
    ∀ l : List α, (l.flatMap f).count j = (l.map (fun x => (f x).count j)).sum := by
  intro l
  induction l with
  | nil => rfl
  | cons a t ih =>
    simp only [List.flatMap_cons, List.count_append, List.map_cons, List.sum_cons, ih]

theorem sum_map_zero {α : Type} (g : α → Nat) :
    ∀ l : List α, (∀ x ∈ l, g x = 0) → (l.map g).sum = 0 := by
  intro l
  induction l with
  | nil => intro _; rfl
  | cons a t ih =>
    intro h
    simp only [List.map_cons, List.sum_cons]
    rw [h a (List.mem_cons_self _ _), ih (fun x hx => h x (List.mem_cons_of_mem _ hx))]

theorem sum_map_single {α : Type} [DecidableEq α] (g : α → Nat) :
    ∀ (l : List α), l.Nodup → ∀ x0 ∈ l,
      (∀ x ∈ l, g x = if x = x0 then 1 else 0) → (l.map g).sum = 1 := by
  intro l
  induction l with
  | nil => intro _ x0 h; simp at h
  | cons a t ih =>
    intro hnd x0 hx0 h
    simp only [List.map_cons, List.sum_cons]
    rcases List.mem_cons.mp hx0 with rfl | hmem
    · rw [h x0 (List.mem_cons_self _ _), if_pos rfl]
      have hz : (t.map g).sum = 0 := by
        refine sum_map_zero g t fun x hx => ?_
        rw [h x (List.mem_cons_of_mem _ hx)]
        have hne : x ≠ x0 := by
          intro hxe
          subst hxe
          exact (List.nodup_cons.mp hnd).1 hx
        rw [if_neg hne]
      omega
    · have hne : a ≠ x0 := by
        intro hae
        subst hae
        exact (List.nodup_cons.mp hnd).1 hmem
      rw [h a (List.mem_cons_self _ _), if_neg hne,
        ih (List.nodup_cons.mp hnd).2 x0 hmem
          (fun x hx => h x (List.mem_cons_of_mem _ hx))]

theorem insertRoot_perm (x : Clause) :
    ∀ l : List Clause, (insertRoot x l).Perm (x :: l) := by
  intro l
  induction l with
  | nil => exact List.Perm.refl _
  | cons y ys ih =>
    show (if skLT (sort_key y) (sort_key x) then y :: insertRoot x ys
      else x :: y :: ys).Perm _
    by_cases h : skLT (sort_key y) (sort_key x) = true
    · rw [if_pos h]
      exact (ih.cons y).trans (List.Perm.swap x y ys)
    · rw [if_neg h]

theorem sortRoots_perm : ∀ l : List Clause, (sortRoots l).Perm l := by
  intro l
  induction l with
  | nil => exact List.Perm.refl _
  | cons a t ih =>
    show (insertRoot a (sortRoots t)).Perm _
    exact (insertRoot_perm a (sortRoots t)).trans (ih.cons a)

theorem flattenOne_ids (m2 : CDict) (doc_id : String) :
    ∀ (fuel : Nat) (c : Clause),
      (flattenOne m2 doc_id fuel c).map (fun ch => ch.id) =
        flattenIdsOne m2 fuel c := by
  intro fuel
  induction fuel with
  | zero => intro c; rfl
  | succ fuel ih =>
    intro c
    show (to_dict doc_id c).id :: _ = c.id :: _
    rw [map_flatMap]
    refine congrArg (List.cons c.id) (flatMap_congr fun k hk => ?_)
    cases hg : dictGet m2 k with
    | none => rfl
    | some ch => exact ih ch

theorem build_id_char {m0 : CDict}
    (hnd : (m0.map (fun p => p.1)).Nodup)
    (hids : ∀ p ∈ m0, p.2.id = p.1)
    (hfresh : ∀ p ∈ m0, p.2.parent_id = none ∧ p.2.childIds = [])
    {k : String} {c : Clause}
    (h : dictGet (build_clause_hierarchy m0).1 k = some c) : c.id = k := by
  rw [build_get_char hnd hfresh] at h
  obtain ⟨c0, hc0, rfl⟩ := Option.map_eq_some'.mp h
  have h1 : (linkFn (m0.map (fun p => p.1)) (m0.map (fun p => p.1)) k c0).id
      = c0.id := rfl
  rw [h1, hids (k, c0) (dictGet_mem hc0)]

theorem build_childIds_char {m0 : CDict}
    (hnd : (m0.map (fun p => p.1)).Nodup)
    (hfresh : ∀ p ∈ m0, p.2.parent_id = none ∧ p.2.childIds = [])
    {k : String} {c : Clause}
    (h : dictGet (build_clause_hierarchy m0).1 k = some c) :
    c.childIds = (m0.map (fun p => p.1)).filter
      (fun j => parentIn (m0.map (fun p => p.1)) j == some k) := by
  rw [build_get_char hnd hfresh] at h
  obtain ⟨c0, hc0, rfl⟩ := Option.map_eq_some'.mp h
  exact linkFn_childIds

theorem build_isSome {m0 : CDict}
    (hnd : (m0.map (fun p => p.1)).Nodup)
    (hfresh : ∀ p ∈ m0, p.2.parent_id = none ∧ p.2.childIds = [])
    {k : String} (hk : k ∈ m0.map (fun p => p.1)) :
    ∃ c, dictGet (build_clause_hierarchy m0).1 k = some c := by
  refine Option.isSome_iff_exists.mp ?_
  rw [dictGet_isSome_iff, build_keys hnd hfresh]
  exact hk

theorem anc_mem_keys {keys : List String} {d : Nat} {j r : String}
    (hj : j ∈ keys) (h : ancAt (parentIn keys) d j = some r) : r ∈ keys := by
  cases d with
  | zero =>
    obtain rfl : j = r := Option.some_inj.mp h
    exact hj
  | succ e =>
    obtain ⟨a, ha, hpa⟩ := (ancAt_succ_tail _ e j r).mp h
    exact (parentIn_some hpa).2

theorem anc_root_unique {pa : String → Option String} {j r1 r2 : String}
    {d1 d2 : Nat}
    (h1 : ancAt pa d1 j = some r1) (hr1 : pa r1 = none)
    (h2 : ancAt pa d2 j = some r2) (hr2 : pa r2 = none) : r1 = r2 := by
  rcases Nat.le_total d1 d2 with hle | hle
  · obtain ⟨e, rfl⟩ : ∃ e, d2 = d1 + e := ⟨d2 - d1, by omega⟩
    rw [ancAt_add, h1] at h2
    have h3 : ancAt pa e r1 = some r2 := h2
    cases e with
    | zero => exact Option.some_inj.mp h3
    | succ e2 =>
      have h4 : (match pa r1 with
          | some p => ancAt pa e2 p
          | none => none) = some r2 := h3
      rw [hr1] at h4
      exact Option.noConfusion h4
  · obtain ⟨e, rfl⟩ : ∃ e, d1 = d2 + e := ⟨d1 - d2, by omega⟩
    rw [ancAt_add, h2] at h1
    have h3 : ancAt pa e r2 = some r1 := h1
    cases e with
    | zero => exact (Option.some_inj.mp h3).symm
    | succ e2 =>
      have h4 : (match pa r2 with
          | some p => ancAt pa e2 p
          | none => none) = some r1 := h3
      rw [hr2] at h4
      exact Option.noConfusion h4

/-- Each clause id `j` occurs in the ids emitted below the clause stored
at `k` exactly when `k` is an ancestor-or-self of `j` within the fuel
bound — and then exactly once. -/
theorem flatten_count {m0 : CDict}
    (hnd : (m0.map (fun p => p.1)).Nodup)
    (hids : ∀ p ∈ m0, p.2.id = p.1)
    (hfresh : ∀ p ∈ m0, p.2.parent_id = none ∧ p.2.childIds = []) :
    ∀ (fuel : Nat) (j k : String) (c : Clause),
      j ∈ m0.map (fun p => p.1) → k ∈ m0.map (fun p => p.1) →
      dictGet (build_clause_hierarchy m0).1 k = some c →
      (flattenIdsOne (build_clause_hierarchy m0).1 fuel c).count j =
        if ancWithin (parentIn (m0.map (fun p => p.1))) fuel j k = true
          then 1 else 0 := by
  have hshort : ∀ x p, parentIn (m0.map (fun p => p.1)) x = some p →
      p.toList.length < x.toList.length := fun _ _ hp => parentIn_shorter hp
  intro fuel
  induction fuel with
  | zero =>
    intro j k c hj hk hget
    have hcid : c.id = k := build_id_char hnd hids hfresh hget
    show List.count j [c.id] = _
    rw [hcid]
    by_cases hjk : j = k
    · subst hjk
      rw [if_pos (show ancWithin _ 0 j j = true from by
        show (j == j) = true
        simp)]
      simp
    · rw [if_neg (show ¬ ancWithin _ 0 j k = true from by
        show ¬ (j == k) = true
        simpa using hjk)]
      exact List.count_eq_zero.mpr (by simpa using hjk)
  | succ fuel ih =>
    intro j k c hj hk hget
    have hcid : c.id = k := build_id_char hnd hids hfresh hget
    have hchild := build_childIds_char hnd hfresh hget
    show List.count j (c.id :: c.childIds.flatMap _) = _
    rw [List.count_cons, hcid, hchild, count_flatMap]
    by_cases hjk : j = k
    · subst hjk
      have hzero : (((m0.map (fun p => p.1)).filter
          (fun x => parentIn (m0.map (fun p => p.1)) x == some j)).map
          (fun x => (match dictGet (build_clause_hierarchy m0).1 x with
            | some ch => flattenIdsOne (build_clause_hierarchy m0).1 fuel ch
            | none => []).count j)).sum = 0 := by
        refine sum_map_zero _ _ fun x hx => ?_
        obtain ⟨hx1, hx2⟩ := List.mem_filter.mp hx
        have hpx : parentIn (m0.map (fun p => p.1)) x = some j := by
          simpa using hx2
        obtain ⟨ch, hch⟩ := build_isSome hnd hfresh hx1
        rw [hch]
        show (flattenIdsOne (build_clause_hierarchy m0).1 fuel ch).count j = 0
        rw [ih j x ch hj hx1 hch]
        rw [if_neg ?_]
        intro hW
        obtain ⟨d, hd, hanc⟩ := (ancWithin_iff _ fuel j x).mp hW
        cases d with
        | zero =>
          obtain rfl : j = x := Option.some_inj.mp hanc
          exact absurd (parentIn_shorter hpx) (by omega)
        | succ e =>
          have hlx : x.toList.length < j.toList.length :=
            ancAt_shorter hshort e j x hanc
          have hlj : j.toList.length < x.toList.length := parentIn_shorter hpx
          omega
      rw [hzero]
      rw [if_pos (show ancWithin _ (fuel + 1) j j = true from by
        show (j == j || _) = true
        simp)]
      simp
    · by_cases hR :
        ancWithin (parentIn (m0.map (fun p => p.1))) (fuel + 1) j k = true
      · rw [if_pos hR]
        obtain ⟨d, hd, hanc⟩ := (ancWithin_iff _ (fuel + 1) j k).mp hR
        cases d with
        | zero => exact absurd (Option.some_inj.mp hanc) hjk
        | succ e =>
          obtain ⟨a, ha, hpa⟩ := (ancAt_succ_tail _ e j k).mp hanc
          have hamem : a ∈ m0.map (fun p => p.1) := anc_mem_keys hj ha
          have hafilter : a ∈ (m0.map (fun p => p.1)).filter
              (fun x => parentIn (m0.map (fun p => p.1)) x == some k) :=
            List.mem_filter.mpr ⟨hamem, by simpa using hpa⟩
          have hsum : (((m0.map (fun p => p.1)).filter
              (fun x => parentIn (m0.map (fun p => p.1)) x == some k)).map
              (fun x => (match dictGet (build_clause_hierarchy m0).1 x with
                | some ch => flattenIdsOne (build_clause_hierarchy m0).1 fuel ch
                | none => []).count j)).sum = 1 := by
            refine sum_map_single _ _ (hnd.filter _) a hafilter fun x hx => ?_
            obtain ⟨hx1, hx2⟩ := List.mem_filter.mp hx
            have hpx : parentIn (m0.map (fun p => p.1)) x = some k := by
              simpa using hx2
            obtain ⟨ch, hch⟩ := build_isSome hnd hfresh hx1
            rw [hch]
            show (flattenIdsOne (build_clause_hierarchy m0).1 fuel ch).count j
              = _
            rw [ih j x ch hj hx1 hch]
            by_cases hxa : x = a
            · subst hxa
              rw [if_pos ((ancWithin_iff _ fuel j x).mpr ⟨e, by omega, ha⟩),
                if_pos rfl]
            · rw [if_neg ?_, if_neg hxa]
              intro hW
              obtain ⟨d2, hd2, hanc2⟩ := (ancWithin_iff _ fuel j x).mp hW
              exact hxa (anc_child_unique hshort hanc2 hpx ha hpa)
          rw [hsum]
          rw [if_neg (show ¬ (k == j) = true from by
            simp only [beq_iff_eq]
            exact fun h => hjk h.symm)]
      · rw [if_neg hR]
        have hzero : (((m0.map (fun p => p.1)).filter
            (fun x => parentIn (m0.map (fun p => p.1)) x == some k)).map
            (fun x => (match dictGet (build_clause_hierarchy m0).1 x with
              | some ch => flattenIdsOne (build_clause_hierarchy m0).1 fuel ch
              | none => []).count j)).sum = 0 := by
          refine sum_map_zero _ _ fun x hx => ?_
          obtain ⟨hx1, hx2⟩ := List.mem_filter.mp hx
          have hpx : parentIn (m0.map (fun p => p.1)) x = some k := by
            simpa using hx2
          obtain ⟨ch, hch⟩ := build_isSome hnd hfresh hx1
          rw [hch]
          show (flattenIdsOne (build_clause_hierarchy m0).1 fuel ch).count j = 0
          rw [ih j x ch hj hx1 hch]
          rw [if_neg ?_]
          intro hW
          obtain ⟨d2, hd2, hanc2⟩ := (ancWithin_iff _ fuel j x).mp hW
          apply hR
          refine (ancWithin_iff _ (fuel + 1) j k).mpr ⟨d2 + 1, by omega, ?_⟩
          exact (ancAt_succ_tail _ d2 j k).mpr ⟨x, hanc2, hpx⟩
        rw [hzero]
        rw [if_neg (show ¬ (k == j) = true from by
          simp only [beq_iff_eq]
          exact fun h => hjk h.symm)]

theorem flattenIds_subset {m0 : CDict}
    (hnd : (m0.map (fun p => p.1)).Nodup)
    (hids : ∀ p ∈ m0, p.2.id = p.1)
    (hfresh : ∀ p ∈ m0, p.2.parent_id = none ∧ p.2.childIds = []) :
    ∀ (fuel : Nat) (k : String) (c : Clause),
      k ∈ m0.map (fun p => p.1) →
      dictGet (build_clause_hierarchy m0).1 k = some c →
      ∀ x ∈ flattenIdsOne (build_clause_hierarchy m0).1 fuel c,
        x ∈ m0.map (fun p => p.1) := by
  intro fuel
  induction fuel with
  | zero =>
    intro k c hk hget x hx
    have hcid := build_id_char hnd hids hfresh hget
    have hxe : x = c.id := by simpa using (show x ∈ [c.id] from hx)
    rw [hxe, hcid]
    exact hk
  | succ fuel ih =>
    intro k c hk hget x hx
    have hcid := build_id_char hnd hids hfresh hget
    have hchild := build_childIds_char hnd hfresh hget
    rcases List.mem_cons.mp hx with heq | hmem
    · rw [heq, hcid]
      exact hk
    · obtain ⟨k2, hk2mem, hx2⟩ := List.mem_flatMap.mp hmem
      rw [hchild] at hk2mem
      obtain ⟨hk21, _⟩ := List.mem_filter.mp hk2mem
      cases hg : dictGet (build_clause_hierarchy m0).1 k2 with
      | none => rw [hg] at hx2; simp at hx2
      | some ch =>
        rw [hg] at hx2
        exact ih k2 ch hk21 hg x hx2

theorem roots_ids_eq (S : List String) :
    ∀ (l : CDict), (∀ p ∈ l, p.2.id = p.1) →
    (l.filterMap (fun p => if S.contains p.1 then none else some p.2)).map
        (fun c => c.id)
      = (l.map (fun p => p.1)).filter (fun k => !(S.contains k)) := by
  intro l
  induction l with
  | nil => intro _; rfl
  | cons p rest ih =>
    intro h
    obtain ⟨a, c⟩ := p
    by_cases hS : S.contains a = true
    · rw [List.filterMap_cons]
      rw [if_pos hS]
      dsimp only
      rw [ih (fun q hq => h q (List.mem_cons_of_mem _ hq))]
      show _ = List.filter _ (a :: rest.map (fun p => p.1))
      rw [List.filter_cons, if_neg (by rw [hS]; decide)]
    · rw [List.filterMap_cons]
      rw [if_neg hS]
      dsimp only
      have hS2 : S.contains a = false := by
        revert hS
        cases S.contains a <;> simp
      rw [List.map_cons, h (a, c) (List.mem_cons_self _ _),
        ih (fun q hq => h q (List.mem_cons_of_mem _ hq))]
      show _ = List.filter _ (a :: rest.map (fun p => p.1))
      rw [List.filter_cons, if_pos (by rw [hS2]; decide)]

theorem build_ids {m0 : CDict}
    (hnd : (m0.map (fun p => p.1)).Nodup)
    (hids : ∀ p ∈ m0, p.2.id = p.1)
    (hfresh : ∀ p ∈ m0, p.2.parent_id = none ∧ p.2.childIds = []) :
    ∀ p ∈ (build_clause_hierarchy m0).1, p.2.id = p.1 := by
  intro p hp
  rw [build_fst_char hnd hfresh] at hp
  obtain ⟨q, hq, rfl⟩ := List.mem_map.mp hp
  show q.2.id = q.1
  exact hids q hq

theorem childIdsOf_build_iff {m0 : CDict}
    (hnd : (m0.map (fun p => p.1)).Nodup)
    (hfresh : ∀ p ∈ m0, p.2.parent_id = none ∧ p.2.childIds = [])
    (x : String) :
    x ∈ childIdsOf (build_clause_hierarchy m0).1 ↔
      x ∈ m0.map (fun p => p.1) ∧
        parentIn (m0.map (fun p => p.1)) x ≠ none := by
  unfold childIdsOf
  rw [build_fst_char hnd hfresh]
  constructor
  · intro hx
    obtain ⟨L, hL, hxL⟩ := List.mem_flatten.mp hx
    obtain ⟨p, hp, hpe⟩ := List.mem_map.mp hL
    obtain ⟨q, hq, rfl⟩ := List.mem_map.mp hp
    rw [← hpe] at hxL
    have hxL2 : x ∈ (m0.map (fun p => p.1)).filter
        (fun j => parentIn (m0.map (fun p => p.1)) j == some q.1) := hxL
    obtain ⟨hx1, hx2⟩ := List.mem_filter.mp hxL2
    refine ⟨hx1, ?_⟩
    have hpx : parentIn (m0.map (fun p => p.1)) x = some q.1 := by
      simpa using hx2
    rw [hpx]
    exact Option.noConfusion
  · rintro ⟨hxk, hpx⟩
    cases hp : parentIn (m0.map (fun p => p.1)) x with
    | none => exact absurd hp hpx
    | some t =>
      have htk : t ∈ m0.map (fun p => p.1) := (parentIn_some hp).2
      obtain ⟨q, hq, hqt⟩ := List.mem_map.mp htk
      refine List.mem_flatten.mpr
        ⟨(m0.map (fun p => p.1)).filter
          (fun j => parentIn (m0.map (fun p => p.1)) j == some q.1), ?_, ?_⟩
      · refine List.mem_map.mpr
          ⟨(q.1, linkFn (m0.map (fun p => p.1)) (m0.map (fun p => p.1)) q.1 q.2),
            List.mem_map.mpr ⟨q, hq, rfl⟩, ?_⟩
        exact linkFn_childIds.symm ▸ rfl
      · refine List.mem_filter.mpr ⟨hxk, ?_⟩
        rw [hp, hqt]
        simp

theorem build_snd_char (m0 : CDict) :
    (build_clause_hierarchy m0).2 =
      sortRoots (rootsOf (build_clause_hierarchy m0).1) := rfl

theorem rootsOf_mem {m : CDict}
    (hnd2 : (m.map (fun p => p.1)).Nodup)
    (hids2 : ∀ p ∈ m, p.2.id = p.1) :
    ∀ r ∈ rootsOf m, dictGet m r.id = some r := by
  intro r hr
  obtain ⟨p, hp, hpe⟩ := List.mem_filterMap.mp hr
  by_cases hS : (childIdsOf m).contains p.1 = true
  · rw [if_pos hS] at hpe
    exact Option.noConfusion hpe
  · rw [if_neg hS] at hpe
    obtain rfl := Option.some_inj.mp hpe
    rw [hids2 p hp]
    exact dictGet_of_mem_nodup hnd2 hp

/-- Flattening the built hierarchy emits chunks whose id list is a
permutation of the clause-map keys: every clause exactly once. -/
theorem flatten_ids_perm {m0 : CDict}
    (hnd : (m0.map (fun p => p.1)).Nodup)
    (hids : ∀ p ∈ m0, p.2.id = p.1)
    (hfresh : ∀ p ∈ m0, p.2.parent_id = none ∧ p.2.childIds = [])
    (doc_id : String) :
    ((flatten_clauses (build_clause_hierarchy m0).2 doc_id
        (build_clause_hierarchy m0).1).map (fun ch => ch.id)).Perm
      (m0.map (fun p => p.1)) := by
  have hshort : ∀ x p, parentIn (m0.map (fun p => p.1)) x = some p →
      p.toList.length < x.toList.length := fun _ _ hp => parentIn_shorter hp
  have hids2 := build_ids hnd hids hfresh
  have hnd2 : (((build_clause_hierarchy m0).1).map (fun p => p.1)).Nodup := by
    rw [build_keys hnd hfresh]
    exact hnd
  refine List.perm_iff_count.mpr fun a => ?_
  have hmap : (flatten_clauses (build_clause_hierarchy m0).2 doc_id
      (build_clause_hierarchy m0).1).map (fun ch => ch.id) =
      ((build_clause_hierarchy m0).2).flatMap
        (flattenIdsOne (build_clause_hierarchy m0).1
          (flattenFuel (build_clause_hierarchy m0).1)) := by
    unfold flatten_clauses
    rw [map_flatMap]
    exact flatMap_congr fun r _ => flattenOne_ids _ _ _ r
  rw [hmap, count_flatMap]
  have hperm2 : ((build_clause_hierarchy m0).2).Perm
      (rootsOf (build_clause_hierarchy m0).1) := by
    rw [build_snd_char]
    exact sortRoots_perm _
  rw [(hperm2.map (fun r => (flattenIdsOne (build_clause_hierarchy m0).1
    (flattenFuel (build_clause_hierarchy m0).1) r).count a)).sum_eq]
  by_cases ha : a ∈ m0.map (fun p => p.1)
  · rw [List.count_eq_one_of_mem hnd ha]
    have hroot_stored := rootsOf_mem hnd2 hids2
    have hpoint : ∀ r ∈ rootsOf (build_clause_hierarchy m0).1,
        (flattenIdsOne (build_clause_hierarchy m0).1
          (flattenFuel (build_clause_hierarchy m0).1) r).count a =
        (if ancWithin (parentIn (m0.map (fun p => p.1)))
            (flattenFuel (build_clause_hierarchy m0).1) a r.id = true
          then 1 else 0) := by
      intro r hr
      have hget := hroot_stored r hr
      have hrk : r.id ∈ m0.map (fun p => p.1) := by
        rw [← build_keys hnd hfresh]
        exact dictGet_isSome_iff.mp (by rw [hget]; rfl)
      exact flatten_count hnd hids hfresh _ a r.id r ha hrk hget
    rw [List.map_congr_left hpoint]
    have hcomp : (rootsOf (build_clause_hierarchy m0).1).map
        (fun r => (if ancWithin (parentIn (m0.map (fun p => p.1)))
            (flattenFuel (build_clause_hierarchy m0).1) a r.id = true
          then 1 else 0)) =
        ((rootsOf (build_clause_hierarchy m0).1).map (fun r => r.id)).map
          (fun rid => (if ancWithin (parentIn (m0.map (fun p => p.1)))
            (flattenFuel (build_clause_hierarchy m0).1) a rid = true
          then 1 else 0)) := by
      rw [List.map_map]
      rfl
    rw [hcomp]
    have hrids : (rootsOf (build_clause_hierarchy m0).1).map (fun r => r.id) =
        (((build_clause_hierarchy m0).1).map (fun p => p.1)).filter
          (fun k => !((childIdsOf (build_clause_hierarchy m0).1).contains k)) :=
      roots_ids_eq _ _ hids2
    rw [hrids]
    have hfcong : (((build_clause_hierarchy m0).1).map (fun p => p.1)).filter
        (fun k => !((childIdsOf (build_clause_hierarchy m0).1).contains k)) =
        (((build_clause_hierarchy m0).1).map (fun p => p.1)).filter
          (fun k => parentIn (m0.map (fun p => p.1)) k == none) := by
      refine List.filter_congr fun x hx => ?_
      cases hp : parentIn (m0.map (fun p => p.1)) x with
      | none =>
        have hc : ¬ (childIdsOf (build_clause_hierarchy m0).1).contains x
            = true := by
          intro hc
          exact ((childIdsOf_build_iff hnd hfresh x).mp
            (contains_iff_mem.mp hc)).2 hp
        have hc2 : (childIdsOf (build_clause_hierarchy m0).1).contains x
            = false := by
          revert hc
          cases (childIdsOf (build_clause_hierarchy m0).1).contains x <;> simp
        rw [hc2]
        rfl
      | some t =>
        have hxk : x ∈ m0.map (fun p => p.1) := by
          rw [← build_keys hnd hfresh]
          exact hx
        have hc : (childIdsOf (build_clause_hierarchy m0).1).contains x
            = true := by
          rw [contains_iff_mem]
          exact (childIdsOf_build_iff hnd hfresh x).mpr
            ⟨hxk, by rw [hp]; exact Option.noConfusion⟩
        rw [hc]
        rfl
    rw [hfcong, build_keys hnd hfresh]
    obtain ⟨d, r, hdr, hroot⟩ := anc_terminates hshort a
    have hrk : r ∈ m0.map (fun p => p.1) := anc_mem_keys ha hdr
    have hdle : d ≤ flattenFuel (build_clause_hierarchy m0).1 := by
      have h1 : r.toList.length + d ≤ a.toList.length := ancAt_len hshort d a r hdr
      have h2 : a.toList.length ∈ ((build_clause_hierarchy m0).1).map
          (fun p => p.1.toList.length) := by
        have h3 : a ∈ ((build_clause_hierarchy m0).1).map (fun p => p.1) := by
          rw [build_keys hnd hfresh]
          exact ha
        obtain ⟨p, hpm, hpe⟩ := List.mem_map.mp h3
        exact List.mem_map.mpr ⟨p, hpm, by rw [hpe]⟩
      have h4 : a.toList.length ≤ (((build_clause_hierarchy m0).1).map
          (fun p => p.1.toList.length)).sum := List.le_sum_of_mem h2
      unfold flattenFuel
      omega
    refine sum_map_single _ _ (hnd.filter _) r
      (List.mem_filter.mpr ⟨hrk, by rw [hroot]; rfl⟩) fun x hx => ?_
    obtain ⟨hx1, hx2⟩ := List.mem_filter.mp hx
    have hpx : parentIn (m0.map (fun p => p.1)) x = none := by
      simpa using hx2
    by_cases hxr : x = r
    · subst hxr
      rw [if_pos ((ancWithin_iff _ _ a x).mpr ⟨d, hdle, hdr⟩), if_pos rfl]
    · rw [if_neg ?_, if_neg hxr]
      intro hW
      obtain ⟨d2, hd2, hanc2⟩ := (ancWithin_iff _ _ a x).mp hW
      exact hxr (anc_root_unique hanc2 hpx hdr hroot)
  · rw [List.count_eq_zero.mpr ha]
    refine sum_map_zero _ _ fun r hr => ?_
    have hget := rootsOf_mem hnd2 hids2 r hr
    have hrk : r.id ∈ m0.map (fun p => p.1) := by
      rw [← build_keys hnd hfresh]
      exact dictGet_isSome_iff.mp (by rw [hget]; rfl)
    refine List.count_eq_zero.mpr fun hmem => ?_
    exact ha (flattenIds_subset hnd hids hfresh _ r.id r hrk hget a hmem)

/-- On an already-linked dictionary, one more linking pass for a present
key changes nothing: the `clause not in parent.children` guard fires. -/
theorem linkOne_linked {m0 : CDict}
    (hnd : (m0.map (fun p => p.1)).Nodup)
    (hfresh : ∀ p ∈ m0, p.2.parent_id = none ∧ p.2.childIds = [])
    {a : String} (hak : a ∈ m0.map (fun p => p.1)) :
    linkOne (build_clause_hierarchy m0).1 a = (build_clause_hierarchy m0).1 := by
  cases hpa : parentIn (m0.map (fun p => p.1)) a with
  | none =>
    unfold linkOne
    cases hs : structParent a with
    | none => rfl
    | some p =>
      have hpk : p ∉ m0.map (fun q => q.1) := parentIn_none hpa hs
      dsimp only
      cases hg : dictGet (build_clause_hierarchy m0).1 p with
      | none => rfl
      | some c =>
        exfalso
        apply hpk
        have hsome : (dictGet (build_clause_hierarchy m0).1 p).isSome = true := by
          rw [hg]
          rfl
        have h2 := dictGet_isSome_iff.mp hsome
        rwa [build_keys hnd hfresh] at h2
  | some pid =>
    have hps := parentIn_some hpa
    obtain ⟨c0, hc0⟩ : ∃ c, dictGet m0 pid = some c :=
      Option.isSome_iff_exists.mp (dictGet_isSome_iff.mpr hps.2)
    have hgM : dictGet (build_clause_hierarchy m0).1 pid =
        some (linkFn (m0.map (fun p => p.1)) (m0.map (fun p => p.1)) pid c0) := by
      rw [build_get_char hnd hfresh, hc0]
      rfl
    unfold linkOne
    rw [hps.1]
    dsimp only
    rw [hgM]
    dsimp only
    rw [if_pos ?_]
    rw [linkFn_childIds]
    refine List.mem_filter.mpr ⟨hak, ?_⟩
    rw [hpa]
    simp

theorem linkFold_id {m0 : CDict}
    (hnd : (m0.map (fun p => p.1)).Nodup)
    (hfresh : ∀ p ∈ m0, p.2.parent_id = none ∧ p.2.childIds = []) :
    ∀ l : List String, (∀ x ∈ l, x ∈ m0.map (fun p => p.1)) →
      l.foldl linkOne (build_clause_hierarchy m0).1 =
        (build_clause_hierarchy m0).1 := by
  intro l
  induction l with
  | nil => intro _; rfl
  | cons a t ih =>
    intro h
    show List.foldl linkOne (linkOne (build_clause_hierarchy m0).1 a) t = _
    rw [linkOne_linked hnd hfresh (h a (List.mem_cons_self _ _))]
    exact ih fun x hx => h x (List.mem_cons_of_mem _ hx)

/-- `build_clause_hierarchy` is idempotent on the dictionaries the
pipeline produces. -/
theorem build_idem {m0 : CDict}
    (hnd : (m0.map (fun p => p.1)).Nodup)
    (hfresh : ∀ p ∈ m0, p.2.parent_id = none ∧ p.2.childIds = []) :
    build_clause_hierarchy (build_clause_hierarchy m0).1 =
      build_clause_hierarchy m0 := by
  have h1 : (build_clause_hierarchy (build_clause_hierarchy m0).1).1 =
      (build_clause_hierarchy m0).1 := by
    show (((build_clause_hierarchy m0).1).map (fun p => p.1)).foldl linkOne
      (build_clause_hierarchy m0).1 = _
    refine linkFold_id hnd hfresh _ fun x hx => ?_
    rwa [build_keys hnd hfresh] at hx
  have h2 : (build_clause_hierarchy (build_clause_hierarchy m0).1).2 =
      (build_clause_hierarchy m0).2 := by
    rw [build_snd_char (build_clause_hierarchy m0).1, h1,
      ← build_snd_char m0]
  exact Prod.ext h1 h2

theorem build_childIds_nodup {m0 : CDict}
    (hnd : (m0.map (fun p => p.1)).Nodup)
    (hfresh : ∀ p ∈ m0, p.2.parent_id = none ∧ p.2.childIds = [])
    {k : String} {c : Clause}
    (h : dictGet (build_clause_hierarchy m0).1 k = some c) :
    c.childIds.Nodup := by
  rw [build_childIds_char hnd hfresh h]
  exact hnd.filter _

/-- Claim C4: flattening the built hierarchy emits exactly one chunk per
clause of the map (the emitted chunk ids are a permutation of the keys),
and the builder is idempotent — a second run on the linked dictionary
returns the identical dictionary and identical sorted root list — with no
duplicate child links anywhere. -/
theorem flatten_build_spec (m0 : CDict) (doc_id : String)
    (hnd : (m0.map (fun p => p.1)).Nodup)
    (hids : ∀ p ∈ m0, p.2.id = p.1)
    (hfresh : ∀ p ∈ m0, p.2.parent_id = none ∧ p.2.childIds = []) :
    ((flatten_clauses (build_clause_hierarchy m0).2 doc_id
        (build_clause_hierarchy m0).1).map (fun ch => ch.id)).Perm
      (m0.map (fun p => p.1)) ∧
    build_clause_hierarchy (build_clause_hierarchy m0).1 =
      build_clause_hierarchy m0 ∧
    (∀ k c, dictGet (build_clause_hierarchy m0).1 k = some c →
      c.childIds.Nodup) :=
  ⟨flatten_ids_perm hnd hids hfresh doc_id,
    build_idem hnd hfresh,
    fun _ _ h => build_childIds_nodup hnd hfresh h⟩

/-- Witness for C4 at a concrete five-clause dictionary. -/
theorem flatten_build_spec_witness :
    ((sampleHier.map (fun p => p.1)).Nodup ∧
      (∀ p ∈ sampleHier, p.2.id = p.1) ∧
      (∀ p ∈ sampleHier, p.2.parent_id = none ∧ p.2.childIds = [])) ∧
    (((flatten_clauses (build_clause_hierarchy sampleHier).2 "doc"
        (build_clause_hierarchy sampleHier).1).map (fun ch => ch.id)).Perm
      (sampleHier.map (fun p => p.1)) ∧
    build_clause_hierarchy (build_clause_hierarchy sampleHier).1 =
      build_clause_hierarchy sampleHier ∧
    (∀ k c, dictGet (build_clause_hierarchy sampleHier).1 k = some c →
      c.childIds.Nodup)) :=
  ⟨⟨by decide, by decide, by decide⟩,
    flatten_build_spec sampleHier "doc" (by decide) (by decide) (by decide)⟩

/-! ### Pipeline invariant: the clause dictionary stays fresh and well-keyed -/

/-- Ids produced by `extract_clause_info`: non-empty, only
letters/digits/dots. -/
def goodId (sid : String) : Prop :=
  sid.toList ≠ [] ∧ ∀ ch ∈ sid.toList, isIdChar ch

/-- Invariant of the clause dictionary during block processing: unique
keys, each clause keyed by its own id, no links yet, and well-formed
ids. -/
def DictInv (m : CDict) : Prop :=
  (m.map (fun p => p.1)).Nodup ∧
    ∀ p ∈ m, p.2.id = p.1 ∧ p.2.parent_id = none ∧ p.2.childIds = [] ∧
      goodId p.1

/-- Invariant of the whole processing state: the dictionary invariant
plus well-formedness of a pending bare clause number. -/
def StInv (s : PState) : Prop :=
  DictInv s.clauses ∧
    ∀ ps, s.context.pending_number = some ps → goodId ps

theorem dictUpdate_keys {k : String} {f : Clause → Clause} :
    ∀ {m : CDict},
      (dictUpdate m k f).map (fun p => p.1) = m.map (fun p => p.1) := by
  intro m
  induction m with
  | nil => rfl
  | cons p rest ih =>
    obtain ⟨a, c⟩ := p
    show ((if (a == k) = true then (a, f c) else (a, c)) :: _).map _ = _
    by_cases h : (a == k) = true
    · rw [if_pos h]
      show a :: _ = a :: _
      rw [ih]
    · rw [if_neg h]
      show a :: _ = a :: _
      rw [ih]

theorem dictUpdate_mem {k : String} {f : Clause → Clause} :
    ∀ {m : CDict} {p : String × Clause}, p ∈ dictUpdate m k f →
      ∃ q ∈ m, p.1 = q.1 ∧ (p.2 = q.2 ∨ p.2 = f q.2) := by
  intro m
  induction m with
  | nil => intro p h; simp [dictUpdate] at h
  | cons q0 rest ih =>
    intro p h
    obtain ⟨a, c⟩ := q0
    rw [dictUpdate] at h
    rcases List.mem_cons.mp h with heq | hmem
    · by_cases hc : (a == k) = true
      · rw [if_pos hc] at heq
        exact ⟨(a, c), List.mem_cons_self _ _, by rw [heq],
          Or.inr (by rw [heq])⟩
      · rw [if_neg hc] at heq
        exact ⟨(a, c), List.mem_cons_self _ _, by rw [heq],
          Or.inl (by rw [heq])⟩
    · obtain ⟨q, hq, h1, h2⟩ := ih hmem
      exact ⟨q, List.mem_cons_of_mem _ hq, h1, h2⟩

theorem DictInv_dictUpdate {m : CDict} {k : String} {f : Clause → Clause}
    (hf : ∀ c, (f c).id = c.id ∧ (f c).parent_id = c.parent_id ∧
      (f c).childIds = c.childIds)
    (h : DictInv m) : DictInv (dictUpdate m k f) := by
  obtain ⟨hnd, hent⟩ := h
  refine ⟨by rw [dictUpdate_keys]; exact hnd, fun p hp => ?_⟩
  obtain ⟨q, hq, h1, h2⟩ := dictUpdate_mem hp
  obtain ⟨e1, e2, e3, e4⟩ := hent q hq
  rcases h2 with h2 | h2
  · rw [h1, h2]
    exact ⟨e1, e2, e3, e4⟩
  · obtain ⟨f1, f2, f3⟩ := hf q.2
    rw [h1, h2, f1, f2, f3]
    exact ⟨e1, e2, e3, e4⟩

theorem StInv_addToCurrent {s : PState} {item : ContentItem} (h : StInv s) :
    StInv (addToCurrentClauseContent s item) := by
  unfold addToCurrentClauseContent
  split
  · split
    · exact ⟨DictInv_dictUpdate (fun c => ⟨rfl, rfl, rfl⟩) h.1, h.2⟩
    · exact h
  · exact h

theorem StInv_createClause {s : PState} {cid title : String}
    (hg : goodId cid) (h : StInv s) : StInv (createClause s cid title) := by
  obtain ⟨⟨hnd, hent⟩, _⟩ := h
  unfold createClause
  refine ⟨?_, ?_⟩
  · show DictInv (if dictContains s.clauses cid = true then s.clauses
      else s.clauses ++ [(cid, { id := cid, title := title : Clause })])
    by_cases hcont : dictContains s.clauses cid = true
    · rw [if_pos hcont]
      exact ⟨hnd, hent⟩
    · rw [if_neg hcont]
      refine ⟨?_, ?_⟩
      · rw [List.map_append]
        refine List.nodup_append.mpr ⟨hnd, List.nodup_singleton _, ?_⟩
        intro a ha hb
        have hae : a = cid := by simpa using hb
        subst hae
        exact hcont (dictGet_isSome_iff.mpr ha)
      · intro p hp
        rcases List.mem_append.mp hp with hm | hm
        · exact hent p hm
        · have hpe : p = (cid, { id := cid, title := title : Clause }) := by
            simpa using hm
          rw [hpe]
          exact ⟨rfl, rfl, rfl, hg⟩
  · intro ps hps
    exact Option.noConfusion hps

theorem StInv_section_header {s : PState} {b : Block} (h : StInv s) :
    StInv (process_section_header s b) := by
  unfold process_section_header
  dsimp only
  split
  · exact h
  · split
    · next cid titl heq =>
        exact StInv_createClause (extract_clause_info_goodId heq) h
    · next cid heq =>
        refine ⟨h.1, ?_⟩
        intro ps hps
        obtain rfl := Option.some_inj.mp hps
        exact extract_clause_info_goodId heq
    · split
      · next p heq2 =>
          split
          · exact h
          · exact StInv_createClause (h.2 p heq2) h
      · exact h

theorem StInv_caption {s : PState} {b : Block} (h : StInv s) :
    StInv (process_caption s b) := by
  unfold process_caption
  dsimp only
  split
  · exact h
  · split
    · exact ⟨h.1, h.2⟩
    · exact StInv_addToCurrent h

theorem StInv_table {s : PState} {b : Block} (h : StInv s) :
    StInv (process_table s b) := by
  unfold process_table
  dsimp only
  split
  · exact h
  · split
    · split
      · exact ⟨DictInv_dictUpdate (fun c => ⟨rfl, rfl, rfl⟩) h.1, h.2⟩
      · exact ⟨h.1, h.2⟩
    · exact ⟨h.1, h.2⟩

theorem refFoldStep_fields (c : Clause) (r : String) :
    (refFoldStep c r).id = c.id ∧ (refFoldStep c r).parent_id = c.parent_id ∧
      (refFoldStep c r).childIds = c.childIds := by
  unfold refFoldStep
  repeat' split
  all_goals exact ⟨rfl, rfl, rfl⟩

theorem refFold_fields (refs : List String) :
    ∀ c : Clause, (refs.foldl refFoldStep c).id = c.id ∧
      (refs.foldl refFoldStep c).parent_id = c.parent_id ∧
      (refs.foldl refFoldStep c).childIds = c.childIds := by
  induction refs with
  | nil => intro c; exact ⟨rfl, rfl, rfl⟩
  | cons r t ih =>
    intro c
    obtain ⟨a1, a2, a3⟩ := ih (refFoldStep c r)
    obtain ⟨b1, b2, b3⟩ := refFoldStep_fields c r
    exact ⟨by rw [List.foldl_cons, a1, b1], by rw [List.foldl_cons, a2, b2],
      by rw [List.foldl_cons, a3, b3]⟩

theorem StInv_text {s : PState} {b : Block} (h : StInv s) :
    StInv (process_text s b) := by
  unfold process_text
  dsimp only
  split
  · split
    · refine ⟨DictInv_dictUpdate (fun c => ?_) h.1, h.2⟩
      obtain ⟨a1, a2, a3⟩ := refFold_fields
        (extract_references (strip_html b.html))
        { c with
          content := c.content ++ [ContentItem.mk "paragraph" (strip_html b.html)]
          requirements := c.requirements ++ extract_requirements (strip_html b.html) }
      exact ⟨a1, a2, a3⟩
    · exact h
  · exact h

theorem StInv_footnote {s : PState} {b : Block} (h : StInv s) :
    StInv (process_footnote s b) := by
  unfold process_footnote
  dsimp only
  split
  · exact h
  · exact StInv_addToCurrent h

theorem StInv_list_item {s : PState} {b : Block} (h : StInv s) :
    StInv (process_list_item s b) := by
  unfold process_list_item
  dsimp only
  split
  · split
    · exact ⟨DictInv_dictUpdate (fun c => ⟨rfl, rfl, rfl⟩) h.1, h.2⟩
    · exact h
  · exact h

theorem StInv_saveClauseImage {docId : String} {s : PState} {it : ImgItem}
    {data : List Nat} {ext img_ref caption : String} {fn : Option String}
    (h : StInv s) :
    StInv (saveClauseImage docId s it data ext img_ref caption fn) := by
  unfold saveClauseImage
  split
  · exact h
  · dsimp only
    split
    · exact ⟨h.1, h.2⟩
    · exact ⟨DictInv_dictUpdate (fun c => ⟨rfl, rfl, rfl⟩) ⟨h.1.1, h.1.2⟩, h.2⟩

theorem StInv_saveMiscImage {docId : String} {s : PState} {it : ImgItem}
    {data : List Nat} {ext img_ref caption : String} (h : StInv s) :
    StInv (saveMiscImage docId s it data ext img_ref caption) := by
  unfold saveMiscImage
  dsimp only
  split
  · exact ⟨h.1, h.2⟩
  · exact ⟨h.1, h.2⟩

theorem StInv_processSingleImage {docId : String} {b : Block} {s : PState}
    {it : ImgItem} (h : StInv s) :
    StInv (processSingleImage docId b s it) := by
  unfold processSingleImage
  split
  · exact h
  · split
    · exact h
    · dsimp only
      split
      · exact StInv_saveClauseImage ⟨h.1, h.2⟩
      · exact StInv_saveMiscImage ⟨h.1, h.2⟩

theorem StInv_picture {docId : String} {s : PState} {b : Block} (h : StInv s) :
    StInv (process_picture docId s b) := by
  unfold process_picture
  split
  · exact h
  · have hfold : ∀ (l : List ImgItem) (s0 : PState), StInv s0 →
        StInv (l.foldl (processSingleImage docId b) s0) := by
      intro l
      induction l with
      | nil => intro s0 h0; exact h0
      | cons it t ih =>
        intro s0 h0
        exact ih _ (StInv_processSingleImage h0)
    exact ⟨(hfold b.images s h).1, (hfold b.images s h).2⟩

theorem StInv_applyHandler {docId : String} {b : Block} {s : PState}
    (h : StInv s) : StInv (applyHandler docId b s) := by
  unfold applyHandler
  split
  · exact StInv_section_header h
  · split
    · exact StInv_caption h
    · split
      · exact StInv_table h
      · split
        · exact StInv_picture h
        · split
          · exact StInv_text h
          · split
            · exact StInv_footnote h
            · split
              · exact StInv_list_item h
              · exact h

mutual
theorem StInv_process_block (docId : String) : ∀ (b : Block) (s : PState),
    StInv s → StInv (process_block docId b s)
  | Block.mk bt h2 cap rows imgs children, s => by
    intro h
    rw [process_block]
    split
    · exact h
    · exact StInv_processBlocks docId children _ (StInv_applyHandler h)

theorem StInv_processBlocks (docId : String) : ∀ (l : List Block) (s : PState),
    StInv s → StInv (processBlocks docId l s)
  | [], s => by
    intro h
    rw [processBlocks]
    exact h
  | b :: rest, s => by
    intro h
    rw [processBlocks]
    exact StInv_processBlocks docId rest _ (StInv_process_block docId b s h)
end

/-- The empty initial state of `convert_file`. -/
def initState : PState := {}

theorem StInv_initState : StInv initState := by
  refine ⟨⟨List.nodup_nil, ?_⟩, ?_⟩
  · intro p hp
    exact absurd hp (List.not_mem_nil p)
  · intro ps hps
    exact Option.noConfusion hps

/-! ### `convert_file` and the synthetic misc chunk -/

theorem filter_nil_of_false {α : Type} {p : α → Bool} :
    ∀ {l : List α}, (∀ a ∈ l, p a = false) → l.filter p = [] := by
  intro l
  induction l with
  | nil => intro _; rfl
  | cons a t ih =>
    intro h
    rw [List.filter_cons, if_neg (by rw [h a (List.mem_cons_self _ _)]; decide)]
    exact ih fun x hx => h x (List.mem_cons_of_mem _ hx)

theorem goodId_ne_misc {sid doc_id : String} (hg : goodId sid) :
    sid ≠ doc_id ++ "_misc" := by
  intro he
  have htl : (doc_id ++ "_misc").toList = doc_id.toList ++ "_misc".toList := rfl
  have hu : '_' ∈ sid.toList := by
    rw [he, htl]
    exact List.mem_append.mpr (Or.inr (by decide))
  exact isIdChar_not_underscore (hg.2 '_' hu) rfl

/-- The synthetic miscellaneous-images chunk `convert_file` appends. -/
def miscNode (doc_id : String) (meta : List MiscImage) : ChunkRec :=
  { id := doc_id ++ "_misc", document_id := doc_id,
    title := "Miscellaneous Images", parent_id := none, content := [],
    tables := [], figures := meta.map FigLike.misc, requirements := [],
    refs_internal := [], refs_external := [], children_ids := [] }

/-- The `statistics` object of `convert_file`'s result. -/
structure Statistics where
  total_images : Nat
  images_in_clauses : Nat
  images_in_misc : Nat
  total_tables : Nat
  total_clauses : Nat
  total_chunks : Nat
deriving DecidableEq, Repr

structure ConvertResult where
  document_id : String
  statistics : Statistics
  chunks : List ChunkRec
deriving DecidableEq, Repr

/-- `convert_file`: process all top-level blocks from the fresh state,
build and flatten the hierarchy, then append the misc node (bumping
`total_chunks`) when any misc image was recorded. -/
def convert_file (doc_id : String) (blocks : List Block) : ConvertResult :=
  let st := processBlocks doc_id blocks initState
  let bc := build_clause_hierarchy st.clauses
  let chunks := flatten_clauses bc.2 doc_id bc.1
  let base : ConvertResult :=
    { document_id := doc_id
      statistics :=
        { total_images := st.counters.total_images
          images_in_clauses := st.counters.clause_images
          images_in_misc := st.counters.misc_images
          total_tables := st.counters.total_tables
          total_clauses := st.clauses.length
          total_chunks := chunks.length }
      chunks := chunks }
  if 0 < st.counters.misc_images then
    { base with
      chunks := base.chunks ++ [miscNode doc_id st.counters.misc_image_metadata]
      statistics := { base.statistics with
        total_chunks := base.statistics.total_chunks + 1 } }
  else base

/-- Claim C9: the output chunk list contains a chunk with the synthetic
misc id exactly when the misc-image count is positive, and then exactly
one such chunk, appended after the clause chunks (whose ids are a
permutation of the clause-map keys — one chunk per clause); the misc
chunk has no parent, no children, and carries the recorded misc-image
metadata as its figures; `total_chunks` counts one chunk per clause plus
the misc chunk when present. -/
theorem misc_chunk_spec (doc_id : String) (blocks : List Block) :
    ((convert_file doc_id blocks).chunks.filter
        (fun ch => ch.id == doc_id ++ "_misc")).length =
      (if 0 < (processBlocks doc_id blocks initState).counters.misc_images
        then 1 else 0) ∧
    (0 < (processBlocks doc_id blocks initState).counters.misc_images →
      ∃ pre, (convert_file doc_id blocks).chunks =
          pre ++ [miscNode doc_id
            (processBlocks doc_id blocks initState).counters.misc_image_metadata]
        ∧ (pre.map (fun ch => ch.id)).Perm
            ((processBlocks doc_id blocks initState).clauses.map
              (fun p => p.1))) ∧
    ((miscNode doc_id (processBlocks doc_id
        blocks initState).counters.misc_image_metadata).parent_id = none ∧
      (miscNode doc_id (processBlocks doc_id
        blocks initState).counters.misc_image_metadata).children_ids = [] ∧
      (miscNode doc_id (processBlocks doc_id
        blocks initState).counters.misc_image_metadata).figures =
        ((processBlocks doc_id
          blocks initState).counters.misc_image_metadata).map FigLike.misc) ∧
    (convert_file doc_id blocks).statistics.total_chunks =
      (processBlocks doc_id blocks initState).clauses.length +
        (if 0 < (processBlocks doc_id blocks initState).counters.misc_images
          then 1 else 0) := by
  obtain ⟨⟨hnd, hent⟩, _⟩ :=
    StInv_processBlocks doc_id blocks initState StInv_initState
  have hids : ∀ p ∈ (processBlocks doc_id blocks initState).clauses,
      p.2.id = p.1 := fun p hp => (hent p hp).1
  have hfresh : ∀ p ∈ (processBlocks doc_id blocks initState).clauses,
      p.2.parent_id = none ∧ p.2.childIds = [] :=
    fun p hp => ⟨(hent p hp).2.1, (hent p hp).2.2.1⟩
  have hperm := flatten_ids_perm hnd hids hfresh doc_id
  have hflt : (flatten_clauses
      (build_clause_hierarchy
        (processBlocks doc_id blocks initState).clauses).2 doc_id
      (build_clause_hierarchy
        (processBlocks doc_id blocks initState).clauses).1).filter
      (fun ch => ch.id == doc_id ++ "_misc") = [] := by
    refine filter_nil_of_false fun ch hch => ?_
    show (ch.id == doc_id ++ "_misc") = false
    have hidmem : ch.id ∈ (processBlocks doc_id blocks initState).clauses.map
        (fun p => p.1) :=
      hperm.mem_iff.mp (List.mem_map.mpr ⟨ch, hch, rfl⟩)
    obtain ⟨q, hq, hqe⟩ := List.mem_map.mp hidmem
    have hgood : goodId ch.id := by
      rw [← hqe]
      exact (hent q hq).2.2.2
    have hne := @goodId_ne_misc ch.id doc_id hgood
    cases hb : (ch.id == doc_id ++ "_misc") with
    | false => rfl
    | true => exact absurd (by simpa using hb) hne
  have hlen : (flatten_clauses
      (build_clause_hierarchy
        (processBlocks doc_id blocks initState).clauses).2 doc_id
      (build_clause_hierarchy
        (processBlocks doc_id blocks initState).clauses).1).length =
      (processBlocks doc_id blocks initState).clauses.length := by
    have h1 := hperm.length_eq
    rw [List.length_map] at h1
    rw [h1, List.length_map]
  unfold convert_file
  dsimp only
  by_cases hm : 0 < (processBlocks doc_id blocks initState).counters.misc_images
  · rw [if_pos hm]
    refine ⟨?_, ?_, ⟨rfl, rfl, rfl⟩, ?_⟩
    · show ((_ ++ [miscNode _ _]).filter _).length = _
      rw [List.filter_append, hflt, if_pos hm, List.nil_append,
        List.filter_cons, if_pos (by simp [miscNode])]
      rfl
    · intro _
      exact ⟨_, rfl, hperm⟩
    · show (flatten_clauses _ _ _).length + 1 = _
      rw [if_pos hm, hlen]
  · rw [if_neg hm]
    refine ⟨?_, ?_, ⟨rfl, rfl, rfl⟩, ?_⟩
    · show ((flatten_clauses _ _ _).filter _).length = _
      rw [hflt, if_neg hm]
      rfl
    · intro hc
      exact absurd hc hm
    · show (flatten_clauses _ _ _).length = _
      rw [if_neg hm, hlen]
      omega

/-- Sanity check: one clause, no images — no misc chunk. -/
example :
    ((convert_file "doc"
      [Block.mk "SectionHeader" "1 Scope" "" none [] []]).chunks.map
      (fun ch => ch.id)) = ["1"] := by decide

/-- Sanity check: an image before any clause opens, then a clause — the
misc chunk is appended after the clause chunk and counted. -/
example :
    ((convert_file "doc"
      [Block.mk "Picture" "" "" none
        [{ key := "img", b64Empty := false, decoded := some [1, 2],
           saveOk := true }] [],
       Block.mk "SectionHeader" "1 Scope" "" none [] []]).chunks.map
      (fun ch => ch.id)) = ["1", "doc_misc"] ∧
    (convert_file "doc"
      [Block.mk "Picture" "" "" none
        [{ key := "img", b64Empty := false, decoded := some [1, 2],
           saveOk := true }] [],
       Block.mk "SectionHeader" "1 Scope" "" none [] []]).statistics.total_chunks
      = 2 := by decide

end ETL
